import Mathlib

/-!
Lua-style pattern matching (`_luapatt.c`): a shallow embedding

Byte strings are lists of natural numbers (byte values), C pointers into the
subject or the pattern are indices into those lists, and the NUL terminator
that follows every buffer is what `byteAt` reads one past the end.  `NULL`
results are `none`; `raise_error` aborts the whole call and is the `error`
constructor of `Res`.
-/

namespace LuaPatt

/-! ## Data model -/

abbrev Bytes := List Nat

/-- Read `buf[i]`; the byte one past the end is the NUL terminator. -/
def byteAt (b : Bytes) (i : Nat) : Nat := b.getD i 0

/-- Bytes of a string literal (used for concrete inputs only). -/
def bytesOf (s : String) : Bytes := s.toList.map Char.toNat

/-- Modelled from the spec: `raise_error` (the renamed `luaL_error`), which is
not part of the repository, aborts the whole call: "all errors are
fatal-to-the-call".  These are the errors it is called with, plus the host
argument check and the C `assert` of `reprepstate`. -/
inductive Err where
  | invalidCaptureIndex (l : Int)
  | invalidPatternCapture
  | malformedEndsWithEsc
  | malformedMissingBracket
  | malformedMissingArgsB
  | missingBracketAfterF
  | tooManyCaptures
  | patternTooComplex
  | unfinishedCapture
  | invalidUseOfEscInReplacement
  | invalidReplacementValue
  | badArgument
  | assertionFailed
deriving DecidableEq, Repr

/-- Outcome of a modelled C call: a normal return, an aborting error, or the
embedding's own recursion fuel running out (which never happens for the fuel
the driving operations supply). -/
inductive Res (α : Type) where
  | ok (a : α)
  | error (e : Err)
  | outOfFuel
deriving DecidableEq, Repr

namespace Res

def bind {α β : Type} (x : Res α) (f : α → Res β) : Res β :=
  match x with
  | ok a => f a
  | error e => error e
  | outOfFuel => outOfFuel

instance : Monad Res where
  pure := Res.ok
  bind := Res.bind

/-- The call aborted through `raise_error` (or an argument check or assert). -/
def isError {α : Type} : Res α → Bool
  | error _ => true
  | _ => false

end Res

def CAP_UNFINISHED : Int := -1
def CAP_POSITION : Int := -2
def MAXCAPTURES : Nat := 32
def MAXCCALLS : Nat := 200
def ESC : Nat := 37
/-- The bytes of `SPECIALS`, "^$*+?.([%-". -/
def SPECIALS : Bytes := [94, 36, 42, 43, 63, 46, 40, 91, 37, 45]

structure Capture where
  init : Nat
  len : Int
deriving DecidableEq, Repr, Inhabited

/-- The C `MatchState`: `src_init` is index 0 of `src`, `src_end` is
`src.length`, `p_end` is `pat.length`; `capture` is the fixed array of
`MAXCAPTURES` records. -/
structure MatchState where
  src : Bytes
  pat : Bytes
  matchdepth : Nat
  level : Nat
  capture : List Capture
deriving DecidableEq, Repr

def MatchState.src_end (ms : MatchState) : Nat := ms.src.length
def MatchState.p_end (ms : MatchState) : Nat := ms.pat.length
def MatchState.cap (ms : MatchState) (l : Nat) : Capture := ms.capture.getD l ⟨0, 0⟩

/-- The result of a matcher call: the end position (or `NULL`) and the state. -/
abbrev MRes := Res (Option Nat × MatchState)

/-- The type of the recursive matcher, passed to the helpers that call it. -/
abbrev Matcher := MatchState → Nat → Nat → MRes

/-! ## Memory primitives of the C library -/

/-- Modelled from the spec: the libc `memchr` used for the first-byte scan,
which is not part of the repository: the first index in `[s1, s1 + n)` whose
byte is `c`. -/
def memchr (s : Bytes) (c : Nat) : Nat → Nat → Option Nat
  | 0, _ => none
  | n + 1, s1 => if byteAt s s1 = c then some s1 else memchr s c n (s1 + 1)

/-- Modelled from the spec: the libc test `memcmp(a + x, b + y, n) == 0` used
for the full compare, which is not part of the repository. -/
def memeq (a : Bytes) (b : Bytes) : Nat → Nat → Nat → Bool
  | 0, _, _ => true
  | n + 1, x, y => decide (byteAt a x = byteAt b y) && memeq a b n (x + 1) (y + 1)

/-! ## Capture bookkeeping -/

def check_capture (ms : MatchState) (l : Nat) : Res Nat :=
  let l1 : Int := (l : Int) - 49
  if l1 < 0 ∨ l1 ≥ (ms.level : Int) ∨ (ms.cap l1.toNat).len = CAP_UNFINISHED then
    .error (.invalidCaptureIndex (l1 + 1))
  else .ok l1.toNat

/-- The loop of `capture_to_close`; the argument is `level + 1` for the
index `level` inspected next. -/
def capture_to_close_loop (ms : MatchState) : Nat → Res Nat
  | 0 => .error .invalidPatternCapture
  | level + 1 =>
    if (ms.cap level).len = CAP_UNFINISHED then .ok level
    else capture_to_close_loop ms level

def capture_to_close (ms : MatchState) : Res Nat :=
  capture_to_close_loop ms ms.level

/-! ## Pattern scanner -/

/-- The `do ... while (*p != ']')` loop of `classend`. -/
def classend_loop (ms : MatchState) : Nat → Nat → Res Nat
  | 0, _ => .outOfFuel
  | fuel + 1, p =>
    if p = ms.p_end then .error .malformedMissingBracket
    else
      let p1 := p + 1
      let p2 := if byteAt ms.pat p = ESC ∧ p1 < ms.p_end then p1 + 1 else p1
      if byteAt ms.pat p2 ≠ 93 /- ']' -/ then classend_loop ms fuel p2
      else .ok (p2 + 1)

def classend (ms : MatchState) (p : Nat) : Res Nat :=
  let c := byteAt ms.pat p
  let p := p + 1
  if c = ESC then
    if p = ms.p_end then .error .malformedEndsWithEsc
    else .ok (p + 1)
  else if c = 91 /- '[' -/ then
    let p := if byteAt ms.pat p = 94 /- '^' -/ then p + 1 else p
    classend_loop ms (ms.p_end + 1 - p) p
  else .ok p

/-! ## Class evaluator -/

/-- Modelled from the spec: the `<ctype.h>` predicate `isalpha`, which is not
part of the repository, with the locale-independent ASCII meaning the spec
gives the classes ("letter"). -/
def isalpha (c : Nat) : Bool := (65 ≤ c ∧ c ≤ 90) ∨ (97 ≤ c ∧ c ≤ 122)

/-- Modelled from the spec: `iscntrl` of `<ctype.h>` ("control"), ASCII. -/
def iscntrl (c : Nat) : Bool := c ≤ 31 ∨ c = 127

/-- Modelled from the spec: `isdigit` of `<ctype.h>` ("digit"), ASCII. -/
def isdigit (c : Nat) : Bool := 48 ≤ c ∧ c ≤ 57

/-- Modelled from the spec: `isgraph` of `<ctype.h>` ("printable-non-space"),
ASCII. -/
def isgraph (c : Nat) : Bool := 33 ≤ c ∧ c ≤ 126

/-- Modelled from the spec: `islower` of `<ctype.h>` ("lowercase"), ASCII. -/
def islower (c : Nat) : Bool := 97 ≤ c ∧ c ≤ 122

/-- Modelled from the spec: `isupper` of `<ctype.h>` ("uppercase"), ASCII. -/
def isupper (c : Nat) : Bool := 65 ≤ c ∧ c ≤ 90

/-- Modelled from the spec: `isalnum` of `<ctype.h>` ("alphanumeric"), ASCII. -/
def isalnum (c : Nat) : Bool := isalpha c || isdigit c

/-- Modelled from the spec: `ispunct` of `<ctype.h>` ("punctuation"), ASCII:
printable, neither a space nor alphanumeric. -/
def ispunct (c : Nat) : Bool := isgraph c && !isalnum c

/-- Modelled from the spec: `isspace` of `<ctype.h>` ("whitespace"), ASCII. -/
def isspace (c : Nat) : Bool := (9 ≤ c ∧ c ≤ 13) ∨ c = 32

/-- Modelled from the spec: `isxdigit` of `<ctype.h>` ("hexadecimal digit"),
ASCII. -/
def isxdigit (c : Nat) : Bool :=
  isdigit c || decide (65 ≤ c ∧ c ≤ 70) || decide (97 ≤ c ∧ c ≤ 102)

/-- Modelled from the spec: `tolower` of `<ctype.h>`, ASCII. -/
def tolower (c : Nat) : Nat := if isupper c then c + 32 else c

def match_class (c cl : Nat) : Bool :=
  let t := tolower cl
  let fin (res : Bool) : Bool := if islower cl then res else !res
  if t = 97 /- 'a' -/ then fin (isalpha c)
  else if t = 99 /- 'c' -/ then fin (iscntrl c)
  else if t = 100 /- 'd' -/ then fin (isdigit c)
  else if t = 103 /- 'g' -/ then fin (isgraph c)
  else if t = 108 /- 'l' -/ then fin (islower c)
  else if t = 112 /- 'p' -/ then fin (ispunct c)
  else if t = 115 /- 's' -/ then fin (isspace c)
  else if t = 117 /- 'u' -/ then fin (isupper c)
  else if t = 119 /- 'w' -/ then fin (isalnum c)
  else if t = 120 /- 'x' -/ then fin (isxdigit c)
  else if t = 122 /- 'z' -/ then fin (c = 0)
  else cl = c

/-- The `while (++p < ec)` loop of `matchbracketclass`; `p` is the value
before the increment.  The fuel `ec - p` bounds the iterations, each of which
advances `p`. -/
def matchbracketclass_loop (pat : Bytes) (c : Nat) (sig : Bool) (ec : Nat) :
    Nat → Nat → Bool
  | 0, _ => !sig
  | fuel + 1, p0 =>
    let p := p0 + 1
    if p < ec then
      if byteAt pat p = ESC then
        let p := p + 1
        if match_class c (byteAt pat p) then sig
        else matchbracketclass_loop pat c sig ec fuel p
      else if byteAt pat (p + 1) = 45 /- '-' -/ ∧ p + 2 < ec then
        let p := p + 2
        if byteAt pat (p - 2) ≤ c ∧ c ≤ byteAt pat p then sig
        else matchbracketclass_loop pat c sig ec fuel p
      else if byteAt pat p = c then sig
      else matchbracketclass_loop pat c sig ec fuel p
    else !sig

def matchbracketclass (pat : Bytes) (c p ec : Nat) : Bool :=
  if byteAt pat (p + 1) = 94 /- '^' -/ then
    matchbracketclass_loop pat c false ec (ec - (p + 1)) (p + 1)
  else matchbracketclass_loop pat c true ec (ec - p) p

def singlematch (ms : MatchState) (s p ep : Nat) : Bool :=
  if s ≥ ms.src_end then false
  else
    let c := byteAt ms.src s
    let pc := byteAt ms.pat p
    if pc = 46 /- '.' -/ then true
    else if pc = ESC then match_class c (byteAt ms.pat (p + 1))
    else if pc = 91 /- '[' -/ then matchbracketclass ms.pat c p (ep - 1)
    else pc = c

/-! ## Matcher -/

/-- The `while (++s < ms->src_end)` loop of `matchbalance`, run over the
subject bytes that follow `s`; `s` is the value before the increment. -/
def matchbalance_loop (b e : Nat) : Bytes → Nat → Int → Option Nat
  | [], _, _ => none
  | c :: rest, s, cont =>
    if c = e then
      if cont - 1 = 0 then some (s + 1 + 1)
      else matchbalance_loop b e rest (s + 1) (cont - 1)
    else if c = b then matchbalance_loop b e rest (s + 1) (cont + 1)
    else matchbalance_loop b e rest (s + 1) cont

def matchbalance (ms : MatchState) (s p : Nat) : Res (Option Nat) :=
  if p + 1 ≥ ms.p_end then .error .malformedMissingArgsB
  else if byteAt ms.src s ≠ byteAt ms.pat p then .ok none
  else
    let b := byteAt ms.pat p
    let e := byteAt ms.pat (p + 1)
    .ok (matchbalance_loop b e (ms.src.drop (s + 1)) s 1)

/-- The first loop of `max_expand`: `while (singlematch(ms, s + i, p, ep)) i++`.
The fuel bounds the iterations; `singlematch` fails at the subject end. -/
def max_expand_count (ms : MatchState) (s p ep : Nat) : Nat → Nat → Nat
  | 0, i => i
  | fuel + 1, i =>
    if singlematch ms (s + i) p ep then max_expand_count ms s p ep fuel (i + 1)
    else i

/-- The second loop of `max_expand`: `while (i >= 0)`, trying the rest of the
pattern with `i` repetitions and then with one fewer. -/
def max_expand_try (m : Matcher) (s ep : Nat) : Nat → MatchState → MRes
  | 0, ms => m ms s (ep + 1)
  | i + 1, ms =>
    match m ms (s + (i + 1)) (ep + 1) with
    | .ok (some res, ms1) => .ok (some res, ms1)
    | .ok (none, ms1) => max_expand_try m s ep i ms1
    | .error e => .error e
    | .outOfFuel => .outOfFuel

def max_expand (m : Matcher) (ms : MatchState) (s p ep : Nat) : MRes :=
  let i := max_expand_count ms s p ep (ms.src_end - s) 0
  max_expand_try m s ep i ms

/-- The `for (;;)` loop of `min_expand`; the fuel bounds the iterations, each
of which advances `s`, and `singlematch` fails at the subject end. -/
def min_expand_loop (m : Matcher) (p ep : Nat) : Nat → MatchState → Nat → MRes
  | 0, _, _ => .outOfFuel
  | fuel + 1, ms, s =>
    match m ms s (ep + 1) with
    | .ok (some res, ms1) => .ok (some res, ms1)
    | .ok (none, ms1) =>
      if singlematch ms1 s p ep then min_expand_loop m p ep fuel ms1 (s + 1)
      else .ok (none, ms1)
    | .error e => .error e
    | .outOfFuel => .outOfFuel

def min_expand (m : Matcher) (ms : MatchState) (s p ep : Nat) : MRes :=
  min_expand_loop m p ep (ms.src_end - s + 1) ms s

def start_capture (m : Matcher) (ms : MatchState) (s p : Nat) (what : Int) : MRes :=
  let level := ms.level
  if level ≥ MAXCAPTURES then .error .tooManyCaptures
  else
    let ms1 := { ms with capture := ms.capture.set level ⟨s, what⟩, level := level + 1 }
    match m ms1 s p with
    | .ok (none, ms2) => .ok (none, { ms2 with level := (ms2.level + 255) % 256 })
    | r => r

def end_capture (m : Matcher) (ms : MatchState) (s p : Nat) : MRes :=
  match capture_to_close ms with
  | .ok l =>
    let ms1 := { ms with capture := ms.capture.set l ⟨(ms.cap l).init, (s : Int) - (ms.cap l).init⟩ }
    match m ms1 s p with
    | .ok (none, ms2) =>
      .ok (none, { ms2 with capture := ms2.capture.set l ⟨(ms2.cap l).init, CAP_UNFINISHED⟩ })
    | r => r
  | .error e => .error e
  | .outOfFuel => .outOfFuel

/-- The `size_t` value of a `ptrdiff_t` on a 64-bit target. -/
def toSizeT (x : Int) : Nat := (x % (2 ^ 64 : Int)).toNat

def match_capture (ms : MatchState) (s l : Nat) : Res (Option Nat) :=
  match check_capture ms l with
  | .ok l =>
    let len := toSizeT (ms.cap l).len
    if ms.src_end - s ≥ len ∧ memeq ms.src ms.src len (ms.cap l).init s then
      .ok (some (s + len))
    else .ok none
  | .error e => .error e
  | .outOfFuel => .outOfFuel

/-- The `default:` branch of `match` (label `dflt`): a single pattern item
with its optional suffix.  `goto` continues at label `init` in the same
invocation, `call` is a recursive call of `match`. -/
def match_default (goto call : Matcher) (ms : MatchState) (s p : Nat) : MRes :=
  match classend ms p with
  | .ok ep =>
    let epc := byteAt ms.pat ep
    if ¬ singlematch ms s p ep then
      if epc = 42 /- '*' -/ ∨ epc = 63 /- '?' -/ ∨ epc = 45 /- '-' -/ then
        goto ms s (ep + 1)
      else .ok (none, ms)
    else if epc = 63 /- '?' -/ then
      match call ms (s + 1) (ep + 1) with
      | .ok (some res, ms1) => .ok (some res, ms1)
      | .ok (none, ms1) => goto ms1 s (ep + 1)
      | .error e => .error e
      | .outOfFuel => .outOfFuel
    else if epc = 43 /- '+' -/ then max_expand call ms (s + 1) p ep
    else if epc = 42 /- '*' -/ then max_expand call ms s p ep
    else if epc = 45 /- '-' -/ then min_expand call ms s p ep
    else goto ms (s + 1) ep
  | .error e => .error e
  | .outOfFuel => .outOfFuel

/-- Entry and exit of `match`: the recursion budget is checked and
decremented before the body runs and incremented when it returns. -/
def match_entry (body : Matcher) : Matcher := fun ms s p =>
  if ms.matchdepth = 0 then .error .patternTooComplex
  else
    match body { ms with matchdepth := ms.matchdepth - 1 } s p with
    | .ok (r, ms1) => .ok (r, { ms1 with matchdepth := ms1.matchdepth + 1 })
    | .error e => .error e
    | .outOfFuel => .outOfFuel

/-- The body of `match` from label `init`.  Every `goto init` and every
recursive call advances the pattern cursor, and each consumes one unit of
fuel. -/
def match_init : Nat → Matcher
  | 0, _, _, _ => .outOfFuel
  | fuel + 1, ms, s, p =>
    let goto : Matcher := match_init fuel
    let call : Matcher := match_entry (match_init fuel)
    if p ≠ ms.p_end then
      let c := byteAt ms.pat p
      if c = 40 /- '(' -/ then
        if byteAt ms.pat (p + 1) = 41 /- ')' -/ then
          start_capture call ms s (p + 2) CAP_POSITION
        else start_capture call ms s (p + 1) CAP_UNFINISHED
      else if c = 41 /- ')' -/ then end_capture call ms s (p + 1)
      else if c = 36 /- '$' -/ ∧ p + 1 = ms.p_end then
        .ok (if s = ms.src_end then some s else none, ms)
      else if c = ESC then
        let c1 := byteAt ms.pat (p + 1)
        if c1 = 98 /- 'b' -/ then
          match matchbalance ms s (p + 2) with
          | .ok (some s1) => goto ms s1 (p + 4)
          | .ok none => .ok (none, ms)
          | .error e => .error e
          | .outOfFuel => .outOfFuel
        else if c1 = 102 /- 'f' -/ then
          let p := p + 2
          if byteAt ms.pat p ≠ 91 /- '[' -/ then .error .missingBracketAfterF
          else
            match classend ms p with
            | .ok ep =>
              let previous := if s = 0 then 0 else byteAt ms.src (s - 1)
              if ¬ matchbracketclass ms.pat previous p (ep - 1) ∧
                  matchbracketclass ms.pat (byteAt ms.src s) p (ep - 1) then
                goto ms s ep
              else .ok (none, ms)
            | .error e => .error e
            | .outOfFuel => .outOfFuel
        else if 48 ≤ c1 ∧ c1 ≤ 57 /- '0'..'9' -/ then
          match match_capture ms s c1 with
          | .ok (some s1) => goto ms s1 (p + 2)
          | .ok none => .ok (none, ms)
          | .error e => .error e
          | .outOfFuel => .outOfFuel
        else match_default goto call ms s p
      else match_default goto call ms s p
    else .ok (some s, ms)

/-- The C function `match`. -/
def do_match (fuel : Nat) : Matcher := match_entry (match_init fuel)

/-! ## Plain-search fast path -/

/-- The `while` loop of `lmemfind`, with `l2` already decremented.  The fuel
is the initial `l1`, which every iteration decreases. -/
def lmemfind_loop (s p : Bytes) (l2 : Nat) : Nat → Nat → Nat → Option Nat
  | 0, _, _ => none
  | fuel + 1, s1, l1 =>
    if l1 > 0 then
      match memchr s (byteAt p 0) l1 s1 with
      | some init0 =>
        let init := init0 + 1
        if memeq s p l2 init 1 then some (init - 1)
        else lmemfind_loop s p l2 fuel init (l1 - (init - s1))
      | none => none
    else none

/-- The C `lmemfind(s + s1, l1, p, l2)`; the result is an index into `s`. -/
def lmemfind (s : Bytes) (s1 l1 : Nat) (p : Bytes) (l2 : Nat) : Option Nat :=
  if l2 = 0 then some s1
  else if l2 > l1 then none
  else
    let l2 := l2 - 1
    let l1 := l1 - l2
    lmemfind_loop s p l2 l1 s1 l1

/-- Modelled from the spec: the C string `p + upto` that the libc `strpbrk`
and `strlen` see, which runs up to the next NUL byte. -/
def cstring (p : Bytes) (upto : Nat) : Bytes := (p.drop upto).takeWhile (fun c => c ≠ 0)

/-- The `do ... while (upto <= l)` loop of `nospecials`. -/
def nospecials_loop (p : Bytes) (l : Nat) : Nat → Nat → Bool
  | 0, _ => true
  | fuel + 1, upto =>
    if (cstring p upto).any (fun c => c ∈ SPECIALS) then false
    else
      let upto := upto + (cstring p upto).length + 1
      if upto ≤ l then nospecials_loop p l fuel upto else true

def nospecials (p : Bytes) (l : Nat) : Bool := nospecials_loop p l (l + 1) 0

/-! ## Capture materializer -/

/-- A value handed to the host: a byte string or an integer. -/
inductive LVal where
  | str (b : Bytes)
  | int (n : Int)
deriving DecidableEq, Repr

def push_onecapture (ms : MatchState) (i s e : Nat) : Res LVal :=
  if i ≥ ms.level then
    if i = 0 then .ok (.str ((ms.src.drop s).take (e - s)))
    else .error (.invalidCaptureIndex (i + 1))
  else
    let l := (ms.cap i).len
    if l = CAP_UNFINISHED then .error .unfinishedCapture
    else if l = CAP_POSITION then .ok (.int ((ms.cap i).init + 1))
    else .ok (.str ((ms.src.drop (ms.cap i).init).take l.toNat))

/-- The `for` loop of `push_captures`, pushing the captures `i`, `i + 1`, ...;
the first argument is `nlevels - i`. -/
def push_captures_loop (ms : MatchState) (s e : Nat) : Nat → Nat → Res (List LVal)
  | 0, _ => .ok []
  | n + 1, i =>
    match push_onecapture ms i s e with
    | .ok v =>
      match push_captures_loop ms s e n (i + 1) with
      | .ok vs => .ok (v :: vs)
      | r => r
    | .error err => .error err
    | .outOfFuel => .outOfFuel

/-- The C `push_captures(ms, s, e)`; `s` is `none` for a `NULL` pointer. -/
def push_captures (ms : MatchState) (s : Option Nat) (e : Nat) : Res (List LVal) :=
  let nlevels := if ms.level = 0 ∧ s.isSome then 1 else ms.level
  push_captures_loop ms (s.getD 0) e nlevels 0

/-! ## Driving operations -/

def posrelat (pos : Int) (len : Nat) : Int :=
  if pos ≥ 0 then pos
  else if -pos > (len : Int) then 0
  else (len : Int) + pos + 1

/-- The array of capture records before anything is stored in it. -/
def blankCaptures : List Capture := List.replicate MAXCAPTURES ⟨0, 0⟩

/-- The C `prepstate`, applied to a fresh `MatchState`; `p_end` is the end of
the whole pattern buffer, also when the caller skipped an anchor. -/
def prepstate (s p : Bytes) : MatchState :=
  { src := s, pat := p, matchdepth := MAXCCALLS, level := 0, capture := blankCaptures }

def reprepstate (ms : MatchState) : Res MatchState :=
  if ms.matchdepth = MAXCCALLS then .ok { ms with level := 0 }
  else .error .assertionFailed

/-- Fuel for one call of `match` on a pattern of length `lp`: every step of
the matcher advances the pattern cursor. -/
def matchFuel (lp : Nat) : Nat := lp + 1

/-- The `do ... while (s1++ < ms.src_end && !anchor)` loop of `str_find_aux`. -/
def str_find_loop (find anchor : Bool) (p : Nat) : Nat → MatchState → Nat → Res (Option (List LVal))
  | 0, _, _ => .outOfFuel
  | n + 1, ms, s1 =>
    match reprepstate ms with
    | .ok ms0 =>
      match do_match (matchFuel ms0.p_end) ms0 s1 p with
      | .ok (some res, ms1) =>
        if find then
          match push_captures ms1 none 0 with
          | .ok caps => .ok (some (.int (s1 + 1) :: .int res :: caps))
          | .error e => .error e
          | .outOfFuel => .outOfFuel
        else
          match push_captures ms1 (some s1) res with
          | .ok caps => .ok (some caps)
          | .error e => .error e
          | .outOfFuel => .outOfFuel
      | .ok (none, ms1) =>
        if s1 < ms1.src_end ∧ ¬ anchor then str_find_loop find anchor p n ms1 (s1 + 1)
        else .ok none
      | .error e => .error e
      | .outOfFuel => .outOfFuel
    | .error e => .error e
    | .outOfFuel => .outOfFuel

/-- The C `str_find_aux(find)` on subject `s`, pattern `p`, third argument
`init` and fourth argument `plain`; the result is the list of values pushed,
or `none` for `nil`.  The length `ls - (size_t)init + 1` handed to `lmemfind` is
computed modulo the word size and equals `ls + 1 - init`, as `init ≤ ls + 1`
there.  `init` stands for the value received by the C `int` parameter of
`posrelat`: the host integer is taken to be in the range of `int`, outside of
which the conversion wraps. -/
def str_find_aux (find : Bool) (s p : Bytes) (init : Int) (plain : Bool) :
    Res (Option (List LVal)) :=
  let ls := s.length
  let lp := p.length
  let init := posrelat init ls
  let init := if init < 1 then 1 else init
  if init > (ls : Int) + 1 then .ok none
  else
    let init := init.toNat
    if find ∧ (plain ∨ nospecials p lp) then
      match lmemfind s (init - 1) (ls + 1 - init) p lp with
      | some s2 => .ok (some [.int (s2 + 1), .int (s2 + lp)])
      | none => .ok none
    else
      let s1 := init - 1
      let anchor : Bool := byteAt p 0 = 94 /- '^' -/
      let p0 := if anchor then 1 else 0
      let ms := prepstate s p
      str_find_loop find anchor p0 (ms.src_end - s1 + 1) ms s1

def str_find (s p : Bytes) (init : Int) (plain : Bool) : Res (Option (List LVal)) :=
  str_find_aux true s p init plain

def str_match (s p : Bytes) (init : Int) : Res (Option (List LVal)) :=
  str_find_aux false s p init false

/-- The C `GMatchState`; `lastmatch` is `none` for `NULL`. -/
structure GMatchState where
  src : Nat
  p : Nat
  lastmatch : Option Nat
  ms : MatchState
deriving DecidableEq, Repr

/-- The `for` loop of `gmatch_aux`; the result is the list of captures
pushed, or `none` when the loop ends without a match. -/
def gmatch_aux_loop : Nat → GMatchState → Nat → Res (Option (List LVal) × GMatchState)
  | 0, _, _ => .outOfFuel
  | n + 1, gm, src =>
    if src ≤ gm.ms.src_end then
      match reprepstate gm.ms with
      | .ok ms0 =>
        match do_match (matchFuel ms0.p_end) ms0 src gm.p with
        | .ok (some e, ms1) =>
          if some e ≠ gm.lastmatch then
            match push_captures ms1 (some src) e with
            | .ok caps => .ok (some caps, { gm with src := e, lastmatch := some e, ms := ms1 })
            | .error err => .error err
            | .outOfFuel => .outOfFuel
          else gmatch_aux_loop n { gm with ms := ms1 } (src + 1)
        | .ok (none, ms1) => gmatch_aux_loop n { gm with ms := ms1 } (src + 1)
        | .error err => .error err
        | .outOfFuel => .outOfFuel
      | .error err => .error err
      | .outOfFuel => .outOfFuel
    else .ok (none, gm)

/-- One step of the generator: the C `gmatch_aux`, entered with the state of
the closure.  A step that raises is reported by the error alone; the state that
a raise leaves in the closure is given by `gmatch_aux_kept`. -/
def gmatch_aux (gm : GMatchState) : Res (Option (List LVal) × GMatchState) :=
  gmatch_aux_loop (gm.ms.src_end + 1 - gm.src + 1) gm gm.src

/-- The C `gmatch`: the initial state of the generator. -/
def gmatch (s p : Bytes) : GMatchState :=
  { src := 0, p := 0, lastmatch := none, ms := prepstate s p }

/-- What a lookup or a call of the replacement gives back, as the host
reports it: nil or false, a string or number (as text), or anything else. -/
inductive RVal where
  | falsy
  | text (b : Bytes)
  | other
deriving DecidableEq, Repr

/-- The third argument of `gsub` by its host type: a string or number (as
text), a table, a function, or a value of any other type. -/
inductive Repl where
  | template (news : Bytes)
  | table (get : LVal → RVal)
  | function (call : List LVal → RVal)
  | other

/-- Modelled from the spec: the host conversion `luaL_tolstring` of a pushed
capture, which is not part of the repository: a position capture becomes its
decimal digits. -/
def tolstring : LVal → Bytes
  | .str b => b
  | .int n => bytesOf (toString n)

/-- The `for` loop of `add_s` over the remaining bytes of the replacement
string; the byte after a final ESC is the NUL terminator. -/
def add_s (ms : MatchState) (s e : Nat) : Bytes → Bytes → Res Bytes
  | [], b => .ok b
  | [c], b =>
    if c ≠ ESC then .ok (b ++ [c])
    else .error .invalidUseOfEscInReplacement
  | c :: d :: rest, b =>
    if c ≠ ESC then add_s ms s e (d :: rest) (b ++ [c])
    else if ¬ isdigit d then
      if d ≠ ESC then .error .invalidUseOfEscInReplacement
      else add_s ms s e rest (b ++ [d])
    else if d = 48 /- '0' -/ then add_s ms s e rest (b ++ (ms.src.drop s).take (e - s))
    else
      match push_onecapture ms (d - 49) s e with
      | .ok v => add_s ms s e rest (b ++ tolstring v)
      | .error err => .error err
      | .outOfFuel => .outOfFuel

/-- The tail of `add_value` after a call or a lookup. -/
def add_result (ms : MatchState) (b : Bytes) (s e : Nat) : RVal → Res Bytes
  | .falsy => .ok (b ++ (ms.src.drop s).take (e - s))
  | .text t => .ok (b ++ t)
  | .other => .error .invalidReplacementValue

/-- The C `add_value`; the replacement type `tr` is the constructor of the
replacement.  The last case is not reached: `str_gsub` rejects such an
argument before the loop. -/
def add_value (ms : MatchState) (b : Bytes) (s e : Nat) : Repl → Res Bytes
  | .function call =>
    match push_captures ms (some s) e with
    | .ok args => add_result ms b s e (call args)
    | .error err => .error err
    | .outOfFuel => .outOfFuel
  | .table get =>
    match push_onecapture ms 0 s e with
    | .ok key => add_result ms b s e (get key)
    | .error err => .error err
    | .outOfFuel => .outOfFuel
  | .template news => add_s ms s e news b
  | .other => .error .badArgument

/-- The end of `str_gsub`: the rest of the subject is appended and the text
and the count are returned. -/
def gsub_finish (ms : MatchState) (b : Bytes) (src : Nat) (n : Int) : Res (Bytes × Int) :=
  .ok (b ++ ms.src.drop src, n)

/-- The `while (n < max_s)` loop of `str_gsub`. -/
def gsub_loop (repl : Repl) (anchor : Bool) (p : Nat) (max_s : Int) :
    Nat → MatchState → Nat → Option Nat → Int → Bytes → Res (Bytes × Int)
  | 0, _, _, _, _, _ => .outOfFuel
  | k + 1, ms, src, lastmatch, n, b =>
    if n < max_s then
      match reprepstate ms with
      | .ok ms0 =>
        match do_match (matchFuel ms0.p_end) ms0 src p with
        | .ok (r, ms1) =>
          if r.isSome ∧ r ≠ lastmatch then
            let e := r.getD 0
            match add_value ms1 b src e repl with
            | .ok b1 =>
              if anchor then gsub_finish ms1 b1 e (n + 1)
              else gsub_loop repl anchor p max_s k ms1 e (some e) (n + 1) b1
            | .error err => .error err
            | .outOfFuel => .outOfFuel
          else if src < ms1.src_end then
            if anchor then gsub_finish ms1 (b ++ [byteAt ms1.src src]) (src + 1) n
            else gsub_loop repl anchor p max_s k ms1 (src + 1) lastmatch n (b ++ [byteAt ms1.src src])
          else gsub_finish ms1 b src n
        | .error err => .error err
        | .outOfFuel => .outOfFuel
      | .error err => .error err
      | .outOfFuel => .outOfFuel
    else gsub_finish ms b src n

/-- The C `str_gsub` on subject `src`, pattern `p`, replacement `repl` and
optional fourth argument `max_s`; the result is the text and the count.
`max_s` stands for the value held by the C `int max_s`: the host integer is
taken to be in the range of `int`, outside of which the conversion wraps. -/
def str_gsub (src p : Bytes) (repl : Repl) (max_s : Option Int) : Res (Bytes × Int) :=
  let srcl := src.length
  let max_s : Int := max_s.getD ((srcl : Int) + 1)
  let anchor : Bool := byteAt p 0 = 94 /- '^' -/
  match repl with
  | .other => .error .badArgument
  | _ =>
    let p0 := if anchor then 1 else 0
    let ms := prepstate src p
    gsub_loop repl anchor p0 max_s (max_s.toNat + srcl + 1) ms 0 none 0 []

/-! ## Specification vocabulary -/

/-- Spec side of the naive substring search: the `len(p)` bytes of `s` that
start at the 1-based position `i` equal `p`. -/
def occursAt (s p : Bytes) (i : Nat) : Prop :=
  1 ≤ i ∧ (s.drop (i - 1)).take p.length = p

/-- The host's generic `for` loop over the generator: `gmatch_aux` is called
until it reports exhaustion, and every match is recorded as the pair of the
cursor `gm->src` after the step (the 0-based end of the match) and the
captures pushed.  The loop is cut off (`outOfFuel`) after `k` calls. -/
def gmatch_run : Nat → GMatchState → Res (List (Nat × List LVal))
  | 0, _ => .outOfFuel
  | k + 1, gm =>
    match gmatch_aux gm with
    | .ok (some caps, gm1) =>
      match gmatch_run k gm1 with
      | .ok rest => .ok ((gm1.src, caps) :: rest)
      | r => r
    | .ok (none, _) => .ok []
    | .error e => .error e
    | .outOfFuel => .outOfFuel

/-- Spec side of the balanced item: the stretch of `src` from the 0-based
offset `i` up to (not including) `e` is non-empty, lies in the subject and
holds as many bytes `y` as bytes `x`. -/
def balancedStretch (src : Bytes) (x y i e : Nat) : Prop :=
  i < e ∧ e ≤ src.length ∧
    ((src.drop i).take (e - i)).count y = ((src.drop i).take (e - i)).count x

/-- Nesting depth contributed by a block of bytes: openers minus closers. -/
def depthOf (x y : Nat) (l : Bytes) : Int := (l.count x : Int) - (l.count y : Int)

/-- The bytes of the pattern "(%a+) (%a+)". -/
def twoWordsPattern : Bytes := [40, 37, 97, 43, 41, 32, 40, 37, 97, 43, 41]

/-- The capture array after the `k`-th capture event (open, close, open,
close) of matching "(%a+) (%a+)" against `w1 ++ " " ++ w2`. -/
def twoWordsCaps (w1 w2 : Bytes) : Nat → List Capture
  | 0 => blankCaptures
  | 1 => blankCaptures.set 0 ⟨0, -1⟩
  | 2 => blankCaptures.set 0 ⟨0, w1.length⟩
  | 3 => (blankCaptures.set 0 ⟨0, w1.length⟩).set 1 ⟨w1.length + 1, -1⟩
  | _ => (blankCaptures.set 0 ⟨0, w1.length⟩).set 1 ⟨w1.length + 1, w2.length⟩

/-- What a call of the matcher that returns normally leaves in place: the
buffers, the recursion budget and the size of the capture array; and, when the
call reports failure (`r = none`), the capture count and every capture record
below it. -/
structure FrameOK (ms : MatchState) (r : Option Nat) (ms1 : MatchState) : Prop where
  src : ms1.src = ms.src
  pat : ms1.pat = ms.pat
  depth : ms1.matchdepth = ms.matchdepth
  caplen : ms1.capture.length = ms.capture.length
  level : r = none → ms1.level = ms.level
  caps : r = none → ∀ i, i < ms.level → ms1.cap i = ms.cap i

/-- A matcher all of whose normal returns satisfy `FrameOK`. -/
def Framed (m : Matcher) : Prop :=
  ∀ ms s p r ms1, m ms s p = .ok (r, ms1) → FrameOK ms r ms1

/-- A matcher that never runs out of fuel when the pattern has length `L` and
the pattern cursor is at `lo` or beyond. -/
def FuelFor (m : Matcher) (L lo : Nat) : Prop :=
  ∀ ms s p, ms.p_end = L → lo ≤ p → p ≤ L → m ms s p ≠ .outOfFuel

/-- Two states that agree on everything a matcher call can read: the
buffers, the budget, the capture count and the capture records below it (the
records at and above the count are stale). -/
structure StateEquiv (a b : MatchState) : Prop where
  src : a.src = b.src
  pat : a.pat = b.pat
  depth : a.matchdepth = b.matchdepth
  level : a.level = b.level
  caplen : a.capture.length = b.capture.length
  caps : ∀ i, i < a.level → a.cap i = b.cap i

/-- Two matcher outcomes that agree up to stale capture records. -/
def ResEquiv : MRes → MRes → Prop
  | .ok (r1, m1), .ok (r2, m2) => r1 = r2 ∧ StateEquiv m1 m2
  | .error e1, .error e2 => e1 = e2
  | .outOfFuel, .outOfFuel => True
  | _, _ => False

/-- A matcher whose outcome does not depend on stale capture records. -/
def Respects (m : Matcher) : Prop :=
  ∀ a b s p, StateEquiv a b → ResEquiv (m a s p) (m b s p)

/-- One attempt of the scan loop of `str_find_aux` at the 0-based start `k`:
the matcher run from a freshly prepared state, on the pattern after its
anchor, if it has one. -/
def attempt (s p : Bytes) (k : Nat) : MRes :=
  do_match (matchFuel p.length) (prepstate s p) k (if byteAt p 0 = 94 then 1 else 0)

/-- The 0-based start positions the scan loop tries run from `init - 1` to
this one: the subject end, or `init - 1` itself for an anchored pattern. -/
def lastStart (s p : Bytes) (init : Nat) : Nat :=
  if byteAt p 0 = 94 then init - 1 else s.length

/-- What `find` returns after a successful attempt at the 0-based start `k`
that ended at `e` in state `ms`: the 1-based start, the end and the captures,
or the error of the capture materializer. -/
def findResult (ms : MatchState) (k e : Nat) : Res (Option (List LVal)) :=
  match push_captures ms none 0 with
  | .ok caps => .ok (some (.int (k + 1) :: .int e :: caps))
  | .error err => .error err
  | .outOfFuel => .outOfFuel

/-- A state as the scan loops meet it between two attempts: the buffers of
the call, the full recursion budget and the capture array in place. -/
structure ScanState (s p : Bytes) (ms : MatchState) : Prop where
  src : ms.src = s
  pat : ms.pat = p
  depth : ms.matchdepth = MAXCCALLS
  caplen : ms.capture.length = MAXCAPTURES

/-- A matcher that never fails the C `assert` of `reprepstate` (only
`reprepstate` itself can). -/
def NoAssert (m : Matcher) : Prop :=
  ∀ ms s p, m ms s p ≠ .error .assertionFailed

/-- The matcher `m2` gives the result of `m1` wherever `m1` does not run out
of fuel. -/
def Extends (m1 m2 : Matcher) : Prop :=
  ∀ ms s p, m1 ms s p ≠ .outOfFuel → m2 ms s p = m1 ms s p

/-- Spec side of the bracket-set scan: the offset of the first unescaped `]`
in a stretch of pattern bytes read item by item, where `%` and the byte after
it form one item. -/
def closerOffset : Bytes → Option Nat
  | [] => none
  | [c] => if c = 93 then some 0 else none
  | c :: d :: rest =>
    if c = 93 then some 0
    else if c = ESC then (closerOffset rest).map (· + 2)
    else (closerOffset (d :: rest)).map (· + 1)

/-- Spec side: the position of the first unescaped `]` of the pattern at or
after position `q`, reading set items from `q`. -/
def firstCloser (pat : Bytes) (q : Nat) : Option Nat :=
  (closerOffset (pat.drop q)).map (· + q)

/-- Spec side: the end of the set item that starts at `q`: one byte, or `%`
together with the byte after it. -/
def itemEnd (pat : Bytes) (q : Nat) : Nat :=
  if byteAt pat q = ESC ∧ q + 1 < pat.length then q + 2 else q + 1

/-- The bytes of a capture-open construct: "()" for a position capture and
"(" for an ordinary one. -/
def captureOpen (position : Bool) : Bytes := if position then [40, 41] else [40]

/-- The pattern made of `n` copies of "a?". -/
def optionalAs (n : Nat) : Bytes := (List.replicate n [97, 63]).flatten

/-- The subject made of `n` bytes "a". -/
def runOfAs (n : Nat) : Bytes := List.replicate n 97

/-- The pattern position `p` holds a single pattern item (a literal byte, `.`,
an escape class or a bracket set): the bytes there send the `switch` of `match`
to its `default` label. -/
def singleItemAt (pat : Bytes) (p : Nat) : Prop :=
  byteAt pat p ≠ 40 ∧ byteAt pat p ≠ 41 ∧
    (byteAt pat p = 37 →
      byteAt pat (p + 1) ≠ 98 ∧ byteAt pat (p + 1) ≠ 102 ∧
        ¬ (48 ≤ byteAt pat (p + 1) ∧ byteAt pat (p + 1) ≤ 57))

/-- The remainder of the pattern after a repeated item that ends at `ep`, run
at the subject position `s + k` the way `match` runs it, where `m` is the
number of bytes the item can take: in place (a `goto`) when the item takes no
byte at all, and through a nested call of `match` otherwise. -/
def remainderAt (fuel : Nat) (ms : MatchState) (s ep m k : Nat) : MRes :=
  if m = 0 then match_init fuel ms (s + k) (ep + 1)
  else match_entry (match_init fuel) ms (s + k) (ep + 1)

/-- The capture records below the capture count lie inside the stretch from
`s0` to `s`: each starts there, and each is open, a position capture, or
closed with a length that is not negative and an end at or before `s`. -/
def CapsWithin (s0 : Nat) (ms : MatchState) (s : Nat) : Prop :=
  ∀ i, i < ms.level → s0 ≤ (ms.cap i).init ∧ (ms.cap i).init ≤ s ∧
    ((ms.cap i).len = CAP_UNFINISHED ∨ (ms.cap i).len = CAP_POSITION ∨
      (0 ≤ (ms.cap i).len ∧ ((ms.cap i).init : Int) + (ms.cap i).len ≤ (s : Int)))

/-- A matcher whose successful returns end inside the subject, at or after
the start, with the capture records inside the matched stretch. -/
def InBounds (m : Matcher) : Prop :=
  ∀ s0 ms s p e ms1, MAXCAPTURES ≤ ms.capture.length → s ≤ ms.src_end → s0 ≤ s →
    CapsWithin s0 ms s → m ms s p = .ok (some e, ms1) →
    s ≤ e ∧ e ≤ ms.src_end ∧ CapsWithin s0 ms1 e

/-! ## The state a raise leaves behind

The C matcher writes its `MatchState` in place, so a `raise_error` in the
middle of a match leaves the writes made so far.  `find`, `match` and `gsub`
drop the state with the call; the generator of `gmatch` keeps it in its closure.
The definitions below are the matcher again, returning that state with the
error. -/

/-- The fields of the C `MatchState` that the matcher writes, as a raise leaves
them.  The budget is the C `int matchdepth`: the failed entry check of `match`
(`matchdepth-- == 0`) leaves it at -1. -/
structure Kept where
  matchdepth : Int
  level : Nat
  capture : List Capture
deriving DecidableEq, Repr

def MatchState.kept (ms : MatchState) : Kept := ⟨ms.matchdepth, ms.level, ms.capture⟩

/-- Outcome of a matcher call with the state it leaves: the result and the
state on a normal return, the error and the written fields on a raise. -/
inductive KRes where
  | ok (v : Option Nat × MatchState)
  | raised (e : Err) (k : Kept)
  | outOfFuel
deriving DecidableEq, Repr

abbrev KMatcher := MatchState → Nat → Nat → KRes

/-- The second loop of `max_expand`, keeping the state of a raise. -/
def max_expand_try_kept (m : KMatcher) (s ep : Nat) : Nat → MatchState → KRes
  | 0, ms => m ms s (ep + 1)
  | i + 1, ms =>
    match m ms (s + (i + 1)) (ep + 1) with
    | .ok (some res, ms1) => .ok (some res, ms1)
    | .ok (none, ms1) => max_expand_try_kept m s ep i ms1
    | .raised e k => .raised e k
    | .outOfFuel => .outOfFuel

def max_expand_kept (m : KMatcher) (ms : MatchState) (s p ep : Nat) : KRes :=
  let i := max_expand_count ms s p ep (ms.src_end - s) 0
  max_expand_try_kept m s ep i ms

/-- The `for (;;)` loop of `min_expand`, keeping the state of a raise. -/
def min_expand_loop_kept (m : KMatcher) (p ep : Nat) : Nat → MatchState → Nat → KRes
  | 0, _, _ => .outOfFuel
  | fuel + 1, ms, s =>
    match m ms s (ep + 1) with
    | .ok (some res, ms1) => .ok (some res, ms1)
    | .ok (none, ms1) =>
      if singlematch ms1 s p ep then min_expand_loop_kept m p ep fuel ms1 (s + 1)
      else .ok (none, ms1)
    | .raised e k => .raised e k
    | .outOfFuel => .outOfFuel

def min_expand_kept (m : KMatcher) (ms : MatchState) (s p ep : Nat) : KRes :=
  min_expand_loop_kept m p ep (ms.src_end - s + 1) ms s

def start_capture_kept (m : KMatcher) (ms : MatchState) (s p : Nat) (what : Int) : KRes :=
  let level := ms.level
  if level ≥ MAXCAPTURES then .raised .tooManyCaptures ms.kept
  else
    let ms1 := { ms with capture := ms.capture.set level ⟨s, what⟩, level := level + 1 }
    match m ms1 s p with
    | .ok (none, ms2) => .ok (none, { ms2 with level := (ms2.level + 255) % 256 })
    | r => r

def end_capture_kept (m : KMatcher) (ms : MatchState) (s p : Nat) : KRes :=
  match capture_to_close ms with
  | .ok l =>
    let ms1 := { ms with capture := ms.capture.set l ⟨(ms.cap l).init, (s : Int) - (ms.cap l).init⟩ }
    match m ms1 s p with
    | .ok (none, ms2) =>
      .ok (none, { ms2 with capture := ms2.capture.set l ⟨(ms2.cap l).init, CAP_UNFINISHED⟩ })
    | r => r
  | .error e => .raised e ms.kept
  | .outOfFuel => .outOfFuel

/-- The `default:` branch of `match`, keeping the state of a raise. -/
def match_default_kept (goto call : KMatcher) (ms : MatchState) (s p : Nat) : KRes :=
  match classend ms p with
  | .ok ep =>
    let epc := byteAt ms.pat ep
    if ¬ singlematch ms s p ep then
      if epc = 42 /- '*' -/ ∨ epc = 63 /- '?' -/ ∨ epc = 45 /- '-' -/ then
        goto ms s (ep + 1)
      else .ok (none, ms)
    else if epc = 63 /- '?' -/ then
      match call ms (s + 1) (ep + 1) with
      | .ok (some res, ms1) => .ok (some res, ms1)
      | .ok (none, ms1) => goto ms1 s (ep + 1)
      | .raised e k => .raised e k
      | .outOfFuel => .outOfFuel
    else if epc = 43 /- '+' -/ then max_expand_kept call ms (s + 1) p ep
    else if epc = 42 /- '*' -/ then max_expand_kept call ms s p ep
    else if epc = 45 /- '-' -/ then min_expand_kept call ms s p ep
    else goto ms (s + 1) ep
  | .error e => .raised e ms.kept
  | .outOfFuel => .outOfFuel

/-- Entry and exit of `match`, keeping the state of a raise: the budget is
decremented by the entry check also when the check fails, and it is
incremented on a normal return only. -/
def match_entry_kept (body : KMatcher) : KMatcher := fun ms s p =>
  if ms.matchdepth = 0 then .raised .patternTooComplex ⟨-1, ms.level, ms.capture⟩
  else
    match body { ms with matchdepth := ms.matchdepth - 1 } s p with
    | .ok (r, ms1) => .ok (r, { ms1 with matchdepth := ms1.matchdepth + 1 })
    | .raised e k => .raised e k
    | .outOfFuel => .outOfFuel

/-- The body of `match` from label `init`, keeping the state of a raise. -/
def match_init_kept : Nat → KMatcher
  | 0, _, _, _ => .outOfFuel
  | fuel + 1, ms, s, p =>
    let goto : KMatcher := match_init_kept fuel
    let call : KMatcher := match_entry_kept (match_init_kept fuel)
    if p ≠ ms.p_end then
      let c := byteAt ms.pat p
      if c = 40 /- '(' -/ then
        if byteAt ms.pat (p + 1) = 41 /- ')' -/ then
          start_capture_kept call ms s (p + 2) CAP_POSITION
        else start_capture_kept call ms s (p + 1) CAP_UNFINISHED
      else if c = 41 /- ')' -/ then end_capture_kept call ms s (p + 1)
      else if c = 36 /- '$' -/ ∧ p + 1 = ms.p_end then
        .ok (if s = ms.src_end then some s else none, ms)
      else if c = ESC then
        let c1 := byteAt ms.pat (p + 1)
        if c1 = 98 /- 'b' -/ then
          match matchbalance ms s (p + 2) with
          | .ok (some s1) => goto ms s1 (p + 4)
          | .ok none => .ok (none, ms)
          | .error e => .raised e ms.kept
          | .outOfFuel => .outOfFuel
        else if c1 = 102 /- 'f' -/ then
          let p := p + 2
          if byteAt ms.pat p ≠ 91 /- '[' -/ then .raised .missingBracketAfterF ms.kept
          else
            match classend ms p with
            | .ok ep =>
              let previous := if s = 0 then 0 else byteAt ms.src (s - 1)
              if ¬ matchbracketclass ms.pat previous p (ep - 1) ∧
                  matchbracketclass ms.pat (byteAt ms.src s) p (ep - 1) then
                goto ms s ep
              else .ok (none, ms)
            | .error e => .raised e ms.kept
            | .outOfFuel => .outOfFuel
        else if 48 ≤ c1 ∧ c1 ≤ 57 /- '0'..'9' -/ then
          match match_capture ms s c1 with
          | .ok (some s1) => goto ms s1 (p + 2)
          | .ok none => .ok (none, ms)
          | .error e => .raised e ms.kept
          | .outOfFuel => .outOfFuel
        else match_default_kept goto call ms s p
      else match_default_kept goto call ms s p
    else .ok (some s, ms)

/-- The C function `match`, keeping the state of a raise. -/
def do_match_kept (fuel : Nat) : KMatcher := match_entry_kept (match_init_kept fuel)

/-- The outcome without the state of a raise. -/
def KRes.erase : KRes → MRes
  | .ok v => .ok v
  | .raised e _ => .error e
  | .outOfFuel => .outOfFuel

/-- The C `GMatchState` as the closure of the generator keeps it from one call
to the next, also after a call that raised. -/
structure GMatchKept where
  src : Nat
  p : Nat
  lastmatch : Option Nat
  subject : Bytes
  pat : Bytes
  kept : Kept
deriving DecidableEq, Repr

/-- What one call of the generator does: it pushes captures, reports
exhaustion, or raises. -/
inductive GStep where
  | values (caps : List LVal)
  | exhausted
  | raised (e : Err)
  | outOfFuel
deriving DecidableEq, Repr

/-- The `for` loop of `gmatch_aux` on the state kept in the closure.  The
`reprepstate` at the top of the loop clears the capture count and asserts that
the kept budget is `MAXCCALLS`. -/
def gmatch_aux_kept_loop : Nat → GMatchKept → Nat → GStep × GMatchKept
  | 0, gm, _ => (.outOfFuel, gm)
  | n + 1, gm, src =>
    if src ≤ gm.subject.length then
      let k0 : Kept := { gm.kept with level := 0 }
      if k0.matchdepth ≠ (MAXCCALLS : Int) then (.raised .assertionFailed, { gm with kept := k0 })
      else
        let ms0 : MatchState := ⟨gm.subject, gm.pat, MAXCCALLS, 0, gm.kept.capture⟩
        match do_match_kept (matchFuel ms0.p_end) ms0 src gm.p with
        | .ok (some e, ms1) =>
          if some e ≠ gm.lastmatch then
            let gm1 := { gm with src := e, lastmatch := some e, kept := ms1.kept }
            match push_captures ms1 (some src) e with
            | .ok caps => (.values caps, gm1)
            | .error err => (.raised err, gm1)
            | .outOfFuel => (.outOfFuel, gm1)
          else gmatch_aux_kept_loop n { gm with kept := ms1.kept } (src + 1)
        | .ok (none, ms1) => gmatch_aux_kept_loop n { gm with kept := ms1.kept } (src + 1)
        | .raised e k => (.raised e, { gm with kept := k })
        | .outOfFuel => (.outOfFuel, gm)
    else (.exhausted, gm)

/-- One call of the generator: the C `gmatch_aux` on the state kept in the
closure, returning the state it leaves there. -/
def gmatch_aux_kept (gm : GMatchKept) : GStep × GMatchKept :=
  gmatch_aux_kept_loop (gm.subject.length + 1 - gm.src + 1) gm gm.src

/-- The C `gmatch`: the state the closure starts with. -/
def gmatch_kept (s p : Bytes) : GMatchKept :=
  { src := 0, p := 0, lastmatch := none, subject := s, pat := p, kept := (prepstate s p).kept }

/-- The state of the generator with the written fields of its `MatchState`
taken apart. -/
def GMatchState.toKept (gm : GMatchState) : GMatchKept :=
  { src := gm.src, p := gm.p, lastmatch := gm.lastmatch, subject := gm.ms.src, pat := gm.ms.pat,
    kept := gm.ms.kept }
/-- A matcher whose raises leave a budget at or below the budget on entry. -/
def SpendsBudget (m : KMatcher) : Prop :=
  ∀ ms s p e k, m ms s p = .raised e k → k.matchdepth ≤ (ms.matchdepth : Int)

/-- A matcher whose normal returns leave the budget as it was on entry. -/
def KeepsBudget (m : KMatcher) : Prop :=
  ∀ ms s p r ms1, m ms s p = .ok (r, ms1) → ms1.matchdepth = ms.matchdepth

/-! ## Theorems -/

theorem posrelat_clamp (i ls : Nat) (h1 : 1 ≤ i) :
    (if posrelat (i : Int) ls < 1 then (1 : Int) else posrelat (i : Int) ls) = (i : Int) := by
  have h : posrelat (i : Int) ls = (i : Int) := by
    unfold posrelat
    rw [if_pos (by omega)]
  rw [h, if_neg (by omega)]

/-- With `1 ≤ init ≤ len(s) + 1` the argument handling of `str_find_aux`
leaves `init` as it is and the search starts at the 0-based index
`init - 1`. -/
theorem str_find_aux_eq (find : Bool) (s p : Bytes) (i : Nat) (plain : Bool)
    (h1 : 1 ≤ i) (h2 : i ≤ s.length + 1) :
    str_find_aux find s p (i : Int) plain =
      if find ∧ (plain ∨ nospecials p p.length) then
        match lmemfind s (i - 1) (s.length + 1 - i) p p.length with
        | some s2 => .ok (some [.int (s2 + 1), .int (s2 + p.length)])
        | none => .ok none
      else
        str_find_loop find (decide (byteAt p 0 = 94)) (if byteAt p 0 = 94 then 1 else 0)
          (s.length - (i - 1) + 1) (prepstate s p) (i - 1) := by
  unfold str_find_aux
  simp only [posrelat_clamp i s.length h1]
  rw [if_neg (by omega)]
  simp [MatchState.src_end, prepstate]

/-! ### C3: an anchored pattern and `init` -/

/-- C3, as stated, fails: `find("aaa", "^a", 2)` does not return no-match. -/
theorem find_anchored_init_not_nomatch :
    str_find (bytesOf "aaa") (bytesOf "^a") 2 false ≠ .ok none := by
  decide

/-- C3, amended: `find("aaa", "^a", 2)` returns `(2, 2)`, because the anchor
binds to the scan start `init`; and only that one position is tried, so
`find("aab", "^b", 2)` returns no-match although `b` occurs at position 3. -/
theorem find_anchored_binds_to_init :
    str_find (bytesOf "aaa") (bytesOf "^a") 2 false = .ok (some [.int 2, .int 2]) ∧
    str_find (bytesOf "aab") (bytesOf "^b") 2 false = .ok none := by
  decide

/-! ### C4: `gsub` with `max_count = 0` -/

/-- C4: for every subject, every pattern (well-formed or not) and every
replacement of an accepted kind, `gsub(s, p, r, 0)` returns `(s, 0)` and
raises no error. -/
theorem gsub_zero_count (s p : Bytes) (r : Repl) (hr : r ≠ Repl.other) :
    str_gsub s p r (some 0) = .ok (s, 0) := by
  cases r <;> simp [str_gsub, gsub_loop, gsub_finish, prepstate] at hr ⊢

theorem gsub_zero_count_witness :
    Repl.template (bytesOf "%") ≠ Repl.other ∧
    str_gsub (bytesOf "abc") (bytesOf "[") (Repl.template (bytesOf "%")) (some 0)
      = .ok (bytesOf "abc", 0) :=
  ⟨by simp, gsub_zero_count _ _ _ (by simp)⟩

/-! ### C8: the position capture -/

/-- C8: for every subject `s` and every `i` with `1 ≤ i ≤ len(s) + 1`,
`find(s, "()", i)` returns `(i, i - 1, i)`, the capture being the integer
offset `i`; in particular `find("hello", "()")` is `(1, 0, 1)`. -/
theorem find_position_capture (s : Bytes) (i : Nat) (h1 : 1 ≤ i) (h2 : i ≤ s.length + 1) :
    str_find s (bytesOf "()") i false
      = .ok (some [.int i, .int ((i : Int) - 1), .int i]) := by
  obtain ⟨k, rfl⟩ : ∃ k, i = k + 1 := ⟨i - 1, by omega⟩
  have hns : nospecials [40, 41] 2 = false := by decide
  have hpat : bytesOf "()" = [40, 41] := by decide
  obtain ⟨n, hn⟩ : ∃ n, s.length - k + 1 = n + 1 := ⟨s.length - k, by omega⟩
  rw [str_find, str_find_aux_eq _ _ _ _ _ h1 h2, hpat]
  simp [hns, hn, str_find_loop, byteAt, reprepstate, prepstate, do_match, match_entry,
    match_init, matchFuel, MatchState.p_end, start_capture, MAXCCALLS, MAXCAPTURES,
    push_captures, push_captures_loop, push_onecapture, MatchState.cap, blankCaptures,
    CAP_POSITION, CAP_UNFINISHED]

theorem find_position_capture_witness :
    (1 ≤ 1 ∧ 1 ≤ (bytesOf "hello").length + 1) ∧
    str_find (bytesOf "hello") (bytesOf "()") (1 : Nat) false
      = .ok (some [.int (1 : Nat), .int (((1 : Nat) : Int) - 1), .int (1 : Nat)]) :=
  ⟨by decide, find_position_capture (bytesOf "hello") 1 (by decide) (by decide)⟩

/-! ### C5: `gmatch` with the empty pattern -/

/-- The matcher on the empty pattern succeeds at once, with the state
unchanged. -/
theorem do_match_empty_pattern (s : Bytes) (j : Nat) :
    do_match (matchFuel (prepstate s []).p_end) (prepstate s []) j 0
      = .ok (some j, prepstate s []) := by
  simp [do_match, match_entry, match_init, matchFuel, prepstate, MatchState.p_end, MAXCCALLS]

theorem gmatch_aux_empty_first (s : Bytes) :
    gmatch_aux (gmatch s []) = .ok (some [.str []], ⟨0, 0, some 0, prepstate s []⟩) := by
  have h := do_match_empty_pattern s 0
  simp only [prepstate] at h
  simp [gmatch_aux, gmatch, gmatch_aux_loop, reprepstate, prepstate, h, push_captures,
    push_captures_loop, push_onecapture]

theorem gmatch_aux_empty_next (s : Bytes) (j : Nat) (hj : j < s.length) :
    gmatch_aux ⟨j, 0, some j, prepstate s []⟩
      = .ok (some [.str []], ⟨j + 1, 0, some (j + 1), prepstate s []⟩) := by
  have h := do_match_empty_pattern s j
  have h1 := do_match_empty_pattern s (j + 1)
  simp only [prepstate] at h h1
  obtain ⟨n, hn⟩ : ∃ n, s.length + 1 - j = n + 1 := ⟨s.length - j - 1 + 1, by omega⟩
  have hle : j ≤ s.length := by omega
  simp [gmatch_aux, gmatch_aux_loop, reprepstate, prepstate, h, h1, push_captures,
    push_captures_loop, push_onecapture, MatchState.src_end, hn, hle]
  omega

theorem gmatch_aux_empty_last (s : Bytes) :
    gmatch_aux ⟨s.length, 0, some s.length, prepstate s []⟩
      = .ok (none, ⟨s.length, 0, some s.length, prepstate s []⟩) := by
  have h := do_match_empty_pattern s s.length
  simp only [prepstate] at h
  simp [gmatch_aux, gmatch_aux_loop, reprepstate, prepstate, h, MatchState.src_end]

theorem gmatch_run_empty_from (s : Bytes) (m j : Nat) (hj : j + m = s.length) :
    gmatch_run (m + 1) ⟨j, 0, some j, prepstate s []⟩
      = .ok ((List.range' (j + 1) m).map (fun i => (i, [LVal.str []]))) := by
  induction m generalizing j with
  | zero =>
    have hj0 : j = s.length := by omega
    subst hj0
    simp [gmatch_run, gmatch_aux_empty_last]
  | succ m ih =>
    rw [gmatch_run, gmatch_aux_empty_next s j (by omega)]
    simp only [ih (j + 1) (by omega)]
    simp [List.range']

/-- C5: stepping the generator `gmatch(s, "")` on a subject of length `n`
yields exactly `n + 1` matches and then reports exhaustion; each match is the
empty whole match, found at the 0-based offsets `0, 1, ..., n` (the 1-based
positions `1, ..., n + 1`) in that order.  On a 3-byte subject there are
exactly 4 matches. -/
theorem gmatch_empty_pattern (s : Bytes) :
    gmatch_run (s.length + 2) (gmatch s [])
      = .ok ((List.range (s.length + 1)).map (fun i => (i, [LVal.str []]))) ∧
    (∀ a b c : Nat, gmatch_run 5 (gmatch [a, b, c] [])
      = .ok [(0, [.str []]), (1, [.str []]), (2, [.str []]), (3, [.str []])]) := by
  have main : ∀ s : Bytes, gmatch_run (s.length + 2) (gmatch s [])
      = .ok ((List.range (s.length + 1)).map (fun i => (i, [LVal.str []]))) := by
    intro s
    rw [gmatch_run, gmatch_aux_empty_first]
    simp only [gmatch_run_empty_from s s.length 0 (by omega)]
    simp [List.range_eq_range', List.range'_succ]
  refine ⟨main s, ?_⟩
  intro a b c
  exact main [a, b, c]

/-! ### C1: the plain-search fast path -/

theorem byteAt_lt {b : Bytes} {i : Nat} (h : i < b.length) : byteAt b i = b[i] := by
  simp [byteAt, List.getD_eq_getElem?_getD, List.getElem?_eq_getElem h]

theorem byteAt_cons_succ (c : Nat) (b : Bytes) (i : Nat) :
    byteAt (c :: b) (i + 1) = byteAt b i := by
  simp [byteAt]

theorem byteAt_drop (b : Bytes) (i j : Nat) : byteAt (b.drop i) j = byteAt b (i + j) := by
  simp [byteAt, List.getD_eq_getElem?_getD]

theorem memchr_some {s : Bytes} {c n s1 i : Nat} (h : memchr s c n s1 = some i) :
    s1 ≤ i ∧ i < s1 + n ∧ byteAt s i = c ∧ ∀ j, s1 ≤ j → j < i → byteAt s j ≠ c := by
  induction n generalizing s1 with
  | zero => simp [memchr] at h
  | succ n ih =>
    rw [memchr] at h
    by_cases hc : byteAt s s1 = c
    · rw [if_pos hc] at h
      obtain rfl : s1 = i := by simpa using h
      exact ⟨le_refl _, by omega, hc, fun j h1 h2 => by omega⟩
    · rw [if_neg hc] at h
      obtain ⟨a, b, c1, d⟩ := ih h
      refine ⟨by omega, by omega, c1, fun j h1 h2 => ?_⟩
      by_cases hj : j = s1
      · subst hj; exact hc
      · exact d j (by omega) h2

theorem memchr_none {s : Bytes} {c n s1 : Nat} (h : memchr s c n s1 = none) :
    ∀ j, s1 ≤ j → j < s1 + n → byteAt s j ≠ c := by
  induction n generalizing s1 with
  | zero => intro j h1 h2; omega
  | succ n ih =>
    rw [memchr] at h
    by_cases hc : byteAt s s1 = c
    · rw [if_pos hc] at h; simp at h
    · rw [if_neg hc] at h
      intro j h1 h2
      by_cases hj : j = s1
      · subst hj; exact hc
      · exact ih h j (by omega) (by omega)

/-- The test `memcmp(a + x, b + y, n) == 0` says that the two `n`-byte blocks
are equal, when both lie inside their buffers. -/
theorem memeq_iff (a b : Bytes) (n x y : Nat) (hx : x + n ≤ a.length) (hy : y + n ≤ b.length) :
    memeq a b n x y = true ↔ (a.drop x).take n = (b.drop y).take n := by
  induction n generalizing x y with
  | zero => simp [memeq]
  | succ n ih =>
    have hxa : x < a.length := by omega
    have hyb : y < b.length := by omega
    rw [memeq, List.drop_eq_getElem_cons hxa, List.drop_eq_getElem_cons hyb]
    simp only [List.take_succ_cons, Bool.and_eq_true, decide_eq_true_eq, List.cons.injEq]
    rw [ih (x + 1) (y + 1) (by omega) (by omega), byteAt_lt hxa, byteAt_lt hyb]


/-- An occurrence of a non-empty pattern at the 0-based index `j`, in the
terms of `lmemfind`: the first byte and then the `memcmp` of the rest. -/
theorem occurs_cons_iff (s : Bytes) (c : Nat) (q : Bytes) (j : Nat)
    (hj : j + 1 + q.length ≤ s.length) :
    (s.drop j).take (c :: q).length = c :: q ↔
      byteAt s j = c ∧ memeq s (c :: q) q.length (j + 1) 1 = true := by
  have hjs : j < s.length := by omega
  rw [memeq_iff s (c :: q) q.length (j + 1) 1 (by omega) (by simp; omega), byteAt_lt hjs]
  conv_lhs => rw [List.drop_eq_getElem_cons hjs]
  simp only [List.length_cons, List.take_succ_cons, List.cons.injEq, List.drop_succ_cons,
    List.drop_zero, List.take_length]

theorem occurs_room (s p : Bytes) (j : Nat) (h : (s.drop j).take p.length = p) :
    j + p.length ≤ s.length ∨ p = [] := by
  by_cases hp : p = []
  · exact Or.inr hp
  · left
    have hl := congrArg List.length h
    simp only [List.length_take, List.length_drop] at hl
    have : 0 < p.length := List.length_pos.mpr hp
    omega

theorem lmemfind_loop_spec (s : Bytes) (c : Nat) (q : Bytes) :
    ∀ fuel s1 l1, l1 ≤ fuel → s1 + l1 + q.length ≤ s.length →
      match lmemfind_loop s (c :: q) q.length fuel s1 l1 with
      | some i => s1 ≤ i ∧ i < s1 + l1 ∧ (s.drop i).take (c :: q).length = c :: q ∧
          ∀ j, s1 ≤ j → j < i → ¬ (s.drop j).take (c :: q).length = c :: q
      | none => ∀ j, s1 ≤ j → j < s1 + l1 → ¬ (s.drop j).take (c :: q).length = c :: q := by
  intro fuel
  induction fuel with
  | zero =>
    intro s1 l1 hl _
    simp only [lmemfind_loop]
    intro j h1 h2
    omega
  | succ fuel ih =>
    intro s1 l1 hl hroom
    rw [lmemfind_loop]
    by_cases hl1 : l1 > 0
    swap
    · rw [if_neg hl1]
      intro j h1 h2
      omega
    rw [if_pos hl1]
    have hb0 : byteAt (c :: q) 0 = c := by simp [byteAt]
    rw [hb0]
    cases hm : memchr s c l1 s1 with
    | none =>
      simp only
      intro j h1 h2 hocc
      have := memchr_none hm j h1 h2
      exact this ((occurs_cons_iff s c q j (by omega)).mp hocc).1
    | some i0 =>
      obtain ⟨hi1, hi2, hi3, hi4⟩ := memchr_some hm
      simp only
      by_cases hcmp : memeq s (c :: q) q.length (i0 + 1) 1 = true
      · rw [if_pos hcmp]
        simp only [Nat.add_sub_cancel]
        refine ⟨hi1, hi2, (occurs_cons_iff s c q i0 (by omega)).mpr ⟨hi3, hcmp⟩, ?_⟩
        intro j h1 h2 hocc
        exact hi4 j h1 h2 ((occurs_cons_iff s c q j (by omega)).mp hocc).1
      · rw [if_neg hcmp]
        have hrec := ih (i0 + 1) (l1 - (i0 + 1 - s1)) (by omega) (by omega)
        have hnot : ∀ j, s1 ≤ j → j < i0 + 1 →
            ¬ (s.drop j).take (c :: q).length = c :: q := by
          intro j h1 h2 hocc
          have hj := (occurs_cons_iff s c q j (by omega)).mp hocc
          by_cases hji : j = i0
          · subst hji; exact hcmp hj.2
          · exact hi4 j h1 (by omega) hj.1
        cases hr : lmemfind_loop s (c :: q) q.length fuel (i0 + 1) (l1 - (i0 + 1 - s1)) with
        | none =>
          rw [hr] at hrec
          simp only at hrec ⊢
          intro j h1 h2
          by_cases hj : j < i0 + 1
          · exact hnot j h1 hj
          · exact hrec j (by omega) (by omega)
        | some i =>
          rw [hr] at hrec
          simp only at hrec ⊢
          obtain ⟨a1, a2, a3, a4⟩ := hrec
          refine ⟨by omega, by omega, a3, ?_⟩
          intro j h1 h2
          by_cases hj : j < i0 + 1
          · exact hnot j h1 hj
          · exact a4 j (by omega) h2


/-- The C `lmemfind`, searching from index `s1` to the end of `s`, returns
the first 0-based index at or after `s1` where `p` occurs, and `NULL` exactly
when there is none. -/
theorem lmemfind_spec (s p : Bytes) (s1 : Nat) (hs1 : s1 ≤ s.length) :
    match lmemfind s s1 (s.length - s1) p p.length with
    | some i => s1 ≤ i ∧ (s.drop i).take p.length = p ∧
        ∀ j, s1 ≤ j → j < i → ¬ (s.drop j).take p.length = p
    | none => ∀ j, s1 ≤ j → ¬ (s.drop j).take p.length = p := by
  cases p with
  | nil => simp [lmemfind]
  | cons c q =>
    rw [lmemfind, if_neg (by simp)]
    by_cases hlong : (c :: q).length > s.length - s1
    · rw [if_pos hlong]
      simp only
      intro j hj hocc
      rcases occurs_room s (c :: q) j hocc with h | h
      · omega
      · simp at h
    · rw [if_neg hlong]
      simp only [List.length_cons, Nat.add_sub_cancel] at hlong ⊢
      have hspec := lmemfind_loop_spec s c q (s.length - s1 - q.length) s1
        (s.length - s1 - q.length) (le_refl _) (by omega)
      cases hr : lmemfind_loop s (c :: q) q.length (s.length - s1 - q.length) s1
          (s.length - s1 - q.length) with
      | none =>
        rw [hr] at hspec
        simp only [List.length_cons] at hspec ⊢
        intro j hj hocc
        rcases occurs_room s (c :: q) j hocc with h | h
        · simp only [List.length_cons] at h
          exact hspec j hj (by omega) hocc
        · simp at h
      | some i =>
        rw [hr] at hspec
        simp only [List.length_cons] at hspec ⊢
        exact ⟨hspec.1, hspec.2.2.1, hspec.2.2.2⟩

theorem mem_cstring {p : Bytes} {upto b : Nat} (h : b ∈ cstring p upto) : b ∈ p :=
  List.mem_of_mem_drop ((List.takeWhile_prefix _).subset h)

theorem nospecials_loop_true (p : Bytes) (l : Nat) (hp : ∀ b ∈ p, b ∉ SPECIALS) :
    ∀ fuel upto, nospecials_loop p l fuel upto = true := by
  intro fuel
  induction fuel with
  | zero => intro upto; rfl
  | succ fuel ih =>
    intro upto
    rw [nospecials_loop]
    have hany : (cstring p upto).any (fun c => decide (c ∈ SPECIALS)) = false := by
      rw [List.any_eq_false]
      intro b hb
      simpa using hp b (mem_cstring hb)
    rw [if_neg (by simp [hany])]
    simp only [ih]
    simp

/-- A pattern without special bytes passes the `nospecials` test. -/
theorem nospecials_of_no_special (p : Bytes) (hp : ∀ b ∈ p, b ∉ SPECIALS) :
    nospecials p p.length = true :=
  nospecials_loop_true p p.length hp _ _

/-- C1: for `1 ≤ init ≤ len(s) + 1`, when `plain` is passed or `p` has no
special byte, `find(s, p, init)` agrees with a naive substring search: it
returns `(i, i + len(p) - 1)` for the smallest 1-based `i ≥ init` at which `p`
occurs in `s`, and no-match exactly when `p` occurs at no `i ≥ init`. -/
theorem find_plain_is_naive_search (s p : Bytes) (init : Nat) (plain : Bool)
    (h1 : 1 ≤ init) (h2 : init ≤ s.length + 1)
    (hp : plain = true ∨ ∀ b ∈ p, b ∉ SPECIALS) :
    (∃ i, init ≤ i ∧ occursAt s p i ∧ (∀ j, init ≤ j → j < i → ¬ occursAt s p j) ∧
        str_find s p init plain
          = .ok (some [.int (i : Int), .int ((i : Int) + (p.length : Int) - 1)])) ∨
    ((∀ j, init ≤ j → ¬ occursAt s p j) ∧ str_find s p init plain = .ok none) := by
  have hplain : (plain = true ∨ nospecials p p.length = true) := by
    rcases hp with h | h
    · exact Or.inl h
    · exact Or.inr (nospecials_of_no_special p h)
  rw [str_find, str_find_aux_eq true s p init plain h1 h2, if_pos ⟨rfl, hplain⟩]
  have hlen : s.length + 1 - init = s.length - (init - 1) := by omega
  rw [hlen]
  have hi : init - 1 ≤ s.length := by omega
  have hspec := lmemfind_spec s p (init - 1) hi
  cases hr : lmemfind s (init - 1) (s.length - (init - 1)) p p.length with
  | none =>
    rw [hr] at hspec
    simp only at hspec
    right
    refine ⟨?_, rfl⟩
    intro j hj hocc
    exact hspec (j - 1) (by omega) hocc.2
  | some i0 =>
    rw [hr] at hspec
    simp only at hspec
    obtain ⟨a1, a2, a3⟩ := hspec
    left
    refine ⟨i0 + 1, by omega, ⟨by omega, by simpa using a2⟩, ?_, ?_⟩
    · intro j hj1 hj2 hocc
      exact a3 (j - 1) (by omega) (by omega) hocc.2
    · have harith : (i0 : Int) + 1 + (p.length : Int) - 1 = (i0 : Int) + (p.length : Int) := by
        ring
      simp only [Nat.cast_add, Nat.cast_one, harith]

theorem find_plain_is_naive_search_witness :
    (1 ≤ 3 ∧ 3 ≤ (bytesOf "a.b.c").length + 1 ∧ (true = true ∨ ∀ b ∈ bytesOf ".", b ∉ SPECIALS)) ∧
    ((∃ i, 3 ≤ i ∧ occursAt (bytesOf "a.b.c") (bytesOf ".") i ∧
        (∀ j, 3 ≤ j → j < i → ¬ occursAt (bytesOf "a.b.c") (bytesOf ".") j) ∧
        str_find (bytesOf "a.b.c") (bytesOf ".") (3 : Nat) true
          = .ok (some [.int (i : Int), .int ((i : Int) + ((bytesOf ".").length : Int) - 1)])) ∨
    ((∀ j, 3 ≤ j → ¬ occursAt (bytesOf "a.b.c") (bytesOf ".") j) ∧
      str_find (bytesOf "a.b.c") (bytesOf ".") (3 : Nat) true = .ok none)) :=
  ⟨⟨by decide, by decide, Or.inl rfl⟩,
    find_plain_is_naive_search (bytesOf "a.b.c") (bytesOf ".") 3 true (by decide) (by decide)
      (Or.inl rfl)⟩

/-! ### C9: the balanced item -/

theorem depthOf_nil (x y : Nat) : depthOf x y [] = 0 := by simp [depthOf]

theorem depthOf_cons (x y c : Nat) (l : Bytes) :
    depthOf x y (c :: l) = depthOf x y l + (if c = x then 1 else 0) - (if c = y then 1 else 0) := by
  simp only [depthOf, List.count_cons, beq_iff_eq]
  split <;> split <;> push_cast <;> ring

theorem matchbalance_loop_spec (x y : Nat) (hxy : x ≠ y) :
    ∀ (rest : Bytes) (s0 : Nat) (cont : Int), 1 ≤ cont →
      match matchbalance_loop x y rest s0 cont with
      | some r => ∃ k, k < rest.length ∧ r = s0 + k + 2 ∧
          cont + depthOf x y (rest.take (k + 1)) = 0 ∧
          ∀ j, j ≤ k → 1 ≤ cont + depthOf x y (rest.take j)
      | none => ∀ j, j ≤ rest.length → 1 ≤ cont + depthOf x y (rest.take j) := by
  intro rest
  induction rest with
  | nil =>
    intro s0 cont hc
    simp [matchbalance_loop, depthOf_nil, hc]
  | cons c rest ih =>
    intro s0 cont hc
    have step : ∀ (d : Int), 1 ≤ cont + d →
        depthOf x y [c] = d →
        match matchbalance_loop x y rest (s0 + 1) (cont + d) with
        | some r => ∃ k, k < (c :: rest).length ∧ r = s0 + k + 2 ∧
            cont + depthOf x y ((c :: rest).take (k + 1)) = 0 ∧
            ∀ j, j ≤ k → 1 ≤ cont + depthOf x y ((c :: rest).take j)
        | none => ∀ j, j ≤ (c :: rest).length →
            1 ≤ cont + depthOf x y ((c :: rest).take j) := by
      intro d hd hdc
      have hcons : ∀ l : Bytes, depthOf x y (c :: l) = depthOf x y l + d := by
        intro l
        rw [depthOf_cons, ← hdc, depthOf_cons, depthOf_nil]
        ring
      have hrec := ih (s0 + 1) (cont + d) hd
      cases hr : matchbalance_loop x y rest (s0 + 1) (cont + d) with
      | none =>
        rw [hr] at hrec
        simp only at hrec ⊢
        intro j hj
        cases j with
        | zero => simp [depthOf_nil, hc]
        | succ j =>
          have := hrec j (by simpa using hj)
          rw [List.take_succ_cons, hcons]
          omega
      | some r =>
        rw [hr] at hrec
        simp only at hrec ⊢
        obtain ⟨k, hk1, hk2, hk3, hk4⟩ := hrec
        refine ⟨k + 1, by simpa using hk1, by omega, ?_, ?_⟩
        · rw [List.take_succ_cons, hcons]
          omega
        · intro j hj
          cases j with
          | zero => simp [depthOf_nil, hc]
          | succ j =>
            have := hk4 j (by omega)
            rw [List.take_succ_cons, hcons]
            omega
    rw [matchbalance_loop]
    by_cases hcy : c = y
    · rw [if_pos hcy]
      have hcx : c ≠ x := fun h => hxy (h ▸ hcy)
      have hd : depthOf x y [c] = -1 := by
        simp [depthOf_cons, depthOf_nil, hcy, hcx, hxy.symm]
      by_cases hz : cont - 1 = 0
      · rw [if_pos hz]
        simp only
        refine ⟨0, by simp, by omega, ?_, ?_⟩
        · simp only [zero_add, List.take_succ_cons, List.take_zero, hd]
          omega
        · intro j hj
          obtain rfl : j = 0 := by omega
          simp [depthOf_nil, hc]
      · rw [if_neg hz]
        have := step (-1) (by omega) hd
        simpa [sub_eq_add_neg] using this
    · rw [if_neg hcy]
      by_cases hcx : c = x
      · rw [if_pos hcx]
        have hd : depthOf x y [c] = 1 := by
          simp [depthOf_cons, depthOf_nil, hcy, hcx, hxy]
        exact step 1 (by omega) hd
      · rw [if_neg hcx]
        have hd : depthOf x y [c] = 0 := by
          simp [depthOf_cons, depthOf_nil, hcy, hcx]
        have := step 0 (by omega) hd
        simpa using this


/-- With the opener at `s`, a stretch from `s` is balanced exactly when the
depth, counted after the opener, is back to zero. -/
theorem balancedStretch_iff (src : Bytes) (x y s : Nat) (hxy : x ≠ y) (hs : s < src.length)
    (hx : byteAt src s = x) (e : Nat) :
    balancedStretch src x y s e ↔
      s < e ∧ e ≤ src.length ∧ 1 + depthOf x y ((src.drop (s + 1)).take (e - s - 1)) = 0 := by
  unfold balancedStretch
  constructor
  · rintro ⟨h1, h2, h3⟩
    refine ⟨h1, h2, ?_⟩
    obtain ⟨j, hj⟩ : ∃ j, e - s = j + 1 := ⟨e - s - 1, by omega⟩
    have hj2 : e - s - 1 = j := by omega
    rw [hj, List.drop_eq_getElem_cons hs, List.take_succ_cons, ← byteAt_lt hs, hx] at h3
    rw [hj2]
    simp only [List.count_cons, beq_self_eq_true, if_true, beq_iff_eq, if_neg hxy] at h3
    unfold depthOf
    omega
  · rintro ⟨h1, h2, h3⟩
    refine ⟨h1, h2, ?_⟩
    obtain ⟨j, hj⟩ : ∃ j, e - s = j + 1 := ⟨e - s - 1, by omega⟩
    have hj2 : e - s - 1 = j := by omega
    rw [hj, List.drop_eq_getElem_cons hs, List.take_succ_cons, ← byteAt_lt hs, hx]
    rw [hj2] at h3
    simp only [List.count_cons, beq_self_eq_true, if_true, beq_iff_eq, if_neg hxy]
    unfold depthOf at h3
    omega

/-- C9: at a position `s` before the subject end, the item `%bxy` with
distinct delimiters succeeds iff the byte at `s` is `x` and some stretch from
`s` holds as many `y` as `x`; matching then continues after the shortest such
stretch, with the pattern cursor past the item; otherwise the item fails
without raising.  In particular `match("(foo(bar))baz", "%b()")` yields
`"(foo(bar))"`. -/
theorem balanced_item_shortest_stretch (ms : MatchState) (s q : Nat)
    (hq : byteAt ms.pat q = 37) (hb : byteAt ms.pat (q + 1) = 98) (hlen : q + 3 < ms.p_end)
    (hs : s < ms.src_end) (hxy : byteAt ms.pat (q + 2) ≠ byteAt ms.pat (q + 3)) :
    ((∃ e, byteAt ms.src s = byteAt ms.pat (q + 2) ∧
        balancedStretch ms.src (byteAt ms.pat (q + 2)) (byteAt ms.pat (q + 3)) s e ∧
        (∀ e2, balancedStretch ms.src (byteAt ms.pat (q + 2)) (byteAt ms.pat (q + 3)) s e2 →
          e ≤ e2) ∧
        ∀ fuel, match_init (fuel + 1) ms s q = match_init fuel ms e (q + 4)) ∨
      (¬ (byteAt ms.src s = byteAt ms.pat (q + 2) ∧
          ∃ e, balancedStretch ms.src (byteAt ms.pat (q + 2)) (byteAt ms.pat (q + 3)) s e) ∧
        ∀ fuel, match_init (fuel + 1) ms s q = .ok (none, ms))) ∧
    str_match (bytesOf "(foo(bar))baz") (bytesOf "%b()") 1
      = .ok (some [.str (bytesOf "(foo(bar))")]) := by
  refine ⟨?_, by decide⟩
  have hunfold : ∀ fuel, match_init (fuel + 1) ms s q =
      match matchbalance ms s (q + 2) with
      | .ok (some s1) => match_init fuel ms s1 (q + 4)
      | .ok none => .ok (none, ms)
      | .error e => .error e
      | .outOfFuel => .outOfFuel := by
    intro fuel
    rw [match_init]
    simp [hq, hb, ESC, show q ≠ ms.p_end by omega]
  have hmb : matchbalance ms s (q + 2) =
      if byteAt ms.src s ≠ byteAt ms.pat (q + 2) then .ok none
      else .ok (matchbalance_loop (byteAt ms.pat (q + 2)) (byteAt ms.pat (q + 3))
        (ms.src.drop (s + 1)) s 1) := by
    rw [matchbalance, if_neg (by omega)]
  by_cases hx : byteAt ms.src s = byteAt ms.pat (q + 2)
  swap
  · right
    refine ⟨fun h => hx h.1, fun fuel => ?_⟩
    rw [hunfold, hmb, if_pos hx]
  rw [if_neg (by simpa using hx)] at hmb
  have hs2 : s < ms.src.length := hs
  have hspec := matchbalance_loop_spec _ _ hxy (ms.src.drop (s + 1)) s 1 (le_refl _)
  cases hr : matchbalance_loop (byteAt ms.pat (q + 2)) (byteAt ms.pat (q + 3))
      (ms.src.drop (s + 1)) s 1 with
  | none =>
    rw [hr] at hspec hmb
    simp only at hspec
    right
    refine ⟨?_, fun fuel => ?_⟩
    · rintro ⟨_, e, he⟩
      rw [balancedStretch_iff _ _ _ _ hxy hs2 hx] at he
      have := hspec (e - s - 1) (by simp only [List.length_drop]; omega)
      omega
    · rw [hunfold, hmb]
  | some r =>
    rw [hr] at hspec hmb
    simp only at hspec
    obtain ⟨k, hk1, hk2, hk3, hk4⟩ := hspec
    simp only [List.length_drop] at hk1
    left
    refine ⟨r, hx, ?_, ?_, fun fuel => ?_⟩
    · rw [balancedStretch_iff _ _ _ _ hxy hs2 hx]
      refine ⟨by omega, by omega, ?_⟩
      have : r - s - 1 = k + 1 := by omega
      rw [this]
      exact hk3
    · intro e2 he2
      rw [balancedStretch_iff _ _ _ _ hxy hs2 hx] at he2
      by_contra hlt
      have := hk4 (e2 - s - 1) (by omega)
      omega
    · rw [hunfold, hmb]


theorem balanced_item_shortest_stretch_witness :
    (byteAt (prepstate (bytesOf "(a)b") (bytesOf "%b()")).pat 0 = 37 ∧
      byteAt (prepstate (bytesOf "(a)b") (bytesOf "%b()")).pat (0 + 1) = 98 ∧
      0 + 3 < (prepstate (bytesOf "(a)b") (bytesOf "%b()")).p_end ∧
      0 < (prepstate (bytesOf "(a)b") (bytesOf "%b()")).src_end ∧
      byteAt (prepstate (bytesOf "(a)b") (bytesOf "%b()")).pat (0 + 2)
        ≠ byteAt (prepstate (bytesOf "(a)b") (bytesOf "%b()")).pat (0 + 3)) ∧
    (((∃ e, byteAt (prepstate (bytesOf "(a)b") (bytesOf "%b()")).src 0
          = byteAt (prepstate (bytesOf "(a)b") (bytesOf "%b()")).pat (0 + 2) ∧
        balancedStretch (prepstate (bytesOf "(a)b") (bytesOf "%b()")).src
          (byteAt (prepstate (bytesOf "(a)b") (bytesOf "%b()")).pat (0 + 2))
          (byteAt (prepstate (bytesOf "(a)b") (bytesOf "%b()")).pat (0 + 3)) 0 e ∧
        (∀ e2, balancedStretch (prepstate (bytesOf "(a)b") (bytesOf "%b()")).src
            (byteAt (prepstate (bytesOf "(a)b") (bytesOf "%b()")).pat (0 + 2))
            (byteAt (prepstate (bytesOf "(a)b") (bytesOf "%b()")).pat (0 + 3)) 0 e2 →
          e ≤ e2) ∧
        ∀ fuel, match_init (fuel + 1) (prepstate (bytesOf "(a)b") (bytesOf "%b()")) 0 0
          = match_init fuel (prepstate (bytesOf "(a)b") (bytesOf "%b()")) e (0 + 4)) ∨
      (¬ (byteAt (prepstate (bytesOf "(a)b") (bytesOf "%b()")).src 0
            = byteAt (prepstate (bytesOf "(a)b") (bytesOf "%b()")).pat (0 + 2) ∧
          ∃ e, balancedStretch (prepstate (bytesOf "(a)b") (bytesOf "%b()")).src
            (byteAt (prepstate (bytesOf "(a)b") (bytesOf "%b()")).pat (0 + 2))
            (byteAt (prepstate (bytesOf "(a)b") (bytesOf "%b()")).pat (0 + 3)) 0 e) ∧
        ∀ fuel, match_init (fuel + 1) (prepstate (bytesOf "(a)b") (bytesOf "%b()")) 0 0
          = .ok (none, prepstate (bytesOf "(a)b") (bytesOf "%b()")))) ∧
    str_match (bytesOf "(foo(bar))baz") (bytesOf "%b()") 1
      = .ok (some [.str (bytesOf "(foo(bar))")])) :=
  ⟨⟨by decide, by decide, by decide, by decide, by decide⟩,
    balanced_item_shortest_stretch (prepstate (bytesOf "(a)b") (bytesOf "%b()")) 0 0
      (by decide) (by decide) (by decide) (by decide) (by decide)⟩

/-! ### C10: the frontier item -/

theorem lt_length_of_byteAt_ne_zero {b : Bytes} {i : Nat} (h : byteAt b i ≠ 0) : i < b.length := by
  by_contra hlt
  apply h
  simp [byteAt, List.getD_eq_getElem?_getD, List.getElem?_eq_none (Nat.le_of_not_lt hlt)]

theorem byteAt_length (b : Bytes) : byteAt b b.length = 0 := by
  simp [byteAt, List.getD_eq_getElem?_getD]

/-- C10: at every position `s` of the subject, for a well-formed bracket set
(one whose end `classend` finds), the item `%f[set]` lets matching continue at
the same position `s`, with the pattern cursor past the set, iff the previous
byte (NUL at the subject start) is not in the set and the current byte (NUL at
the subject end) is in the set; otherwise it fails.  As a consequence
`gsub("THE (quick) fox", "%f[%a]%u+%f[%A]", "X")` is `("X (quick) fox", 1)`. -/
theorem frontier_item (ms : MatchState) (s q ep : Nat)
    (hq : byteAt ms.pat q = 37) (hf : byteAt ms.pat (q + 1) = 102)
    (hbr : byteAt ms.pat (q + 2) = 91) (hce : classend ms (q + 2) = .ok ep)
    (_hs : s ≤ ms.src_end) :
    (∀ fuel, match_init (fuel + 1) ms s q =
      if matchbracketclass ms.pat (if s = 0 then 0 else byteAt ms.src (s - 1)) (q + 2) (ep - 1)
            = false ∧
          matchbracketclass ms.pat (if s = ms.src_end then 0 else byteAt ms.src s) (q + 2)
            (ep - 1) = true
      then match_init fuel ms s ep
      else .ok (none, ms)) ∧
    str_gsub (bytesOf "THE (quick) fox") (bytesOf "%f[%a]%u+%f[%A]") (.template (bytesOf "X")) none
      = .ok (bytesOf "X (quick) fox", 1) := by
  refine ⟨?_, by decide⟩
  intro fuel
  have hqlt : q ≠ ms.p_end := Nat.ne_of_lt (lt_length_of_byteAt_ne_zero (by omega))
  have hcur : (if s = ms.src_end then 0 else byteAt ms.src s) = byteAt ms.src s := by
    split
    · next h => rw [h]; exact (byteAt_length _).symm
    · rfl
  rw [hcur, match_init]
  simp [hq, hf, hbr, hce, ESC, hqlt]

theorem frontier_item_witness :
    (byteAt (prepstate (bytesOf "a b") (bytesOf "%f[%a]")).pat 0 = 37 ∧
      byteAt (prepstate (bytesOf "a b") (bytesOf "%f[%a]")).pat (0 + 1) = 102 ∧
      byteAt (prepstate (bytesOf "a b") (bytesOf "%f[%a]")).pat (0 + 2) = 91 ∧
      classend (prepstate (bytesOf "a b") (bytesOf "%f[%a]")) (0 + 2) = .ok 6 ∧
      2 ≤ (prepstate (bytesOf "a b") (bytesOf "%f[%a]")).src_end) ∧
    ((∀ fuel, match_init (fuel + 1) (prepstate (bytesOf "a b") (bytesOf "%f[%a]")) 2 0 =
      if matchbracketclass (prepstate (bytesOf "a b") (bytesOf "%f[%a]")).pat
              (if 2 = 0 then 0 else byteAt (prepstate (bytesOf "a b") (bytesOf "%f[%a]")).src (2 - 1))
              (0 + 2) (6 - 1) = false ∧
          matchbracketclass (prepstate (bytesOf "a b") (bytesOf "%f[%a]")).pat
              (if 2 = (prepstate (bytesOf "a b") (bytesOf "%f[%a]")).src_end then 0
                else byteAt (prepstate (bytesOf "a b") (bytesOf "%f[%a]")).src 2)
              (0 + 2) (6 - 1) = true
      then match_init fuel (prepstate (bytesOf "a b") (bytesOf "%f[%a]")) 2 6
      else .ok (none, prepstate (bytesOf "a b") (bytesOf "%f[%a]"))) ∧
    str_gsub (bytesOf "THE (quick) fox") (bytesOf "%f[%a]%u+%f[%A]") (.template (bytesOf "X")) none
      = .ok (bytesOf "X (quick) fox", 1)) :=
  ⟨⟨by decide, by decide, by decide, by decide, by decide⟩,
    frontier_item (prepstate (bytesOf "a b") (bytesOf "%f[%a]")) 2 0 6
      (by decide) (by decide) (by decide) (by decide) (by decide)⟩

/-! ### Unfolding the matcher, one dispatch case at a time -/

theorem match_init_at_end (fuel : Nat) (ms : MatchState) (s p : Nat) (hp : p = ms.p_end) :
    match_init (fuel + 1) ms s p = .ok (some s, ms) := by
  rw [match_init]
  simp [hp]

/-- A pattern byte that opens no special construct is handled at label `dflt`. -/
theorem match_init_default (fuel : Nat) (ms : MatchState) (s p : Nat) (hp : p ≠ ms.p_end)
    (h40 : byteAt ms.pat p ≠ 40) (h41 : byteAt ms.pat p ≠ 41)
    (h36 : byteAt ms.pat p ≠ 36 ∨ p + 1 ≠ ms.p_end) (h37 : byteAt ms.pat p ≠ 37) :
    match_init (fuel + 1) ms s p
      = match_default (match_init fuel) (match_entry (match_init fuel)) ms s p := by
  rw [match_init]
  have h36b : ¬ (byteAt ms.pat p = 36 ∧ p + 1 = ms.p_end) := by
    rintro ⟨a, b⟩
    rcases h36 with h | h
    · exact h a
    · exact h b
  simp [hp, h40, h41, h36b, h37, ESC]

/-- An escape that is not `%b`, `%f` or a back-reference is handled at label
`dflt`. -/
theorem match_init_class (fuel : Nat) (ms : MatchState) (s p : Nat)
    (h37 : byteAt ms.pat p = 37) (hb : byteAt ms.pat (p + 1) ≠ 98)
    (hf : byteAt ms.pat (p + 1) ≠ 102)
    (hd : ¬ (48 ≤ byteAt ms.pat (p + 1) ∧ byteAt ms.pat (p + 1) ≤ 57)) :
    match_init (fuel + 1) ms s p
      = match_default (match_init fuel) (match_entry (match_init fuel)) ms s p := by
  have hp : p ≠ ms.p_end := by
    intro h
    rw [h, MatchState.p_end, byteAt_length] at h37
    omega
  rw [match_init]
  simp [hp, h37, hb, hf, hd, ESC]

theorem classend_single (ms : MatchState) (p : Nat) (h37 : byteAt ms.pat p ≠ 37)
    (h91 : byteAt ms.pat p ≠ 91) : classend ms p = .ok (p + 1) := by
  simp [classend, h37, h91, ESC]

theorem classend_escape (ms : MatchState) (p : Nat) (h37 : byteAt ms.pat p = 37)
    (hp : p + 1 ≠ ms.p_end) : classend ms p = .ok (p + 2) := by
  simp [classend, h37, hp, ESC]

theorem singlematch_literal (ms : MatchState) (s p ep : Nat) (h46 : byteAt ms.pat p ≠ 46)
    (h37 : byteAt ms.pat p ≠ 37) (h91 : byteAt ms.pat p ≠ 91) :
    singlematch ms s p ep = decide (s < ms.src_end ∧ byteAt ms.pat p = byteAt ms.src s) := by
  unfold singlematch
  by_cases hs : s ≥ ms.src_end
  · rw [if_pos hs]
    simp [Nat.not_lt.mpr hs]
  · rw [if_neg hs]
    simp [h46, h37, h91, ESC, Nat.lt_of_not_ge hs]

theorem singlematch_class (ms : MatchState) (s p ep : Nat) (h37 : byteAt ms.pat p = 37) :
    singlematch ms s p ep
      = (decide (s < ms.src_end) && match_class (byteAt ms.src s) (byteAt ms.pat (p + 1))) := by
  unfold singlematch
  by_cases hs : s ≥ ms.src_end
  · rw [if_pos hs]
    simp [Nat.not_lt.mpr hs]
  · rw [if_neg hs]
    simp [h37, ESC, Nat.lt_of_not_ge hs]

/-- The item at label `dflt` without a suffix: one byte is consumed and
matching continues in place, or the item fails. -/
theorem match_default_plain (goto call : Matcher) (ms : MatchState) (s p ep : Nat)
    (hce : classend ms p = .ok ep) (h42 : byteAt ms.pat ep ≠ 42) (h63 : byteAt ms.pat ep ≠ 63)
    (h45 : byteAt ms.pat ep ≠ 45) (h43 : byteAt ms.pat ep ≠ 43) :
    match_default goto call ms s p
      = if singlematch ms s p ep then goto ms (s + 1) ep else .ok (none, ms) := by
  unfold match_default
  rw [hce]
  by_cases hsm : singlematch ms s p ep = true
  · simp [hsm, h42, h63, h45, h43]
  · simp [hsm, h42, h63, h45]

/-- The item at label `dflt` with the suffix `+`, once it has matched. -/
theorem match_default_plus (goto call : Matcher) (ms : MatchState) (s p ep : Nat)
    (hce : classend ms p = .ok ep) (h43 : byteAt ms.pat ep = 43) :
    match_default goto call ms s p
      = if singlematch ms s p ep then max_expand call ms (s + 1) p ep else .ok (none, ms) := by
  unfold match_default
  rw [hce]
  by_cases hsm : singlematch ms s p ep = true
  · simp [hsm, h43]
  · simp [hsm, h43]

theorem match_entry_eq (body : Matcher) (ms : MatchState) (s p : Nat) (hd : ms.matchdepth ≠ 0) :
    match_entry body ms s p =
      match body { ms with matchdepth := ms.matchdepth - 1 } s p with
      | .ok (r, ms1) => .ok (r, { ms1 with matchdepth := ms1.matchdepth + 1 })
      | .error e => .error e
      | .outOfFuel => .outOfFuel := by
  unfold match_entry
  rw [if_neg hd]

/-! ### C6: `gsub` with a one-byte literal pattern -/

/-- One call of `match` on the one-byte literal pattern `[c]`: it succeeds,
consuming one byte, iff the subject byte at `src` is `c`; the state is left as
it was. -/
theorem do_match_literal_byte (s : Bytes) (c : Nat) (hc : c ∉ SPECIALS) (hc2 : c ≠ 41)
    (src : Nat) :
    do_match (matchFuel (prepstate s [c]).p_end) (prepstate s [c]) src 0
      = .ok (if src < s.length ∧ byteAt s src = c then some (src + 1) else none,
          prepstate s [c]) := by
  simp only [SPECIALS, List.mem_cons, List.mem_singleton, not_or, List.not_mem_nil,
    or_false] at hc
  obtain ⟨h94, h36, h42, h43, h63, h46, h40, h91, h37, h45⟩ := hc
  have hb0 : ∀ ms : MatchState, ms.pat = [c] → byteAt ms.pat 0 = c := by
    intro ms h; rw [h]; rfl
  have hb1 : ∀ ms : MatchState, ms.pat = [c] → byteAt ms.pat (0 + 1) = 0 := by
    intro ms h; rw [h]; rfl
  have hfuel : matchFuel (prepstate s [c]).p_end = 2 := rfl
  rw [hfuel, do_match, match_entry_eq _ _ _ _ (by simp [prepstate, MAXCCALLS])]
  generalize hms : ({ prepstate s [c] with matchdepth := (prepstate s [c]).matchdepth - 1 }
    : MatchState) = ms
  have hpat : ms.pat = [c] := by rw [← hms]; rfl
  have hsrc : ms.src = s := by rw [← hms]; rfl
  have hpe : ms.p_end = 1 := by rw [MatchState.p_end, hpat]; rfl
  rw [match_init_default 1 ms src 0 (by omega) (by rw [hb0 ms hpat]; exact h40)
    (by rw [hb0 ms hpat]; exact hc2) (Or.inl (by rw [hb0 ms hpat]; exact h36))
    (by rw [hb0 ms hpat]; exact h37)]
  rw [match_default_plain _ _ ms src 0 1
    (classend_single ms 0 (by rw [hb0 ms hpat]; exact h37) (by rw [hb0 ms hpat]; exact h91))
    (by rw [hb1 ms hpat]; omega) (by rw [hb1 ms hpat]; omega) (by rw [hb1 ms hpat]; omega)
    (by rw [hb1 ms hpat]; omega)]
  rw [singlematch_literal ms src 0 1 (by rw [hb0 ms hpat]; exact h46)
    (by rw [hb0 ms hpat]; exact h37) (by rw [hb0 ms hpat]; exact h91)]
  rw [hb0 ms hpat, MatchState.src_end, hsrc, match_init_at_end 0 ms (src + 1) 1 hpe.symm]
  by_cases hm : src < s.length ∧ byteAt s src = c
  · rw [if_pos hm, if_pos (by simp only [decide_eq_true_eq]; exact ⟨hm.1, hm.2.symm⟩)]
    rw [← hms]
    rfl
  · rw [if_neg hm,
      if_neg (by simp only [decide_eq_true_eq]; exact fun h => hm ⟨h.1, h.2.symm⟩)]
    rw [← hms]
    rfl

/-- A replacement template without `%` is appended as it is. -/
theorem add_s_no_escape (ms : MatchState) (s e : Nat) (r : Bytes) (hr : 37 ∉ r) :
    ∀ b, add_s ms s e r b = .ok (b ++ r) := by
  induction r with
  | nil => intro b; simp [add_s]
  | cons c rest ih =>
    intro b
    have hc : c ≠ ESC := by
      intro h; apply hr; rw [h]; exact List.mem_cons_self _ _
    have hrest : 37 ∉ rest := fun h => hr (List.mem_cons_of_mem _ h)
    cases rest with
    | nil => simp [add_s, hc]
    | cons d rest2 =>
      rw [add_s, if_pos hc, ih hrest]
      simp

/-- The loop of `gsub` for a one-byte literal pattern and a template without
`%`, from the cursor `src` on. -/
theorem gsub_loop_literal_byte (s : Bytes) (c : Nat) (r : Bytes) (hc : c ∉ SPECIALS)
    (hc2 : c ≠ 41) (hr : 37 ∉ r) :
    ∀ (k src : Nat) (lm : Option Nat) (n : Int) (b : Bytes),
      src ≤ s.length → s.length - src + 1 ≤ k → n ≤ (src : Int) →
      (∀ e, lm = some e → e ≤ src) →
      gsub_loop (.template r) false 0 ((s.length : Int) + 1) k (prepstate s [c]) src lm n b
        = .ok (b ++ (s.drop src).flatMap (fun x => if x = c then r else [x]),
            n + ((s.drop src).count c : Int)) := by
  intro k
  induction k with
  | zero => intro src lm n b _ h; omega
  | succ k ih =>
    intro src lm n b hsrc hk hn hlm
    rw [gsub_loop, if_pos (by omega)]
    have hre : reprepstate (prepstate s [c]) = .ok (prepstate s [c]) := by
      simp [reprepstate, prepstate]
    rw [hre]
    simp only
    rw [do_match_literal_byte s c hc hc2 src]
    simp only
    by_cases hm : src < s.length ∧ byteAt s src = c
    · have hres : (if src < s.length ∧ byteAt s src = c then some (src + 1) else none)
          = some (src + 1) := if_pos hm
      obtain ⟨hm1, hm2⟩ := hm
      rw [hres]
      have hne : some (src + 1) ≠ lm := by
        intro h
        have := hlm (src + 1) h.symm
        omega
      rw [if_pos ⟨by simp, hne⟩]
      simp only [Option.getD_some, add_value, add_s_no_escape _ _ _ r hr]
      simp only [Bool.false_eq_true, if_false]
      rw [ih (src + 1) (some (src + 1)) (n + 1) (b ++ r) (by omega) (by omega)
        (by push_cast; omega) (by intro e he; cases he; exact le_refl _)]
      have hd : s.drop src = c :: s.drop (src + 1) := by
        rw [List.drop_eq_getElem_cons hm1, ← byteAt_lt hm1, hm2]
      rw [hd]
      simp [List.flatMap_cons, List.count_cons]
      ring
    · have hres : (if src < s.length ∧ byteAt s src = c then some (src + 1) else none)
          = none := if_neg hm
      rw [hres]
      rw [if_neg (by simp)]
      by_cases hlt : src < s.length
      · rw [if_pos (by simpa [MatchState.src_end, prepstate] using hlt)]
        simp only [Bool.false_eq_true, if_false]
        rw [ih (src + 1) lm n _ (by omega) (by omega) (by push_cast; omega)
          (by intro e he; have := hlm e he; omega)]
        have hd : s.drop src = byteAt s src :: s.drop (src + 1) := by
          rw [List.drop_eq_getElem_cons hlt, ← byteAt_lt hlt]
        have hne : byteAt s src ≠ c := fun h => hm ⟨hlt, h⟩
        rw [hd]
        simp [List.flatMap_cons, List.count_cons, hne, prepstate]
      · rw [if_neg (by simpa [MatchState.src_end, prepstate] using hlt)]
        have hd : s.drop src = [] := List.drop_eq_nil_of_le (by omega)
        simp [gsub_finish, hd, prepstate]

/-- C6: for a one-byte pattern `c` that is no special byte and not `)`, and a
replacement template `r` without `%`, `gsub(s, c, r)` with the default
`max_count` returns `s` with every occurrence of the byte `c` replaced by `r`
and every other byte left in place, together with the number of occurrences of
`c` in `s`; in particular `gsub("hello world", "o", "0")` is
`("hell0 w0rld", 2)`. -/
theorem gsub_literal_byte (s : Bytes) (c : Nat) (r : Bytes) (hc : c ∉ SPECIALS) (hc2 : c ≠ 41)
    (hr : 37 ∉ r) :
    str_gsub s [c] (.template r) none
      = .ok (s.flatMap (fun x => if x = c then r else [x]), (s.count c : Int)) ∧
    str_gsub (bytesOf "hello world") (bytesOf "o") (.template (bytesOf "0")) none
      = .ok (bytesOf "hell0 w0rld", 2) := by
  refine ⟨?_, by decide⟩
  have h94 : c ≠ 94 := by
    intro h; apply hc; rw [h]; decide
  have hanchor : decide (byteAt [c] 0 = 94) = false := by
    simpa [byteAt] using h94
  unfold str_gsub
  simp only [Option.getD_none, hanchor, Bool.false_eq_true, if_false]
  have := gsub_loop_literal_byte s c r hc hc2 hr (((s.length : Int) + 1).toNat + s.length + 1)
    0 none 0 [] (by omega) (by omega) (by simp) (by simp)
  simpa using this

theorem gsub_literal_byte_witness :
    (111 ∉ SPECIALS ∧ 111 ≠ 41 ∧ 37 ∉ bytesOf "<0>") ∧
    (str_gsub (bytesOf "foo") [111] (.template (bytesOf "<0>")) none
      = .ok ((bytesOf "foo").flatMap (fun x => if x = 111 then bytesOf "<0>" else [x]),
          ((bytesOf "foo").count 111 : Int)) ∧
    str_gsub (bytesOf "hello world") (bytesOf "o") (.template (bytesOf "0")) none
      = .ok (bytesOf "hell0 w0rld", 2)) :=
  ⟨⟨by decide, by decide, by decide⟩,
    gsub_literal_byte (bytesOf "foo") 111 (bytesOf "<0>") (by decide) (by decide) (by decide)⟩

/-! ### Greedy expansion -/

/-- The counting loop of `max_expand` stops at the first position where the
item does not match. -/
theorem max_expand_count_eq (ms : MatchState) (s p ep : Nat) :
    ∀ (n fuel i : Nat), n ≤ fuel →
      (∀ j, j < n → singlematch ms (s + (i + j)) p ep = true) →
      singlematch ms (s + (i + n)) p ep = false →
      max_expand_count ms s p ep fuel i = i + n := by
  intro n
  induction n with
  | zero =>
    intro fuel i _ _ hstop
    cases fuel with
    | zero => rfl
    | succ fuel =>
      rw [max_expand_count]
      simp only [Nat.add_zero] at hstop
      simp [hstop]
  | succ n ih =>
    intro fuel i hf hrun hstop
    obtain ⟨fuel, rfl⟩ : ∃ f, fuel = f + 1 := ⟨fuel - 1, by omega⟩
    rw [max_expand_count]
    have h0 := hrun 0 (by omega)
    simp only [Nat.add_zero] at h0
    rw [if_pos h0, ih fuel (i + 1) (by omega)]
    · omega
    · intro j hj
      have := hrun (j + 1) (by omega)
      rwa [show i + 1 + j = i + (j + 1) by omega]
    · rwa [show i + 1 + n = i + (n + 1) by omega]

/-- When the rest of the pattern matches after the maximal repetition count,
`max_expand` returns that match. -/
theorem max_expand_try_first (m : Matcher) (s ep i : Nat) (ms ms1 : MatchState) (r : Nat)
    (h : m ms (s + i) (ep + 1) = .ok (some r, ms1)) :
    max_expand_try m s ep i ms = .ok (some r, ms1) := by
  cases i with
  | zero =>
    rw [max_expand_try]
    simpa using h
  | succ i =>
    rw [max_expand_try, h]

theorem start_capture_success (m : Matcher) (ms ms2 : MatchState) (s p r : Nat) (what : Int)
    (hl : ms.level < MAXCAPTURES)
    (h : m { ms with capture := ms.capture.set ms.level ⟨s, what⟩, level := ms.level + 1 } s p
      = .ok (some r, ms2)) :
    start_capture m ms s p what = .ok (some r, ms2) := by
  unfold start_capture
  rw [if_neg (by omega)]
  simp only [h]

theorem end_capture_success (m : Matcher) (ms ms2 : MatchState) (s p r l : Nat)
    (hl : capture_to_close ms = .ok l)
    (h : m { ms with capture := ms.capture.set l ⟨(ms.cap l).init, (s : Int) - (ms.cap l).init⟩ }
      s p = .ok (some r, ms2)) :
    end_capture m ms s p = .ok (some r, ms2) := by
  unfold end_capture
  rw [hl]
  simp only [h]

theorem match_entry_success (body : Matcher) (ms ms1 : MatchState) (s p : Nat) (r : Option Nat)
    (d : Nat) (hd : ms.matchdepth = d + 1)
    (h : body { ms with matchdepth := d } s p = .ok (r, ms1)) :
    match_entry body ms s p = .ok (r, { ms1 with matchdepth := ms1.matchdepth + 1 }) := by
  rw [match_entry_eq body ms s p (by omega)]
  have : ms.matchdepth - 1 = d := by omega
  rw [this, h]

/-! ### C7: two captured words -/

theorem match_class_alpha (c : Nat) : match_class c 97 = isalpha c := by
  simp [match_class, tolower, isupper, islower]

theorem match_init_close (fuel : Nat) (ms : MatchState) (s p : Nat)
    (h41 : byteAt ms.pat p = 41) :
    match_init (fuel + 1) ms s p = end_capture (match_entry (match_init fuel)) ms s (p + 1) := by
  have hp : p ≠ ms.p_end := Nat.ne_of_lt (lt_length_of_byteAt_ne_zero (by omega))
  rw [match_init]
  simp [hp, h41]

theorem match_init_open (fuel : Nat) (ms : MatchState) (s p : Nat)
    (h40 : byteAt ms.pat p = 40) (h41 : byteAt ms.pat (p + 1) ≠ 41) :
    match_init (fuel + 1) ms s p
      = start_capture (match_entry (match_init fuel)) ms s (p + 1) CAP_UNFINISHED := by
  have hp : p ≠ ms.p_end := Nat.ne_of_lt (lt_length_of_byteAt_ne_zero (by omega))
  rw [match_init]
  simp [hp, h40, h41]

section TwoWords

variable (w1 w2 : Bytes)

theorem two_words_step5 (f d : Nat) (C : List Capture) :
    match_init (f + 1) ⟨w1 ++ 32 :: w2, twoWordsPattern, d, 2, C⟩
        (w1.length + 1 + w2.length) 11
      = .ok (some (w1.length + 1 + w2.length),
          ⟨w1 ++ 32 :: w2, twoWordsPattern, d, 2, C⟩) :=
  match_init_at_end _ _ _ _ rfl

theorem two_words_step6 (f d : Nat) :
    match_init (f + 1 + 1)
        ⟨w1 ++ 32 :: w2, twoWordsPattern, d + 1, 2, twoWordsCaps w1 w2 3⟩
        (w1.length + 1 + w2.length) 10
      = .ok (some (w1.length + 1 + w2.length),
          ⟨w1 ++ 32 :: w2, twoWordsPattern, d + 1, 2, twoWordsCaps w1 w2 4⟩) := by
  rw [match_init_close]
  swap
  · rfl
  apply end_capture_success _ _ _ _ _ _ 1
  · simp [capture_to_close, capture_to_close_loop, MatchState.cap, twoWordsCaps, blankCaptures,
      MAXCAPTURES, CAP_UNFINISHED, List.replicate]
  · rw [match_entry_success _ _ _ _ _ _ d rfl (two_words_step5 w1 w2 f d _)]
    simp [MatchState.cap, twoWordsCaps, blankCaptures, MAXCAPTURES, List.replicate]

theorem byteAt_append_left (a b : Bytes) (j : Nat) (h : j < a.length) :
    byteAt (a ++ b) j = byteAt a j := by
  simp [byteAt, List.getD_eq_getElem?_getD, List.getElem?_append_left h]

theorem byteAt_append_right (a b : Bytes) (j : Nat) :
    byteAt (a ++ b) (a.length + j) = byteAt b j := by
  simp [byteAt, List.getD_eq_getElem?_getD, List.getElem?_append_right]

theorem isalpha_byteAt (w : Bytes) (hw : ∀ b ∈ w, isalpha b = true) (j : Nat)
    (h : j < w.length) : isalpha (byteAt w j) = true := by
  rw [byteAt_lt h]
  exact hw _ (List.getElem_mem _)

/-- The item `%a` of the second group matches every byte of `w2` and stops at
the subject end. -/
theorem two_words_single2 (hw2 : ∀ b ∈ w2, isalpha b = true) (d l : Nat) (C : List Capture)
    (j : Nat) :
    singlematch ⟨w1 ++ 32 :: w2, twoWordsPattern, d, l, C⟩ (w1.length + 1 + j) 7 9
      = decide (j < w2.length) := by
  rw [singlematch_class]
  swap
  · rfl
  by_cases hj : j < w2.length
  · have hb : byteAt (w1 ++ 32 :: w2) (w1.length + 1 + j) = byteAt w2 j := by
      rw [Nat.add_assoc, byteAt_append_right, Nat.add_comm 1 j, byteAt_cons_succ]
    have hbp : byteAt twoWordsPattern (7 + 1) = 97 := rfl
    simp only [hb, hbp, match_class_alpha, isalpha_byteAt w2 hw2 j hj, MatchState.src_end,
      List.length_append, List.length_cons]
    simp
    omega
  · simp [MatchState.src_end, hj]
    intro h
    omega

/-- The item `%a` of the first group matches every byte of `w1` and stops at
the space. -/
theorem two_words_single1 (hw1 : ∀ b ∈ w1, isalpha b = true) (d l : Nat) (C : List Capture)
    (j : Nat) (hj : j ≤ w1.length) :
    singlematch ⟨w1 ++ 32 :: w2, twoWordsPattern, d, l, C⟩ j 1 3
      = decide (j < w1.length) := by
  rw [singlematch_class]
  swap
  · rfl
  have hbp : byteAt twoWordsPattern (1 + 1) = 97 := rfl
  by_cases hlt : j < w1.length
  · simp only [byteAt_append_left _ _ j hlt, hbp, match_class_alpha,
      isalpha_byteAt w1 hw1 j hlt, MatchState.src_end, List.length_append, List.length_cons]
    simp
    omega
  · obtain rfl : j = w1.length := by omega
    have hb : byteAt (w1 ++ 32 :: w2) w1.length = 32 := by
      have := byteAt_append_right w1 (32 :: w2) 0
      simpa [byteAt] using this
    simp only [hb, hbp, match_class_alpha]
    simp [isalpha]

end TwoWords


theorem singlematch_lt {ms : MatchState} {s p ep : Nat} (h : singlematch ms s p ep = true) :
    s < ms.src_end := by
  unfold singlematch at h
  by_contra hge
  rw [if_pos (Nat.le_of_not_lt hge)] at h
  exact Bool.false_ne_true h

/-- Greedy expansion takes the longest run of the item when the rest of the
pattern matches right after it. -/
theorem max_expand_greedy_first (m : Matcher) (ms ms1 : MatchState) (s p ep n r : Nat)
    (hrun : ∀ j, j < n → singlematch ms (s + j) p ep = true)
    (hstop : singlematch ms (s + n) p ep = false)
    (h : m ms (s + n) (ep + 1) = .ok (some r, ms1)) :
    max_expand m ms s p ep = .ok (some r, ms1) := by
  have hn : n ≤ ms.src_end - s := by
    cases n with
    | zero => omega
    | succ k =>
      have := singlematch_lt (hrun k (by omega))
      omega
  unfold max_expand
  have hc := max_expand_count_eq ms s p ep n (ms.src_end - s) 0 hn
    (by intro j hj; rw [Nat.zero_add]; exact hrun j hj) (by rw [Nat.zero_add]; exact hstop)
  rw [Nat.zero_add] at hc
  simp only [hc]
  exact max_expand_try_first m s ep n ms ms1 r h

section TwoWords

variable (w1 w2 : Bytes)

theorem two_words_step7 (hw2 : ∀ b ∈ w2, isalpha b = true) (hne : w2 ≠ []) (f d : Nat) :
    match_init (f + 1 + 1 + 1)
        ⟨w1 ++ 32 :: w2, twoWordsPattern, d + 1 + 1, 2, twoWordsCaps w1 w2 3⟩
        (w1.length + 1) 7
      = .ok (some (w1.length + 1 + w2.length),
          ⟨w1 ++ 32 :: w2, twoWordsPattern, d + 1 + 1, 2, twoWordsCaps w1 w2 4⟩) := by
  have hlen : 0 < w2.length := List.length_pos.mpr hne
  rw [match_init_class]
  rotate_left
  · rfl
  · simp [twoWordsPattern, byteAt, MatchState.p_end, MAXCAPTURES]
  · simp [twoWordsPattern, byteAt, MatchState.p_end, MAXCAPTURES]
  · simp [twoWordsPattern, byteAt, MatchState.p_end, MAXCAPTURES]
  rw [match_default_plus _ _ _ _ _ 9]
  rotate_left
  · rfl
  · rfl
  have h0 := two_words_single2 w1 w2 hw2 (d + 1 + 1) 2 (twoWordsCaps w1 w2 3) 0
  rw [Nat.add_zero] at h0
  rw [h0, if_pos (by simpa using hlen)]
  apply max_expand_greedy_first _ _ _ _ _ _ (w2.length - 1)
  · intro j hj
    have := two_words_single2 w1 w2 hw2 (d + 1 + 1) 2 (twoWordsCaps w1 w2 3) (j + 1)
    rw [show w1.length + 1 + 1 + j = w1.length + 1 + (j + 1) by omega, this]
    simp
    omega
  · have := two_words_single2 w1 w2 hw2 (d + 1 + 1) 2 (twoWordsCaps w1 w2 3) w2.length
    rw [show w1.length + 1 + 1 + (w2.length - 1) = w1.length + 1 + w2.length by omega, this]
    simp
  · rw [show w1.length + 1 + 1 + (w2.length - 1) = w1.length + 1 + w2.length by omega]
    rw [match_entry_success _ _ _ _ _ _ (d + 1) rfl (two_words_step6 w1 w2 f d)]

theorem two_words_step8 (hw2 : ∀ b ∈ w2, isalpha b = true) (hne : w2 ≠ []) (f d : Nat) :
    match_init (f + 1 + 1 + 1 + 1)
        ⟨w1 ++ 32 :: w2, twoWordsPattern, d + 1 + 1 + 1, 1, twoWordsCaps w1 w2 2⟩
        (w1.length + 1) 6
      = .ok (some (w1.length + 1 + w2.length),
          ⟨w1 ++ 32 :: w2, twoWordsPattern, d + 1 + 1 + 1, 2, twoWordsCaps w1 w2 4⟩) := by
  rw [match_init_open]
  rotate_left
  · rfl
  · simp [twoWordsPattern, byteAt, MatchState.p_end, MAXCAPTURES]
  apply start_capture_success
  · simp [twoWordsPattern, byteAt, MatchState.p_end, MAXCAPTURES]
  · rw [match_entry_success _ _ _ _ _ _ (d + 1 + 1) rfl]
    rotate_left
    · exact two_words_step7 w1 w2 hw2 hne f d
    rfl

theorem two_words_step9 (hw2 : ∀ b ∈ w2, isalpha b = true) (hne : w2 ≠ []) (f d : Nat) :
    match_init (f + 1 + 1 + 1 + 1 + 1)
        ⟨w1 ++ 32 :: w2, twoWordsPattern, d + 1 + 1 + 1, 1, twoWordsCaps w1 w2 2⟩
        w1.length 5
      = .ok (some (w1.length + 1 + w2.length),
          ⟨w1 ++ 32 :: w2, twoWordsPattern, d + 1 + 1 + 1, 2, twoWordsCaps w1 w2 4⟩) := by
  rw [match_init_default]
  rotate_left
  · simp [twoWordsPattern, byteAt, MatchState.p_end, MAXCAPTURES]
  · simp [twoWordsPattern, byteAt, MatchState.p_end, MAXCAPTURES]
  · simp [twoWordsPattern, byteAt, MatchState.p_end, MAXCAPTURES]
  · simp [twoWordsPattern, byteAt, MatchState.p_end, MAXCAPTURES]
  · simp [twoWordsPattern, byteAt, MatchState.p_end, MAXCAPTURES]
  rw [match_default_plain _ _ _ _ _ 6]
  rotate_left
  · rfl
  · simp [twoWordsPattern, byteAt, MatchState.p_end, MAXCAPTURES]
  · simp [twoWordsPattern, byteAt, MatchState.p_end, MAXCAPTURES]
  · simp [twoWordsPattern, byteAt, MatchState.p_end, MAXCAPTURES]
  · simp [twoWordsPattern, byteAt, MatchState.p_end, MAXCAPTURES]
  rw [singlematch_literal]
  rotate_left
  · simp [twoWordsPattern, byteAt, MatchState.p_end, MAXCAPTURES]
  · simp [twoWordsPattern, byteAt, MatchState.p_end, MAXCAPTURES]
  · simp [twoWordsPattern, byteAt, MatchState.p_end, MAXCAPTURES]
  have hb : byteAt (w1 ++ 32 :: w2) w1.length = 32 := by
    have := byteAt_append_right w1 (32 :: w2) 0
    simpa [byteAt] using this
  rw [if_pos]
  · exact two_words_step8 w1 w2 hw2 hne f d
  · simp only [decide_eq_true_eq, MatchState.src_end, List.length_append, List.length_cons, hb]
    exact ⟨by omega, rfl⟩

end TwoWords


section TwoWords

variable (w1 w2 : Bytes)

theorem two_words_step10 (hw2 : ∀ b ∈ w2, isalpha b = true) (hne : w2 ≠ []) (f d : Nat) :
    match_init (f + 1 + 1 + 1 + 1 + 1 + 1)
        ⟨w1 ++ 32 :: w2, twoWordsPattern, d + 1 + 1 + 1 + 1, 1, twoWordsCaps w1 w2 1⟩
        w1.length 4
      = .ok (some (w1.length + 1 + w2.length),
          ⟨w1 ++ 32 :: w2, twoWordsPattern, d + 1 + 1 + 1 + 1, 2, twoWordsCaps w1 w2 4⟩) := by
  rw [match_init_close]
  swap
  · rfl
  apply end_capture_success _ _ _ _ _ _ 0
  · simp [capture_to_close, capture_to_close_loop, MatchState.cap, twoWordsCaps, blankCaptures,
      MAXCAPTURES, CAP_UNFINISHED, List.replicate]
  · have hcaps : (twoWordsCaps w1 w2 1).set 0
        ⟨((⟨w1 ++ 32 :: w2, twoWordsPattern, d + 1 + 1 + 1 + 1, 1, twoWordsCaps w1 w2 1⟩
            : MatchState).cap 0).init,
          (w1.length : Int) - ((⟨w1 ++ 32 :: w2, twoWordsPattern, d + 1 + 1 + 1 + 1, 1,
            twoWordsCaps w1 w2 1⟩ : MatchState).cap 0).init⟩ = twoWordsCaps w1 w2 2 := by
      simp [MatchState.cap, twoWordsCaps, blankCaptures, MAXCAPTURES, List.replicate]
    simp only [hcaps]
    rw [match_entry_success _ _ _ _ _ _ (d + 1 + 1 + 1) rfl (two_words_step9 w1 w2 hw2 hne f d)]

theorem two_words_step11 (hw1 : ∀ b ∈ w1, isalpha b = true) (hw2 : ∀ b ∈ w2, isalpha b = true)
    (hne1 : w1 ≠ []) (hne : w2 ≠ []) (f d : Nat) :
    match_init (f + 1 + 1 + 1 + 1 + 1 + 1 + 1)
        ⟨w1 ++ 32 :: w2, twoWordsPattern, d + 1 + 1 + 1 + 1 + 1, 1, twoWordsCaps w1 w2 1⟩
        0 1
      = .ok (some (w1.length + 1 + w2.length),
          ⟨w1 ++ 32 :: w2, twoWordsPattern, d + 1 + 1 + 1 + 1 + 1, 2, twoWordsCaps w1 w2 4⟩) := by
  have hlen : 0 < w1.length := List.length_pos.mpr hne1
  rw [match_init_class]
  rotate_left
  · rfl
  · simp [twoWordsPattern, byteAt]
  · simp [twoWordsPattern, byteAt]
  · simp [twoWordsPattern, byteAt]
  rw [match_default_plus _ _ _ _ _ 3]
  rotate_left
  · rfl
  · rfl
  rw [two_words_single1 w1 w2 hw1 _ _ _ 0 (by omega), if_pos (by simpa using hlen)]
  apply max_expand_greedy_first _ _ _ _ _ _ (w1.length - 1)
  · intro j hj
    rw [two_words_single1 w1 w2 hw1 _ _ _ _ (by omega)]
    simp
    omega
  · rw [two_words_single1 w1 w2 hw1 _ _ _ _ (by omega)]
    simp
    omega
  · rw [show 0 + 1 + (w1.length - 1) = w1.length by omega]
    rw [match_entry_success _ _ _ _ _ _ (d + 1 + 1 + 1 + 1) rfl
      (two_words_step10 w1 w2 hw2 hne f d)]

theorem two_words_step12 (hw1 : ∀ b ∈ w1, isalpha b = true) (hw2 : ∀ b ∈ w2, isalpha b = true)
    (hne1 : w1 ≠ []) (hne : w2 ≠ []) (f d : Nat) :
    match_init (f + 1 + 1 + 1 + 1 + 1 + 1 + 1 + 1)
        ⟨w1 ++ 32 :: w2, twoWordsPattern, d + 1 + 1 + 1 + 1 + 1 + 1, 0, twoWordsCaps w1 w2 0⟩
        0 0
      = .ok (some (w1.length + 1 + w2.length),
          ⟨w1 ++ 32 :: w2, twoWordsPattern, d + 1 + 1 + 1 + 1 + 1 + 1, 2,
            twoWordsCaps w1 w2 4⟩) := by
  rw [match_init_open]
  rotate_left
  · rfl
  · simp [twoWordsPattern, byteAt]
  apply start_capture_success
  · simp [MAXCAPTURES]
  · rw [match_entry_success _ _ _ _ _ _ (d + 1 + 1 + 1 + 1 + 1) rfl]
    rotate_left
    · exact two_words_step11 w1 w2 hw1 hw2 hne1 hne f d
    rfl

/-- The whole call of `match` for the two-word subject. -/
theorem two_words_do_match (hw1 : ∀ b ∈ w1, isalpha b = true)
    (hw2 : ∀ b ∈ w2, isalpha b = true) (hne1 : w1 ≠ []) (hne : w2 ≠ []) :
    do_match (matchFuel (prepstate (w1 ++ 32 :: w2) twoWordsPattern).p_end)
        (prepstate (w1 ++ 32 :: w2) twoWordsPattern) 0 0
      = .ok (some (w1.length + 1 + w2.length),
          ⟨w1 ++ 32 :: w2, twoWordsPattern, 200, 2, twoWordsCaps w1 w2 4⟩) := by
  have h : match_init 12 ⟨w1 ++ 32 :: w2, twoWordsPattern, 199, 0, blankCaptures⟩ 0 0
      = .ok (some (w1.length + 1 + w2.length),
          ⟨w1 ++ 32 :: w2, twoWordsPattern, 199, 2, twoWordsCaps w1 w2 4⟩) :=
    two_words_step12 w1 w2 hw1 hw2 hne1 hne 4 193
  have hfuel : matchFuel (prepstate (w1 ++ 32 :: w2) twoWordsPattern).p_end = 12 := rfl
  rw [hfuel, do_match, match_entry_eq _ _ _ _ (by simp [prepstate, MAXCCALLS])]
  have hst : ({ prepstate (w1 ++ 32 :: w2) twoWordsPattern with
      matchdepth := (prepstate (w1 ++ 32 :: w2) twoWordsPattern).matchdepth - 1 } : MatchState)
      = ⟨w1 ++ 32 :: w2, twoWordsPattern, 199, 0, blankCaptures⟩ := rfl
  rw [hst, h]

end TwoWords

/-- C7: for non-empty `w1` and `w2` made only of ASCII letters,
`match(w1 ++ " " ++ w2, "(%a+) (%a+)")` succeeds and yields exactly the two
captures `w1` and `w2`, in that order; in particular
`match("hello world", "(%a+) (%a+)")` yields `"hello"` and `"world"`. -/
theorem match_two_words (w1 w2 : Bytes) (hw1 : ∀ b ∈ w1, isalpha b = true)
    (hw2 : ∀ b ∈ w2, isalpha b = true) (hne1 : w1 ≠ []) (hne2 : w2 ≠ []) :
    str_match (w1 ++ bytesOf " " ++ w2) (bytesOf "(%a+) (%a+)") 1
      = .ok (some [.str w1, .str w2]) ∧
    str_match (bytesOf "hello world") (bytesOf "(%a+) (%a+)") 1
      = .ok (some [.str (bytesOf "hello"), .str (bytesOf "world")]) := by
  refine ⟨?_, by decide⟩
  have hpat : bytesOf "(%a+) (%a+)" = twoWordsPattern := by decide
  have hsp : bytesOf " " = [32] := by decide
  have hsub : w1 ++ [32] ++ w2 = w1 ++ 32 :: w2 := by simp
  rw [hpat, hsp, hsub, str_match]
  have h := str_find_aux_eq false (w1 ++ 32 :: w2) twoWordsPattern 1 false (le_refl _)
    (by omega)
  simp only [Nat.cast_one] at h
  rw [h]
  have hre : reprepstate (prepstate (w1 ++ 32 :: w2) twoWordsPattern)
      = .ok (prepstate (w1 ++ 32 :: w2) twoWordsPattern) := by
    simp [reprepstate, prepstate]
  have hanchor : decide (byteAt twoWordsPattern 0 = 94) = false := by decide
  simp only [Bool.false_eq_true, false_and, if_false, hanchor, Nat.sub_self, Nat.sub_zero]
  rw [str_find_loop, hre]
  simp only
  have hif : (if byteAt twoWordsPattern 0 = 94 then 1 else 0) = 0 := by decide
  rw [hif, two_words_do_match w1 w2 hw1 hw2 hne1 hne2]
  simp [push_captures, push_captures_loop, push_onecapture, MatchState.cap, twoWordsCaps,
    blankCaptures, MAXCAPTURES, List.replicate, CAP_UNFINISHED, CAP_POSITION]

theorem match_two_words_witness :
    ((∀ b ∈ bytesOf "ab", isalpha b = true) ∧ (∀ b ∈ bytesOf "C", isalpha b = true) ∧
      bytesOf "ab" ≠ [] ∧ bytesOf "C" ≠ []) ∧
    (str_match (bytesOf "ab" ++ bytesOf " " ++ bytesOf "C") (bytesOf "(%a+) (%a+)") 1
      = .ok (some [.str (bytesOf "ab"), .str (bytesOf "C")]) ∧
    str_match (bytesOf "hello world") (bytesOf "(%a+) (%a+)") 1
      = .ok (some [.str (bytesOf "hello"), .str (bytesOf "world")])) :=
  ⟨⟨by decide, by decide, by decide, by decide⟩,
    match_two_words (bytesOf "ab") (bytesOf "C") (by decide) (by decide) (by decide)
      (by decide)⟩

/-! ### The frame of a matcher call: budget and capture stack -/

theorem FrameOK.unchanged (ms : MatchState) (r : Option Nat) : FrameOK ms r ms :=
  ⟨rfl, rfl, rfl, rfl, fun _ => rfl, fun _ _ _ => rfl⟩

theorem FrameOK.after_failure {a b c : MatchState} {r : Option Nat}
    (h1 : FrameOK a none b) (h2 : FrameOK b r c) : FrameOK a r c where
  src := h2.src.trans h1.src
  pat := h2.pat.trans h1.pat
  depth := h2.depth.trans h1.depth
  caplen := h2.caplen.trans h1.caplen
  level := fun hr => (h2.level hr).trans (h1.level rfl)
  caps := fun hr i hi =>
    ((h2.caps hr i (by rw [h1.level rfl]; exact hi))).trans (h1.caps rfl i hi)

theorem cap_set (C : List Capture) (j i : Nat) (c : Capture) :
    (C.set j c).getD i ⟨0, 0⟩ = if j = i ∧ j < C.length then c else C.getD i ⟨0, 0⟩ := by
  simp only [List.getD_eq_getElem?_getD, List.getElem?_set]
  by_cases hji : j = i
  · subst hji
    by_cases hlt : j < C.length
    · simp [hlt]
    · simp [hlt, List.getElem?_eq_none (Nat.le_of_not_lt hlt)]
  · simp [hji]

theorem start_capture_framed (m : Matcher) (hm : Framed m) (what : Int)
    (ms : MatchState) (s p : Nat) (r : Option Nat) (ms1 : MatchState)
    (h : start_capture m ms s p what = .ok (r, ms1)) : FrameOK ms r ms1 := by
  simp only [start_capture] at h
  by_cases hl : ms.level ≥ MAXCAPTURES
  · rw [if_pos hl] at h
    cases h
  rw [if_neg hl] at h
  have hl32 : ms.level < 32 := by simpa [MAXCAPTURES] using hl
  cases hr : m { ms with capture := ms.capture.set ms.level ⟨s, what⟩, level := ms.level + 1 }
      s p with
  | error e => rw [hr] at h; cases h
  | outOfFuel => rw [hr] at h; cases h
  | ok v =>
    obtain ⟨r2, ms2⟩ := v
    have hf := hm _ _ _ _ _ hr
    rw [hr] at h
    cases r2 with
    | some e =>
      simp only [Res.ok.injEq, Prod.mk.injEq] at h
      obtain ⟨rfl, rfl⟩ := h
      exact ⟨hf.src, hf.pat, hf.depth, (by rw [hf.caplen]; simp), (fun hn => by cases hn),
        (fun hn => by cases hn)⟩
    | none =>
      simp only [Res.ok.injEq, Prod.mk.injEq] at h
      obtain ⟨rfl, rfl⟩ := h
      have hlev := hf.level rfl
      simp only at hlev
      refine ⟨hf.src, hf.pat, hf.depth, (by simp only; rw [hf.caplen]; simp), fun _ => ?_,
        fun _ i hi => ?_⟩
      · simp only [hlev]
        omega
      · have := hf.caps rfl i (by simp only; omega)
        simp only [MatchState.cap] at this ⊢
        rw [this, cap_set, if_neg (by omega)]


theorem capture_to_close_loop_spec (ms : MatchState) :
    ∀ n l, capture_to_close_loop ms n = .ok l → l < n ∧ (ms.cap l).len = CAP_UNFINISHED := by
  intro n
  induction n with
  | zero => intro l h; simp [capture_to_close_loop] at h
  | succ n ih =>
    intro l h
    rw [capture_to_close_loop] at h
    by_cases hc : (ms.cap n).len = CAP_UNFINISHED
    · rw [if_pos hc] at h
      obtain rfl : n = l := by simpa using h
      exact ⟨by omega, hc⟩
    · rw [if_neg hc] at h
      have := ih l h
      exact ⟨by omega, this.2⟩

theorem capture_to_close_spec (ms : MatchState) (l : Nat) (h : capture_to_close ms = .ok l) :
    l < ms.level ∧ (ms.cap l).len = CAP_UNFINISHED :=
  capture_to_close_loop_spec ms ms.level l h

theorem end_capture_framed (m : Matcher) (hm : Framed m)
    (ms : MatchState) (s p : Nat) (r : Option Nat) (ms1 : MatchState)
    (h : end_capture m ms s p = .ok (r, ms1)) : FrameOK ms r ms1 := by
  simp only [end_capture] at h
  cases hc : capture_to_close ms with
  | error e => rw [hc] at h; cases h
  | outOfFuel => rw [hc] at h; cases h
  | ok l =>
    obtain ⟨hl, hunf⟩ := capture_to_close_spec ms l hc
    rw [hc] at h
    simp only at h
    cases hr : m { ms with
        capture := ms.capture.set l ⟨(ms.cap l).init, (s : Int) - (ms.cap l).init⟩ } s p with
    | error e => rw [hr] at h; cases h
    | outOfFuel => rw [hr] at h; cases h
    | ok v =>
      obtain ⟨r2, ms2⟩ := v
      have hf := hm _ _ _ _ _ hr
      rw [hr] at h
      cases r2 with
      | some e =>
        simp only [Res.ok.injEq, Prod.mk.injEq] at h
        obtain ⟨rfl, rfl⟩ := h
        exact ⟨hf.src, hf.pat, hf.depth, (by rw [hf.caplen]; simp), (fun hn => by cases hn),
          (fun hn => by cases hn)⟩
      | none =>
        simp only [Res.ok.injEq, Prod.mk.injEq] at h
        obtain ⟨rfl, rfl⟩ := h
        have hlev := hf.level rfl
        have hcaps := hf.caps rfl
        simp only at hlev hcaps
        refine ⟨hf.src, hf.pat, hf.depth, (by simp only [List.length_set]; rw [hf.caplen]; simp),
          fun _ => hlev, fun _ i hi => ?_⟩
        have hi2 := hcaps i hi
        have hl2 := hcaps l hl
        simp only [MatchState.cap, cap_set] at hi2 hl2 hunf ⊢
        by_cases hli : l = i
        · subst hli
          by_cases hlen : l < ms.capture.length
          · have hlen2 : l < ms2.capture.length := by
              have := hf.caplen
              simp only [List.length_set] at this
              omega
            simp only [true_and, hlen, hlen2, if_true] at hl2 ⊢
            rw [hl2]
            simp only
            rw [← hunf]
          · have hlen2 : ¬ l < ms2.capture.length := by
              have := hf.caplen
              simp only [List.length_set] at this
              omega
            simp only [true_and, hlen, hlen2, if_false] at hl2 ⊢
            exact hl2
        · simp only [hli, false_and, if_false] at hi2 ⊢
          exact hi2

theorem max_expand_try_framed (m : Matcher) (hm : Framed m) (s ep : Nat) :
    ∀ i ms r ms1, max_expand_try m s ep i ms = .ok (r, ms1) → FrameOK ms r ms1 := by
  intro i
  induction i with
  | zero =>
    intro ms r ms1 h
    rw [max_expand_try] at h
    exact hm _ _ _ _ _ h
  | succ i ih =>
    intro ms r ms1 h
    rw [max_expand_try] at h
    cases hr : m ms (s + (i + 1)) (ep + 1) with
    | error e => rw [hr] at h; cases h
    | outOfFuel => rw [hr] at h; cases h
    | ok v =>
      obtain ⟨r2, ms2⟩ := v
      have hf := hm _ _ _ _ _ hr
      rw [hr] at h
      cases r2 with
      | some e =>
        simp only [Res.ok.injEq, Prod.mk.injEq] at h
        obtain ⟨rfl, rfl⟩ := h
        exact hf
      | none =>
        simp only at h
        exact hf.after_failure (ih _ _ _ h)

theorem max_expand_framed (m : Matcher) (hm : Framed m) (ms : MatchState) (s p ep : Nat)
    (r : Option Nat) (ms1 : MatchState) (h : max_expand m ms s p ep = .ok (r, ms1)) :
    FrameOK ms r ms1 :=
  max_expand_try_framed m hm s ep _ ms r ms1 h


theorem min_expand_loop_framed (m : Matcher) (hm : Framed m) (p0 ep : Nat) :
    ∀ fuel ms s r ms1, min_expand_loop m p0 ep fuel ms s = .ok (r, ms1) → FrameOK ms r ms1 := by
  intro fuel
  induction fuel with
  | zero => intro ms s r ms1 h; simp [min_expand_loop] at h
  | succ fuel ih =>
    intro ms s r ms1 h
    rw [min_expand_loop] at h
    cases hr : m ms s (ep + 1) with
    | error e => rw [hr] at h; cases h
    | outOfFuel => rw [hr] at h; cases h
    | ok v =>
      obtain ⟨r2, ms2⟩ := v
      have hf := hm _ _ _ _ _ hr
      rw [hr] at h
      cases r2 with
      | some e =>
        simp only [Res.ok.injEq, Prod.mk.injEq] at h
        obtain ⟨rfl, rfl⟩ := h
        exact hf
      | none =>
        simp only at h
        by_cases hsm : singlematch ms2 s p0 ep = true
        · rw [if_pos hsm] at h
          exact hf.after_failure (ih _ _ _ _ h)
        · rw [if_neg hsm] at h
          simp only [Res.ok.injEq, Prod.mk.injEq] at h
          obtain ⟨rfl, rfl⟩ := h
          exact hf

theorem min_expand_framed (m : Matcher) (hm : Framed m) (ms : MatchState) (s p ep : Nat)
    (r : Option Nat) (ms1 : MatchState) (h : min_expand m ms s p ep = .ok (r, ms1)) :
    FrameOK ms r ms1 :=
  min_expand_loop_framed m hm p ep _ ms s r ms1 h

theorem match_entry_framed (body : Matcher) (hb : Framed body) : Framed (match_entry body) := by
  intro ms s p r ms1 h
  by_cases hd : ms.matchdepth = 0
  · simp [match_entry, hd] at h
  rw [match_entry_eq body ms s p hd] at h
  cases hr : body { ms with matchdepth := ms.matchdepth - 1 } s p with
  | error e => rw [hr] at h; cases h
  | outOfFuel => rw [hr] at h; cases h
  | ok v =>
    obtain ⟨r2, ms2⟩ := v
    have hf := hb _ _ _ _ _ hr
    rw [hr] at h
    simp only [Res.ok.injEq, Prod.mk.injEq] at h
    obtain ⟨rfl, rfl⟩ := h
    have hdep := hf.depth
    simp only at hdep
    exact ⟨hf.src, hf.pat, (by simp only [hdep]; omega), hf.caplen, hf.level, hf.caps⟩


theorem frameOK_of_ok_self {ms ms1 : MatchState} {r r1 : Option Nat}
    (h : (Res.ok (r1, ms) : MRes) = .ok (r, ms1)) : FrameOK ms r ms1 := by
  simp only [Res.ok.injEq, Prod.mk.injEq] at h
  obtain ⟨_, rfl⟩ := h
  exact FrameOK.unchanged _ _

theorem match_default_framed (goto call : Matcher) (hg : Framed goto) (hc : Framed call) :
    Framed (match_default goto call) := by
  intro ms s p r ms1 h
  unfold match_default at h
  cases hce : classend ms p with
  | error e => rw [hce] at h; cases h
  | outOfFuel => rw [hce] at h; cases h
  | ok ep =>
    rw [hce] at h
    simp only at h
    by_cases hsm : singlematch ms s p ep = true
    · rw [if_neg (by simpa using hsm)] at h
      by_cases h63 : byteAt ms.pat ep = 63
      · rw [if_pos h63] at h
        cases hr : call ms (s + 1) (ep + 1) with
        | error e => rw [hr] at h; cases h
        | outOfFuel => rw [hr] at h; cases h
        | ok v =>
          obtain ⟨r2, ms2⟩ := v
          have hf := hc _ _ _ _ _ hr
          rw [hr] at h
          cases r2 with
          | some e =>
            simp only [Res.ok.injEq, Prod.mk.injEq] at h
            obtain ⟨rfl, rfl⟩ := h
            exact hf
          | none =>
            simp only at h
            exact hf.after_failure (hg _ _ _ _ _ h)
      · rw [if_neg h63] at h
        by_cases h43 : byteAt ms.pat ep = 43
        · rw [if_pos h43] at h
          exact max_expand_framed call hc _ _ _ _ _ _ h
        · rw [if_neg h43] at h
          by_cases h42 : byteAt ms.pat ep = 42
          · rw [if_pos h42] at h
            exact max_expand_framed call hc _ _ _ _ _ _ h
          · rw [if_neg h42] at h
            by_cases h45 : byteAt ms.pat ep = 45
            · rw [if_pos h45] at h
              exact min_expand_framed call hc _ _ _ _ _ _ h
            · rw [if_neg h45] at h
              exact hg _ _ _ _ _ h
    · rw [if_pos hsm] at h
      split_ifs at h
      · exact hg _ _ _ _ _ h
      · exact frameOK_of_ok_self h

/-- Every normal return of the body of `match` satisfies the frame
conditions. -/
theorem match_init_framed : ∀ fuel, Framed (match_init fuel) := by
  intro fuel
  induction fuel with
  | zero => intro ms s p r ms1 h; simp [match_init] at h
  | succ fuel ih =>
    have hcall : Framed (match_entry (match_init fuel)) := match_entry_framed _ ih
    intro ms s p r ms1 h
    rw [match_init] at h
    simp only at h
    by_cases hp : p ≠ ms.p_end
    swap
    · rw [if_neg hp] at h
      exact frameOK_of_ok_self h
    rw [if_pos hp] at h
    by_cases h40 : byteAt ms.pat p = 40
    · rw [if_pos h40] at h
      by_cases h41 : byteAt ms.pat (p + 1) = 41
      · rw [if_pos h41] at h
        exact start_capture_framed _ hcall _ _ _ _ _ _ h
      · rw [if_neg h41] at h
        exact start_capture_framed _ hcall _ _ _ _ _ _ h
    rw [if_neg h40] at h
    by_cases h41 : byteAt ms.pat p = 41
    · rw [if_pos h41] at h
      exact end_capture_framed _ hcall _ _ _ _ _ h
    rw [if_neg h41] at h
    by_cases h36 : byteAt ms.pat p = 36 ∧ p + 1 = ms.p_end
    · rw [if_pos h36] at h
      exact frameOK_of_ok_self h
    rw [if_neg h36] at h
    by_cases h37 : byteAt ms.pat p = ESC
    swap
    · rw [if_neg h37] at h
      exact match_default_framed _ _ ih hcall _ _ _ _ _ h
    rw [if_pos h37] at h
    by_cases hb : byteAt ms.pat (p + 1) = 98
    · rw [if_pos hb] at h
      cases hmb : matchbalance ms s (p + 2) with
      | error e => rw [hmb] at h; cases h
      | outOfFuel => rw [hmb] at h; cases h
      | ok v =>
        rw [hmb] at h
        cases v with
        | some s1 => exact ih _ _ _ _ _ h
        | none => exact frameOK_of_ok_self h
    rw [if_neg hb] at h
    by_cases hf : byteAt ms.pat (p + 1) = 102
    · rw [if_pos hf] at h
      by_cases hbr : byteAt ms.pat (p + 2) ≠ 91
      · rw [if_pos hbr] at h
        cases h
      rw [if_neg hbr] at h
      cases hce : classend ms (p + 2) with
      | error e => rw [hce] at h; cases h
      | outOfFuel => rw [hce] at h; cases h
      | ok ep =>
        rw [hce] at h
        simp only at h
        split_ifs at h
        all_goals first | exact ih _ _ _ _ _ h | exact frameOK_of_ok_self h
    rw [if_neg hf] at h
    by_cases hd : 48 ≤ byteAt ms.pat (p + 1) ∧ byteAt ms.pat (p + 1) ≤ 57
    · rw [if_pos hd] at h
      cases hmc : match_capture ms s (byteAt ms.pat (p + 1)) with
      | error e => rw [hmc] at h; cases h
      | outOfFuel => rw [hmc] at h; cases h
      | ok v =>
        rw [hmc] at h
        cases v with
        | some s1 => exact ih _ _ _ _ _ h
        | none => exact frameOK_of_ok_self h
    rw [if_neg hd] at h
    exact match_default_framed _ _ ih hcall _ _ _ _ _ h

theorem do_match_framed (fuel : Nat) : Framed (do_match fuel) :=
  match_entry_framed _ (match_init_framed fuel)

/-! ### Termination: the fuel of the embedding is never exhausted -/

theorem classend_loop_spec (ms : MatchState) :
    ∀ fuel p, p ≤ ms.p_end → ms.p_end + 1 - p ≤ fuel →
      classend_loop ms fuel p ≠ .outOfFuel ∧
      ∀ ep, classend_loop ms fuel p = .ok ep → p < ep ∧ ep ≤ ms.p_end := by
  intro fuel
  induction fuel with
  | zero => intro p hp hf; omega
  | succ fuel ih =>
    intro p hp hf
    rw [classend_loop]
    by_cases hpe : p = ms.p_end
    · rw [if_pos hpe]
      exact ⟨by simp, by intro ep h; cases h⟩
    rw [if_neg hpe]
    simp only
    have hp2 : (if byteAt ms.pat p = ESC ∧ p + 1 < ms.p_end then p + 1 + 1 else p + 1)
        ≤ ms.p_end ∧ p < (if byteAt ms.pat p = ESC ∧ p + 1 < ms.p_end then p + 1 + 1 else p + 1)
        := by
      split_ifs with h
      · omega
      · omega
    generalize (if byteAt ms.pat p = ESC ∧ p + 1 < ms.p_end then p + 1 + 1 else p + 1) = p2
      at hp2 ⊢
    by_cases h93 : byteAt ms.pat p2 ≠ 93
    · rw [if_pos h93]
      obtain ⟨a, b⟩ := ih p2 hp2.1 (by omega)
      exact ⟨a, fun ep h => by have := b ep h; omega⟩
    · rw [if_neg h93]
      have hlt : p2 < ms.p_end := lt_length_of_byteAt_ne_zero (by omega)
      refine ⟨by simp, fun ep h => ?_⟩
      simp only [Res.ok.injEq] at h
      omega

/-- The pattern scanner always returns, and a scanned item ends after its
start and inside the pattern. -/
theorem classend_spec (ms : MatchState) (p : Nat) :
    classend ms p ≠ .outOfFuel ∧
    ∀ ep, classend ms p = .ok ep → p < ms.p_end → p < ep ∧ ep ≤ ms.p_end := by
  unfold classend
  simp only
  by_cases h37 : byteAt ms.pat p = ESC
  · rw [if_pos h37]
    by_cases hpe : p + 1 = ms.p_end
    · rw [if_pos hpe]
      exact ⟨by simp, by intro ep h; cases h⟩
    · rw [if_neg hpe]
      refine ⟨by simp, fun ep h hlt => ?_⟩
      simp only [Res.ok.injEq] at h
      omega
  rw [if_neg h37]
  by_cases h91 : byteAt ms.pat p = 91
  · rw [if_pos h91]
    have hlt : p < ms.p_end := lt_length_of_byteAt_ne_zero (by omega)
    have hp1 : (if byteAt ms.pat (p + 1) = 94 then p + 1 + 1 else p + 1) ≤ ms.p_end ∧
        p < (if byteAt ms.pat (p + 1) = 94 then p + 1 + 1 else p + 1) := by
      split_ifs with h
      · have : p + 1 < ms.p_end := lt_length_of_byteAt_ne_zero (by omega)
        omega
      · omega
    generalize (if byteAt ms.pat (p + 1) = 94 then p + 1 + 1 else p + 1) = p1 at hp1 ⊢
    obtain ⟨a, b⟩ := classend_loop_spec ms (ms.p_end + 1 - p1) p1 hp1.1 (le_refl _)
    exact ⟨a, fun ep h _ => by have := b ep h; omega⟩
  · rw [if_neg h91]
    refine ⟨by simp, fun ep h hlt => ?_⟩
    simp only [Res.ok.injEq] at h
    omega

theorem classend_pat (a b : MatchState) (h : a.pat = b.pat) (p : Nat) :
    classend a p = classend b p := by
  have hloop : ∀ fuel p, classend_loop a fuel p = classend_loop b fuel p := by
    intro fuel
    induction fuel with
    | zero => intro p; rfl
    | succ fuel ih =>
      intro p
      rw [classend_loop, classend_loop]
      simp only [MatchState.p_end, h, ih]
  unfold classend
  simp only [MatchState.p_end, h, hloop]

theorem capture_to_close_ne_fuel (ms : MatchState) : capture_to_close ms ≠ .outOfFuel := by
  have : ∀ n, capture_to_close_loop ms n ≠ .outOfFuel := by
    intro n
    induction n with
    | zero => simp [capture_to_close_loop]
    | succ n ih =>
      rw [capture_to_close_loop]
      split_ifs
      · simp
      · exact ih
  exact this _

theorem matchbalance_spec_fuel (ms : MatchState) (s p : Nat) :
    matchbalance ms s p ≠ .outOfFuel ∧
    ∀ r, matchbalance ms s p = .ok r → p + 1 < ms.p_end := by
  unfold matchbalance
  by_cases h : p + 1 ≥ ms.p_end
  · rw [if_pos h]
    exact ⟨by simp, by intro r hr; cases hr⟩
  · rw [if_neg h]
    refine ⟨?_, fun _ _ => by omega⟩
    split_ifs <;> simp

theorem match_capture_ne_fuel (ms : MatchState) (s l : Nat) :
    match_capture ms s l ≠ .outOfFuel := by
  unfold match_capture check_capture
  simp only
  split_ifs
  · simp
  · simp only
    split_ifs <;> simp


theorem start_capture_fuel (m : Matcher) (L lo : Nat) (hm : FuelFor m L lo) (ms : MatchState)
    (s p : Nat) (what : Int) (hL : ms.p_end = L) (hlo : lo ≤ p) (hp : p ≤ L) :
    start_capture m ms s p what ≠ .outOfFuel := by
  unfold start_capture
  simp only
  split_ifs
  · simp
  · have := hm { ms with capture := ms.capture.set ms.level ⟨s, what⟩, level := ms.level + 1 }
      s p hL hlo hp
    split <;> simp_all

theorem end_capture_fuel (m : Matcher) (L lo : Nat) (hm : FuelFor m L lo) (ms : MatchState)
    (s p : Nat) (hL : ms.p_end = L) (hlo : lo ≤ p) (hp : p ≤ L) :
    end_capture m ms s p ≠ .outOfFuel := by
  unfold end_capture
  cases hc : capture_to_close ms with
  | error e => simp
  | outOfFuel => exact absurd hc (capture_to_close_ne_fuel ms)
  | ok l =>
    simp only
    have := hm { ms with
      capture := ms.capture.set l ⟨(ms.cap l).init, (s : Int) - (ms.cap l).init⟩ } s p hL hlo hp
    split <;> simp_all

theorem p_end_of_frame {ms ms1 : MatchState} {r : Option Nat} (h : FrameOK ms r ms1) :
    ms1.p_end = ms.p_end := by
  simp only [MatchState.p_end, h.pat]

theorem src_end_of_frame {ms ms1 : MatchState} {r : Option Nat} (h : FrameOK ms r ms1) :
    ms1.src_end = ms.src_end := by
  simp only [MatchState.src_end, h.src]

theorem max_expand_try_fuel (m : Matcher) (L lo : Nat) (hm : FuelFor m L lo) (hfr : Framed m)
    (s ep : Nat) (hlo : lo ≤ ep + 1) (hp : ep + 1 ≤ L) :
    ∀ i ms, ms.p_end = L → max_expand_try m s ep i ms ≠ .outOfFuel := by
  intro i
  induction i with
  | zero =>
    intro ms hL
    rw [max_expand_try]
    exact hm ms s (ep + 1) hL hlo hp
  | succ i ih =>
    intro ms hL
    rw [max_expand_try]
    cases hr : m ms (s + (i + 1)) (ep + 1) with
    | error e => simp
    | outOfFuel => exact absurd hr (hm ms _ (ep + 1) hL hlo hp)
    | ok v =>
      obtain ⟨r2, ms2⟩ := v
      cases r2 with
      | some e => simp
      | none =>
        simp only
        exact ih ms2 (by rw [p_end_of_frame (hfr _ _ _ _ _ hr), hL])

theorem min_expand_loop_fuel (m : Matcher) (L lo : Nat) (hm : FuelFor m L lo) (hfr : Framed m)
    (p0 ep : Nat) (hlo : lo ≤ ep + 1) (hp : ep + 1 ≤ L) :
    ∀ fuel ms s, ms.p_end = L → ms.src_end - s < fuel →
      min_expand_loop m p0 ep fuel ms s ≠ .outOfFuel := by
  intro fuel
  induction fuel with
  | zero => intro ms s _ h; omega
  | succ fuel ih =>
    intro ms s hL hf
    rw [min_expand_loop]
    cases hr : m ms s (ep + 1) with
    | error e => simp
    | outOfFuel => exact absurd hr (hm ms _ (ep + 1) hL hlo hp)
    | ok v =>
      obtain ⟨r2, ms2⟩ := v
      cases r2 with
      | some e => simp
      | none =>
        simp only
        have hfo := hfr _ _ _ _ _ hr
        by_cases hsm : singlematch ms2 s p0 ep = true
        · rw [if_pos hsm]
          have hlt := singlematch_lt hsm
          rw [src_end_of_frame hfo] at hlt
          exact ih ms2 (s + 1) (by rw [p_end_of_frame hfo, hL])
            (by rw [src_end_of_frame hfo]; omega)
        · rw [if_neg hsm]
          simp

theorem match_entry_fuel (body : Matcher) (L lo : Nat) (hb : FuelFor body L lo) :
    FuelFor (match_entry body) L lo := by
  intro ms s p hL hlo hp
  unfold match_entry
  split_ifs
  · simp
  · have := hb { ms with matchdepth := ms.matchdepth - 1 } s p hL hlo hp
    split <;> simp_all

theorem match_default_fuel (goto call : Matcher) (L lo : Nat) (hg : FuelFor goto L lo)
    (hc : FuelFor call L lo) (hcf : Framed call) (ms : MatchState) (s p : Nat)
    (hL : ms.p_end = L) (hlt : p < L) (hlo : lo ≤ p + 1) :
    match_default goto call ms s p ≠ .outOfFuel := by
  unfold match_default
  obtain ⟨hne, hspec⟩ := classend_spec ms p
  cases hce : classend ms p with
  | error e => simp
  | outOfFuel => exact absurd hce hne
  | ok ep =>
    obtain ⟨h1, h2⟩ := hspec ep hce (by omega)
    simp only
    have hsuf : byteAt ms.pat ep ≠ 0 → lo ≤ ep + 1 ∧ ep + 1 ≤ L := by
      intro h
      have : ep < ms.p_end := lt_length_of_byteAt_ne_zero h
      omega
    by_cases hsm : singlematch ms s p ep = true
    · rw [if_neg (by simpa using hsm)]
      by_cases h63 : byteAt ms.pat ep = 63
      · rw [if_pos h63]
        obtain ⟨a, b⟩ := hsuf (by omega)
        cases hr : call ms (s + 1) (ep + 1) with
        | error e => simp
        | outOfFuel => exact absurd hr (hc ms _ _ hL a b)
        | ok v =>
          obtain ⟨r2, ms2⟩ := v
          cases r2 with
          | some e => simp
          | none =>
            simp only
            exact hg ms2 _ _ (by rw [p_end_of_frame (hcf _ _ _ _ _ hr), hL]) a b
      · rw [if_neg h63]
        by_cases h43 : byteAt ms.pat ep = 43
        · rw [if_pos h43]
          obtain ⟨a, b⟩ := hsuf (by omega)
          exact max_expand_try_fuel call L lo hc hcf _ ep a b _ ms hL
        · rw [if_neg h43]
          by_cases h42 : byteAt ms.pat ep = 42
          · rw [if_pos h42]
            obtain ⟨a, b⟩ := hsuf (by omega)
            exact max_expand_try_fuel call L lo hc hcf _ ep a b _ ms hL
          · rw [if_neg h42]
            by_cases h45 : byteAt ms.pat ep = 45
            · rw [if_pos h45]
              obtain ⟨a, b⟩ := hsuf (by omega)
              exact min_expand_loop_fuel call L lo hc hcf p ep a b _ ms s hL (by omega)
            · rw [if_neg h45]
              exact hg ms _ _ hL (by omega) (by omega)
    · rw [if_pos hsm]
      split_ifs with h
      · obtain ⟨a, b⟩ := hsuf (by omega)
        exact hg ms _ _ hL a b
      · simp


/-- The body of `match` never runs out of fuel when the fuel exceeds the
number of pattern bytes left: every `goto init` and every recursive call
advances the pattern cursor. -/
theorem match_init_fuel (L : Nat) : ∀ fuel, FuelFor (match_init fuel) L (L + 1 - fuel) := by
  intro fuel
  induction fuel with
  | zero => intro ms s p _ hlo hp; omega
  | succ fuel ih =>
    have hcall : FuelFor (match_entry (match_init fuel)) L (L + 1 - fuel) :=
      match_entry_fuel _ L _ ih
    have hcf : Framed (match_entry (match_init fuel)) :=
      match_entry_framed _ (match_init_framed fuel)
    intro ms s p hL hlo hp
    rw [match_init]
    simp only
    by_cases hpe : p ≠ ms.p_end
    swap
    · rw [if_neg hpe]
      simp
    rw [if_pos hpe]
    have hlt : p < L := by omega
    have hnext : ∀ k, byteAt ms.pat (p + k) ≠ 0 → p + k + 1 ≤ L := by
      intro k h
      have : p + k < ms.p_end := lt_length_of_byteAt_ne_zero h
      omega
    by_cases h40 : byteAt ms.pat p = 40
    · rw [if_pos h40]
      by_cases h41 : byteAt ms.pat (p + 1) = 41
      · rw [if_pos h41]
        have := hnext 1 (by omega)
        exact start_capture_fuel _ L _ hcall ms s _ _ hL (by omega) (by omega)
      · rw [if_neg h41]
        exact start_capture_fuel _ L _ hcall ms s _ _ hL (by omega) (by omega)
    rw [if_neg h40]
    by_cases h41 : byteAt ms.pat p = 41
    · rw [if_pos h41]
      exact end_capture_fuel _ L _ hcall ms s _ hL (by omega) (by omega)
    rw [if_neg h41]
    by_cases h36 : byteAt ms.pat p = 36 ∧ p + 1 = ms.p_end
    · rw [if_pos h36]
      simp
    rw [if_neg h36]
    by_cases h37 : byteAt ms.pat p = ESC
    swap
    · rw [if_neg h37]
      exact match_default_fuel _ _ L _ ih hcall hcf ms s p hL hlt (by omega)
    rw [if_pos h37]
    by_cases hb : byteAt ms.pat (p + 1) = 98
    · rw [if_pos hb]
      obtain ⟨hne, hspec⟩ := matchbalance_spec_fuel ms s (p + 2)
      cases hmb : matchbalance ms s (p + 2) with
      | error e => simp
      | outOfFuel => exact absurd hmb hne
      | ok v =>
        have := hspec v hmb
        cases v with
        | some s1 =>
          simp only
          exact ih ms s1 (p + 4) hL (by omega) (by omega)
        | none => simp
    rw [if_neg hb]
    by_cases hf : byteAt ms.pat (p + 1) = 102
    · rw [if_pos hf]
      by_cases hbr : byteAt ms.pat (p + 2) ≠ 91
      · rw [if_pos hbr]
        simp
      rw [if_neg hbr]
      have h91 : byteAt ms.pat (p + 2) = 91 := by simpa using hbr
      have hlt2 : p + 2 < ms.p_end := lt_length_of_byteAt_ne_zero (by omega)
      obtain ⟨hne, hspec⟩ := classend_spec ms (p + 2)
      cases hce : classend ms (p + 2) with
      | error e => simp
      | outOfFuel => exact absurd hce hne
      | ok ep =>
        obtain ⟨a, b⟩ := hspec ep hce hlt2
        simp only
        split_ifs
        all_goals first | exact ih ms s ep hL (by omega) (by omega) | simp
    rw [if_neg hf]
    by_cases hd : 48 ≤ byteAt ms.pat (p + 1) ∧ byteAt ms.pat (p + 1) ≤ 57
    · rw [if_pos hd]
      cases hmc : match_capture ms s (byteAt ms.pat (p + 1)) with
      | error e => simp
      | outOfFuel => exact absurd hmc (match_capture_ne_fuel ms s _)
      | ok v =>
        cases v with
        | some s1 =>
          simp only
          have := hnext 1 (by omega)
          exact ih ms s1 (p + 2) hL (by omega) (by omega)
        | none => simp
    rw [if_neg hd]
    exact match_default_fuel _ _ L _ ih hcall hcf ms s p hL hlt (by omega)

/-- A call of `match` with the fuel the driving operations supply never runs
out of fuel. -/
theorem do_match_ne_outOfFuel (ms : MatchState) (s p : Nat) (hp : p ≤ ms.p_end) :
    do_match (matchFuel ms.p_end) ms s p ≠ .outOfFuel := by
  have h := match_entry_fuel _ ms.p_end _ (match_init_fuel ms.p_end (matchFuel ms.p_end))
  exact h ms s p rfl (by simp [matchFuel]) hp

/-! ### Stale capture records are never read -/

theorem StateEquiv.self_equiv (a : MatchState) : StateEquiv a a :=
  ⟨rfl, rfl, rfl, rfl, rfl, fun _ _ => rfl⟩

theorem ResEquiv.self_res (x : MRes) : ResEquiv x x := by
  cases x with
  | ok v => exact ⟨rfl, StateEquiv.self_equiv _⟩
  | error e => exact rfl
  | outOfFuel => exact trivial

theorem ResEquiv.of_ok {r : Option Nat} {m1 : MatchState} {y : MRes}
    (h : ResEquiv (.ok (r, m1)) y) : ∃ m2, y = .ok (r, m2) ∧ StateEquiv m1 m2 := by
  cases y with
  | ok v =>
    obtain ⟨r2, m2⟩ := v
    obtain ⟨rfl, h2⟩ := h
    exact ⟨m2, rfl, h2⟩
  | error e => exact h.elim
  | outOfFuel => exact h.elim

theorem ResEquiv.of_error {e : Err} {y : MRes} (h : ResEquiv (.error e) y) : y = .error e := by
  cases y with
  | ok v => exact h.elim
  | error e2 => exact congrArg _ (Eq.symm h)
  | outOfFuel => exact h.elim

theorem ResEquiv.of_fuel {y : MRes} (h : ResEquiv .outOfFuel y) : y = .outOfFuel := by
  cases y with
  | ok v => exact h.elim
  | error e2 => exact h.elim
  | outOfFuel => rfl

theorem singlematch_congr (a b : MatchState) (hs : a.src = b.src) (hp : a.pat = b.pat)
    (s p ep : Nat) : singlematch a s p ep = singlematch b s p ep := by
  unfold singlematch
  simp only [MatchState.src_end, hs, hp]

theorem matchbalance_congr (a b : MatchState) (hs : a.src = b.src) (hp : a.pat = b.pat)
    (s p : Nat) : matchbalance a s p = matchbalance b s p := by
  unfold matchbalance
  simp only [MatchState.p_end, hs, hp]

theorem max_expand_count_congr (a b : MatchState) (hs : a.src = b.src) (hp : a.pat = b.pat)
    (s p ep : Nat) : ∀ fuel i, max_expand_count a s p ep fuel i = max_expand_count b s p ep fuel i := by
  intro fuel
  induction fuel with
  | zero => intro i; rfl
  | succ fuel ih =>
    intro i
    rw [max_expand_count, max_expand_count, singlematch_congr a b hs hp, ih]

theorem capture_to_close_congr (a b : MatchState) (h : StateEquiv a b) :
    capture_to_close a = capture_to_close b := by
  have : ∀ n, n ≤ a.level → capture_to_close_loop a n = capture_to_close_loop b n := by
    intro n
    induction n with
    | zero => intro _; rfl
    | succ n ih =>
      intro hn
      rw [capture_to_close_loop, capture_to_close_loop, h.caps n (by omega), ih (by omega)]
  unfold capture_to_close
  rw [← h.level]
  exact this _ (le_refl _)

theorem match_capture_congr (a b : MatchState) (h : StateEquiv a b) (s l : Nat) :
    match_capture a s l = match_capture b s l := by
  unfold match_capture check_capture
  simp only [← h.level]
  by_cases h1 : (l : Int) - 49 < 0 ∨ (l : Int) - 49 ≥ (a.level : Int)
  · have ha : ((l : Int) - 49 < 0 ∨ (l : Int) - 49 ≥ (a.level : Int) ∨
        (a.cap ((l : Int) - 49).toNat).len = CAP_UNFINISHED) := by
      rcases h1 with h1 | h1
      · exact Or.inl h1
      · exact Or.inr (Or.inl h1)
    have hb : ((l : Int) - 49 < 0 ∨ (l : Int) - 49 ≥ (a.level : Int) ∨
        (b.cap ((l : Int) - 49).toNat).len = CAP_UNFINISHED) := by
      rcases h1 with h1 | h1
      · exact Or.inl h1
      · exact Or.inr (Or.inl h1)
    rw [if_pos ha, if_pos hb]
  · have hc : a.cap ((l : Int) - 49).toNat = b.cap ((l : Int) - 49).toNat :=
      h.caps _ (by omega)
    simp only [hc, MatchState.src_end, h.src]
    by_cases h2 : (b.cap ((l : Int) - 49).toNat).len = CAP_UNFINISHED
    · rw [if_pos (Or.inr (Or.inr h2))]
    · have hn : ¬ ((l : Int) - 49 < 0 ∨ (l : Int) - 49 ≥ (a.level : Int) ∨
          (b.cap ((l : Int) - 49).toNat).len = CAP_UNFINISHED) := by
        rintro (h3 | h3 | h3)
        · exact h1 (Or.inl h3)
        · exact h1 (Or.inr h3)
        · exact h2 h3
      rw [if_neg hn]
      simp only [hc]


theorem start_capture_respects (m : Matcher) (hm : Respects m) (hf : Framed m)
    (a b : MatchState) (h : StateEquiv a b) (s p : Nat) (what : Int) :
    ResEquiv (start_capture m a s p what) (start_capture m b s p what) := by
  unfold start_capture
  simp only [← h.level]
  by_cases hl : a.level ≥ MAXCAPTURES
  · rw [if_pos hl, if_pos hl]
    exact rfl
  rw [if_neg hl, if_neg hl]
  have he : StateEquiv
      { a with capture := a.capture.set a.level ⟨s, what⟩, level := a.level + 1 }
      { b with capture := b.capture.set a.level ⟨s, what⟩, level := a.level + 1 } := by
    refine ⟨h.src, h.pat, h.depth, rfl, by simp [h.caplen], fun i hi => ?_⟩
    simp only [MatchState.cap, cap_set, h.caplen]
    by_cases hia : a.level = i
    · by_cases hlen : a.level < b.capture.length
      · rw [if_pos ⟨hia, hlen⟩, if_pos ⟨hia, hlen⟩]
      · rw [if_neg (fun hh => hlen hh.2), if_neg (fun hh => hlen hh.2),
          List.getD_eq_default _ _ (by rw [h.caplen]; omega),
          List.getD_eq_default _ _ (by omega)]
    · have := h.caps i (by simp only at hi; omega)
      simp only [MatchState.cap] at this
      rw [if_neg (fun hh => hia hh.1), if_neg (fun hh => hia hh.1), this]
  have hr := hm _ _ s p he
  cases ha : m { a with capture := a.capture.set a.level ⟨s, what⟩, level := a.level + 1 }
      s p with
  | error e =>
    rw [ha] at hr
    rw [hr.of_error]
    exact rfl
  | outOfFuel =>
    rw [ha] at hr
    rw [hr.of_fuel]
    exact trivial
  | ok v =>
    obtain ⟨r2, a2⟩ := v
    rw [ha] at hr
    obtain ⟨b2, hb, he2⟩ := hr.of_ok
    rw [hb]
    have hfa := hf _ _ _ _ _ ha
    cases r2 with
    | some e => exact ⟨rfl, he2⟩
    | none =>
      have hlev := hfa.level rfl
      simp only at hlev
      refine ⟨rfl, he2.src, he2.pat, he2.depth, ?_, he2.caplen, fun i hi => ?_⟩
      · simp only [he2.level]
      · simp only at hi
        exact he2.caps i (by omega)

theorem end_capture_respects (m : Matcher) (hm : Respects m) (hf : Framed m)
    (a b : MatchState) (h : StateEquiv a b) (s p : Nat) :
    ResEquiv (end_capture m a s p) (end_capture m b s p) := by
  unfold end_capture
  rw [← capture_to_close_congr a b h]
  cases hc : capture_to_close a with
  | error e => exact rfl
  | outOfFuel => exact trivial
  | ok l =>
    obtain ⟨hl, _⟩ := capture_to_close_spec a l hc
    simp only
    have hcl : a.cap l = b.cap l := h.caps l hl
    have he : StateEquiv
        { a with capture := a.capture.set l ⟨(a.cap l).init, (s : Int) - (a.cap l).init⟩ }
        { b with capture := b.capture.set l ⟨(b.cap l).init, (s : Int) - (b.cap l).init⟩ } := by
      refine ⟨h.src, h.pat, h.depth, h.level, by simp [h.caplen], fun i hi => ?_⟩
      simp only [MatchState.cap, cap_set, h.caplen]
      have := h.caps i hi
      simp only [MatchState.cap] at this hcl
      simp only [this, hcl]
    have hr := hm _ _ s p he
    cases ha : m { a with
        capture := a.capture.set l ⟨(a.cap l).init, (s : Int) - (a.cap l).init⟩ } s p with
    | error e =>
      rw [ha] at hr
      rw [hr.of_error]
      exact rfl
    | outOfFuel =>
      rw [ha] at hr
      rw [hr.of_fuel]
      exact trivial
    | ok v =>
      obtain ⟨r2, a2⟩ := v
      rw [ha] at hr
      obtain ⟨b2, hb, he2⟩ := hr.of_ok
      rw [hb]
      have hfa := hf _ _ _ _ _ ha
      cases r2 with
      | some e => exact ⟨rfl, he2⟩
      | none =>
        have hlev := hfa.level rfl
        simp only at hlev
        have hcl2 : a2.cap l = b2.cap l := he2.caps l (by omega)
        refine ⟨rfl, he2.src, he2.pat, he2.depth, he2.level, by simp [he2.caplen],
          fun i hi => ?_⟩
        simp only [MatchState.cap, cap_set, he2.caplen]
        have := he2.caps i hi
        simp only [MatchState.cap] at this hcl2
        simp only [this, hcl2]

theorem max_expand_try_respects (m : Matcher) (hm : Respects m) (s ep : Nat) :
    ∀ i a b, StateEquiv a b → ResEquiv (max_expand_try m s ep i a) (max_expand_try m s ep i b) := by
  intro i
  induction i with
  | zero =>
    intro a b h
    rw [max_expand_try, max_expand_try]
    exact hm a b _ _ h
  | succ i ih =>
    intro a b h
    rw [max_expand_try, max_expand_try]
    have hr := hm a b (s + (i + 1)) (ep + 1) h
    cases ha : m a (s + (i + 1)) (ep + 1) with
    | error e =>
      rw [ha] at hr
      rw [hr.of_error]
      exact rfl
    | outOfFuel =>
      rw [ha] at hr
      rw [hr.of_fuel]
      exact trivial
    | ok v =>
      obtain ⟨r2, a2⟩ := v
      rw [ha] at hr
      obtain ⟨b2, hb, he2⟩ := hr.of_ok
      rw [hb]
      cases r2 with
      | some e => exact ⟨rfl, he2⟩
      | none => exact ih a2 b2 he2

theorem max_expand_respects (m : Matcher) (hm : Respects m) (a b : MatchState)
    (h : StateEquiv a b) (s p ep : Nat) :
    ResEquiv (max_expand m a s p ep) (max_expand m b s p ep) := by
  unfold max_expand
  simp only [MatchState.src_end, ← h.src, ← max_expand_count_congr a b h.src h.pat]
  exact max_expand_try_respects m hm s ep _ a b h

theorem min_expand_loop_respects (m : Matcher) (hm : Respects m) (p0 ep : Nat) :
    ∀ fuel a b s, StateEquiv a b →
      ResEquiv (min_expand_loop m p0 ep fuel a s) (min_expand_loop m p0 ep fuel b s) := by
  intro fuel
  induction fuel with
  | zero => intro a b s _; exact trivial
  | succ fuel ih =>
    intro a b s h
    rw [min_expand_loop, min_expand_loop]
    have hr := hm a b s (ep + 1) h
    cases ha : m a s (ep + 1) with
    | error e =>
      rw [ha] at hr
      rw [hr.of_error]
      exact rfl
    | outOfFuel =>
      rw [ha] at hr
      rw [hr.of_fuel]
      exact trivial
    | ok v =>
      obtain ⟨r2, a2⟩ := v
      rw [ha] at hr
      obtain ⟨b2, hb, he2⟩ := hr.of_ok
      rw [hb]
      cases r2 with
      | some e => exact ⟨rfl, he2⟩
      | none =>
        simp only [← singlematch_congr a2 b2 he2.src he2.pat]
        split_ifs
        · exact ih a2 b2 _ he2
        · exact ⟨rfl, he2⟩

theorem min_expand_respects (m : Matcher) (hm : Respects m) (a b : MatchState)
    (h : StateEquiv a b) (s p ep : Nat) :
    ResEquiv (min_expand m a s p ep) (min_expand m b s p ep) := by
  unfold min_expand
  simp only [MatchState.src_end, ← h.src]
  exact min_expand_loop_respects m hm p ep _ a b s h

theorem match_entry_respects (body : Matcher) (hb : Respects body) :
    Respects (match_entry body) := by
  intro a b s p h
  unfold match_entry
  simp only [← h.depth]
  split_ifs
  · exact rfl
  · have he : StateEquiv { a with matchdepth := a.matchdepth - 1 }
        { b with matchdepth := a.matchdepth - 1 } :=
      ⟨h.src, h.pat, rfl, h.level, h.caplen, h.caps⟩
    have hr := hb _ _ s p he
    cases ha : body { a with matchdepth := a.matchdepth - 1 } s p with
    | error e =>
      rw [ha] at hr
      rw [hr.of_error]
      exact rfl
    | outOfFuel =>
      rw [ha] at hr
      rw [hr.of_fuel]
      exact trivial
    | ok v =>
      obtain ⟨r2, a2⟩ := v
      rw [ha] at hr
      obtain ⟨b2, hb2, he2⟩ := hr.of_ok
      rw [hb2]
      exact ⟨rfl, he2.src, he2.pat, by simp only [he2.depth], he2.level, he2.caplen, he2.caps⟩


theorem ResEquiv.ok_self {r : Option Nat} {a b : MatchState} (h : StateEquiv a b) :
    ResEquiv (.ok (r, a)) (.ok (r, b)) := ⟨rfl, h⟩

theorem match_default_respects (goto call : Matcher) (hg : Respects goto) (hc : Respects call)
    (a b : MatchState) (h : StateEquiv a b) (s p : Nat) :
    ResEquiv (match_default goto call a s p) (match_default goto call b s p) := by
  unfold match_default
  rw [← classend_pat a b h.pat]
  cases hce : classend a p with
  | error e => exact rfl
  | outOfFuel => exact trivial
  | ok ep =>
    simp only [← singlematch_congr a b h.src h.pat, ← h.pat]
    by_cases hsm : singlematch a s p ep = true
    · have hsm2 : ¬ ¬ singlematch a s p ep = true := not_not.mpr hsm
      rw [if_neg hsm2, if_neg hsm2]
      by_cases h63 : byteAt a.pat ep = 63
      · rw [if_pos h63, if_pos h63]
        have hr := hc a b (s + 1) (ep + 1) h
        cases ha : call a (s + 1) (ep + 1) with
        | error e =>
          rw [ha] at hr
          rw [hr.of_error]
          exact rfl
        | outOfFuel =>
          rw [ha] at hr
          rw [hr.of_fuel]
          exact trivial
        | ok v =>
          obtain ⟨r2, a2⟩ := v
          rw [ha] at hr
          obtain ⟨b2, hb, he2⟩ := hr.of_ok
          rw [hb]
          cases r2 with
          | some e => exact ⟨rfl, he2⟩
          | none => exact hg a2 b2 _ _ he2
      · rw [if_neg h63, if_neg h63]
        by_cases h43 : byteAt a.pat ep = 43
        · rw [if_pos h43, if_pos h43]
          exact max_expand_respects call hc a b h _ _ _
        · rw [if_neg h43, if_neg h43]
          by_cases h42 : byteAt a.pat ep = 42
          · rw [if_pos h42, if_pos h42]
            exact max_expand_respects call hc a b h _ _ _
          · rw [if_neg h42, if_neg h42]
            by_cases h45 : byteAt a.pat ep = 45
            · rw [if_pos h45, if_pos h45]
              exact min_expand_respects call hc a b h _ _ _
            · rw [if_neg h45, if_neg h45]
              exact hg a b _ _ h
    · rw [if_pos hsm, if_pos hsm]
      split_ifs
      · exact hg a b _ _ h
      · exact ⟨rfl, h⟩

/-- The outcome of the body of `match` does not depend on stale capture
records. -/
theorem match_init_respects : ∀ fuel, Respects (match_init fuel) := by
  intro fuel
  induction fuel with
  | zero => intro a b s p _; exact trivial
  | succ fuel ih =>
    have hcall : Respects (match_entry (match_init fuel)) := match_entry_respects _ ih
    have hcf : Framed (match_entry (match_init fuel)) :=
      match_entry_framed _ (match_init_framed fuel)
    intro a b s p h
    rw [match_init, match_init]
    simp only [MatchState.p_end, ← h.pat, ← h.src, MatchState.src_end,
      ← matchbalance_congr a b h.src h.pat, ← classend_pat a b h.pat,
      ← match_capture_congr a b h]
    by_cases hp : p ≠ a.pat.length
    swap
    · rw [if_neg hp, if_neg hp]
      exact ⟨rfl, h⟩
    rw [if_pos hp, if_pos hp]
    by_cases h40 : byteAt a.pat p = 40
    · rw [if_pos h40, if_pos h40]
      by_cases h41 : byteAt a.pat (p + 1) = 41
      · rw [if_pos h41, if_pos h41]
        exact start_capture_respects _ hcall hcf a b h _ _ _
      · rw [if_neg h41, if_neg h41]
        exact start_capture_respects _ hcall hcf a b h _ _ _
    rw [if_neg h40, if_neg h40]
    by_cases h41 : byteAt a.pat p = 41
    · rw [if_pos h41, if_pos h41]
      exact end_capture_respects _ hcall hcf a b h _ _
    rw [if_neg h41, if_neg h41]
    by_cases h36 : byteAt a.pat p = 36 ∧ p + 1 = a.pat.length
    · rw [if_pos h36, if_pos h36]
      exact ⟨rfl, h⟩
    rw [if_neg h36, if_neg h36]
    by_cases h37 : byteAt a.pat p = ESC
    swap
    · rw [if_neg h37, if_neg h37]
      exact match_default_respects _ _ ih hcall a b h s p
    rw [if_pos h37, if_pos h37]
    by_cases hb : byteAt a.pat (p + 1) = 98
    · rw [if_pos hb, if_pos hb]
      cases hmb : matchbalance a s (p + 2) with
      | error e => exact rfl
      | outOfFuel => exact trivial
      | ok v =>
        cases v with
        | some s1 => exact ih a b _ _ h
        | none => exact ⟨rfl, h⟩
    rw [if_neg hb, if_neg hb]
    by_cases hf : byteAt a.pat (p + 1) = 102
    · rw [if_pos hf, if_pos hf]
      by_cases hbr : byteAt a.pat (p + 2) ≠ 91
      · rw [if_pos hbr, if_pos hbr]
        exact rfl
      rw [if_neg hbr, if_neg hbr]
      cases hce : classend a (p + 2) with
      | error e => exact rfl
      | outOfFuel => exact trivial
      | ok ep =>
        simp only
        split_ifs
        all_goals first | exact ih a b _ _ h | exact ⟨rfl, h⟩
    rw [if_neg hf, if_neg hf]
    by_cases hd : 48 ≤ byteAt a.pat (p + 1) ∧ byteAt a.pat (p + 1) ≤ 57
    · rw [if_pos hd, if_pos hd]
      cases hmc : match_capture a s (byteAt a.pat (p + 1)) with
      | error e => exact rfl
      | outOfFuel => exact trivial
      | ok v =>
        cases v with
        | some s1 => exact ih a b _ _ h
        | none => exact ⟨rfl, h⟩
    rw [if_neg hd, if_neg hd]
    exact match_default_respects _ _ ih hcall a b h s p

theorem do_match_respects (fuel : Nat) : Respects (do_match fuel) :=
  match_entry_respects _ (match_init_respects fuel)

theorem push_onecapture_congr (a b : MatchState) (h : StateEquiv a b) (i s e : Nat) :
    push_onecapture a i s e = push_onecapture b i s e := by
  unfold push_onecapture
  simp only [← h.level, ← h.src]
  by_cases hi : i ≥ a.level
  · rw [if_pos hi, if_pos hi]
  · rw [if_neg hi, if_neg hi, h.caps i (by omega)]

theorem push_captures_congr (a b : MatchState) (h : StateEquiv a b) (s : Option Nat) (e : Nat) :
    push_captures a s e = push_captures b s e := by
  have hloop : ∀ n i, push_captures_loop a (s.getD 0) e n i
      = push_captures_loop b (s.getD 0) e n i := by
    intro n
    induction n with
    | zero => intro i; rfl
    | succ n ih =>
      intro i
      rw [push_captures_loop, push_captures_loop, push_onecapture_congr a b h, ih]
  unfold push_captures
  simp only [← h.level, hloop]

/-! ### C2: the scan loop of `find` -/

theorem scanState_prepstate (s p : Bytes) : ScanState s p (prepstate s p) :=
  ⟨rfl, rfl, rfl, by simp [prepstate, blankCaptures]⟩

/-- Resetting a state between attempts gives one that the matcher cannot tell
from a freshly prepared state. -/
theorem reprepstate_scan (s p : Bytes) (ms : MatchState) (h : ScanState s p ms) :
    ∃ ms0, reprepstate ms = .ok ms0 ∧ StateEquiv ms0 (prepstate s p) := by
  refine ⟨{ ms with level := 0 }, by simp [reprepstate, h.depth], ?_⟩
  exact ⟨h.src, h.pat, h.depth, rfl, by simp [h.caplen, prepstate, blankCaptures],
    fun i hi => by simp only at hi; omega⟩

theorem scanState_of_frame (s p : Bytes) (ms0 ms1 : MatchState) (r : Option Nat)
    (h0 : StateEquiv ms0 (prepstate s p)) (hf : FrameOK ms0 r ms1) : ScanState s p ms1 :=
  ⟨hf.src.trans h0.src, hf.pat.trans h0.pat, hf.depth.trans h0.depth,
    hf.caplen.trans (h0.caplen.trans (by simp [prepstate, blankCaptures]))⟩

/-- One iteration of the scan loop of `find`, in terms of the attempt made
from a fresh state. -/
theorem str_find_loop_step (s p : Bytes) (ms : MatchState) (h : ScanState s p ms)
    (anchor : Bool) (n s1 : Nat) :
    ∃ ms1, ScanState s p ms1 ∧
      str_find_loop true anchor (if byteAt p 0 = 94 then 1 else 0) (n + 1) ms s1 =
        match attempt s p s1 with
        | .ok (some e, msk) => findResult msk s1 e
        | .ok (none, _) =>
          if s1 < s.length ∧ ¬ anchor then
            str_find_loop true anchor (if byteAt p 0 = 94 then 1 else 0) n ms1 (s1 + 1)
          else .ok none
        | .error err => .error err
        | .outOfFuel => .outOfFuel := by
  obtain ⟨ms0, hre, heq⟩ := reprepstate_scan s p ms h
  have hpe : ms0.p_end = p.length := by simp only [MatchState.p_end, heq.pat]; rfl
  have hr := do_match_respects (matchFuel p.length) ms0 (prepstate s p) s1
    (if byteAt p 0 = 94 then 1 else 0) heq
  rw [str_find_loop, hre]
  simp only [hpe]
  unfold attempt
  cases ha : do_match (matchFuel p.length) ms0 s1 (if byteAt p 0 = 94 then 1 else 0) with
  | error e =>
    rw [ha] at hr
    rw [hr.of_error]
    exact ⟨ms, h, rfl⟩
  | outOfFuel =>
    rw [ha] at hr
    rw [hr.of_fuel]
    exact ⟨ms, h, rfl⟩
  | ok v =>
    obtain ⟨r, ms1⟩ := v
    rw [ha] at hr
    obtain ⟨msk, hk, hek⟩ := hr.of_ok
    rw [hk]
    have hf := do_match_framed _ _ _ _ _ _ ha
    have hs1 : ScanState s p ms1 := scanState_of_frame s p ms0 ms1 r heq hf
    refine ⟨ms1, hs1, ?_⟩
    cases r with
    | some e =>
      simp only [findResult, if_true, push_captures_congr ms1 msk hek]
    | none =>
      simp only [MatchState.src_end, hs1.src]


/-- The scan loop of `find` returns the result of the first successful
attempt, and no-match when every attempt fails. -/
theorem str_find_loop_spec (s p : Bytes) (anchor : Bool) (last : Nat) :
    ∀ (n : Nat) (ms : MatchState) (s1 : Nat), ScanState s p ms → s1 ≤ s.length →
      s.length - s1 < n → (anchor = true → last = s1) → (anchor = false → last = s.length) →
      ((∀ k, s1 ≤ k → k ≤ last → ∃ msk, attempt s p k = .ok (none, msk)) →
        str_find_loop true anchor (if byteAt p 0 = 94 then 1 else 0) n ms s1 = .ok none) ∧
      (∀ k e msk, s1 ≤ k → k ≤ last → attempt s p k = .ok (some e, msk) →
        (∀ j, s1 ≤ j → j < k → ∃ m, attempt s p j = .ok (none, m)) →
        str_find_loop true anchor (if byteAt p 0 = 94 then 1 else 0) n ms s1
          = findResult msk k e) := by
  intro n
  induction n with
  | zero => intro ms s1 _ _ h; omega
  | succ n ih =>
    intro ms s1 hms hs1 hn ha1 ha2
    obtain ⟨ms1, hms1, hstep⟩ := str_find_loop_step s p ms hms anchor n s1
    have hlast : s1 ≤ last := by
      cases anchor with
      | true => rw [ha1 rfl]
      | false => rw [ha2 rfl]; exact hs1
    constructor
    · intro hall
      obtain ⟨msk, hk⟩ := hall s1 (le_refl _) hlast
      rw [hstep, hk]
      simp only
      by_cases hc : s1 < s.length ∧ ¬ anchor = true
      · rw [if_pos hc]
        have hanc : anchor = false := by simpa using hc.2
        refine (ih ms1 (s1 + 1) hms1 (by omega) (by omega) (by simp [hanc]) ha2).1 ?_
        intro k hk1 hk2
        exact hall k (by omega) hk2
      · rw [if_neg hc]
    · intro k e msk hk1 hk2 hsucc hbefore
      by_cases hks : k = s1
      · subst hks
        rw [hstep, hsucc]
      · obtain ⟨m, hm⟩ := hbefore s1 (le_refl _) (by omega)
        have hanc : anchor = false := by
          cases anchor with
          | true => have := ha1 rfl; omega
          | false => rfl
        rw [hstep, hm]
        simp only
        have hk3 : k ≤ s.length := by rw [ha2 hanc] at hk2; exact hk2
        have hc : s1 < s.length ∧ ¬ anchor = true := ⟨by omega, by simp [hanc]⟩
        rw [if_pos hc]
        refine (ih ms1 (s1 + 1) hms1 (by omega) (by omega)
          (by simp [hanc]) ha2).2 k e msk (by omega) hk2 hsucc ?_
        intro j hj1 hj2
        exact hbefore j (by omega) hj2

theorem push_captures_loop_cases (ms : MatchState) (s e : Nat) :
    ∀ n i, i + n ≤ ms.level →
      (∃ caps, push_captures_loop ms s e n i = .ok caps) ∨
      (push_captures_loop ms s e n i = .error .unfinishedCapture ∧
        ∃ j, j < ms.level ∧ (ms.cap j).len = CAP_UNFINISHED) := by
  intro n
  induction n with
  | zero => intro i _; exact Or.inl ⟨[], rfl⟩
  | succ n ih =>
    intro i hi
    rw [push_captures_loop]
    unfold push_onecapture
    rw [if_neg (by omega)]
    simp only
    by_cases hu : (ms.cap i).len = CAP_UNFINISHED
    · rw [if_pos hu]
      exact Or.inr ⟨rfl, i, by omega, hu⟩
    · rw [if_neg hu]
      rcases ih (i + 1) (by omega) with ⟨caps, hc⟩ | ⟨hc, hj⟩
      · left
        split_ifs <;> simp [hc]
      · right
        refine ⟨?_, hj⟩
        split_ifs <;> simp [hc]

/-- Materializing the captures for `find` either succeeds or raises
"unfinished capture", the latter when a capture is still open. -/
theorem push_captures_find_cases (ms : MatchState) :
    (∃ caps, push_captures ms none 0 = .ok caps) ∨
    (push_captures ms none 0 = .error .unfinishedCapture ∧
      ∃ j, j < ms.level ∧ (ms.cap j).len = CAP_UNFINISHED) := by
  unfold push_captures
  simp only [Option.isSome_none, Bool.false_eq_true, and_false, if_false]
  exact push_captures_loop_cases ms _ 0 ms.level 0 (by omega)

theorem attempt_total (s p : Bytes) (k : Nat) : attempt s p k ≠ .outOfFuel := by
  unfold attempt
  have h := do_match_ne_outOfFuel (prepstate s p) k (if byteAt p 0 = 94 then 1 else 0) (by
    split_ifs with h
    · have : 0 < p.length := lt_length_of_byteAt_ne_zero (by omega)
      exact this
    · exact Nat.zero_le _)
  exact h


theorem findResult_ne_nomatch (ms : MatchState) (k e : Nat) : findResult ms k e ≠ .ok none := by
  unfold findResult
  cases push_captures ms none 0 <;> simp

/-- C2, as stated, fails: on the subject "a" and the pattern "(a" no attempt
of the matcher raises an error and the attempt at position 1 succeeds, yet
`find` returns no start and end: it raises "unfinished capture". -/
theorem find_unfinished_capture_raises :
    nospecials (bytesOf "(a") (bytesOf "(a").length = false ∧
    (attempt (bytesOf "a") (bytesOf "(a") 0).isError = false ∧
    (attempt (bytesOf "a") (bytesOf "(a") 1).isError = false ∧
    (∃ ms, attempt (bytesOf "a") (bytesOf "(a") 0 = .ok (some 1, ms)) ∧
    str_find (bytesOf "a") (bytesOf "(a") 1 false = .error .unfinishedCapture := by
  refine ⟨by decide, by decide, by decide, ⟨_, rfl⟩, by decide⟩

/-- The scan loop of `find` passes on the error of the first attempt that
does not fail. -/
theorem str_find_loop_error (s p : Bytes) (anchor : Bool) (last : Nat) :
    ∀ (n : Nat) (ms : MatchState) (s1 : Nat), ScanState s p ms → s1 ≤ s.length →
      s.length - s1 < n → (anchor = true → last = s1) → (anchor = false → last = s.length) →
      ∀ k err, s1 ≤ k → k ≤ last → attempt s p k = .error err →
        (∀ j, s1 ≤ j → j < k → ∃ m, attempt s p j = .ok (none, m)) →
        str_find_loop true anchor (if byteAt p 0 = 94 then 1 else 0) n ms s1 = .error err := by
  intro n
  induction n with
  | zero => intro ms s1 _ _ h; omega
  | succ n ih =>
    intro ms s1 hms hs1 hn ha1 ha2 k err hk1 hk2 herr hbefore
    obtain ⟨ms1, hms1, hstep⟩ := str_find_loop_step s p ms hms anchor n s1
    by_cases hks : k = s1
    · subst hks
      rw [hstep, herr]
    · obtain ⟨m, hm⟩ := hbefore s1 (le_refl _) (by omega)
      have hanc : anchor = false := by
        cases anchor with
        | true => have := ha1 rfl; omega
        | false => rfl
      rw [hstep, hm]
      simp only
      have hk3 : k ≤ s.length := by rw [ha2 hanc] at hk2; exact hk2
      have hc : s1 < s.length ∧ ¬ anchor = true := ⟨by omega, by simp [hanc]⟩
      rw [if_pos hc]
      refine ih ms1 (s1 + 1) hms1 (by omega) (by omega)
        (by simp [hanc]) ha2 k err (by omega) hk2 herr ?_
      intro j hj1 hj2
      exact hbefore j (by omega) hj2


/-- C2, amended: for `1 ≤ init ≤ len(s) + 1` and a pattern taking the matcher
path, `find` tries the 0-based starts `init - 1, init, ..., len(s)` in that
order (only `init - 1` for an anchored pattern) and stops at the first attempt
that does not fail.  No-match is returned exactly when the matcher fails at
every tried position.  When the matcher fails at every tried position before
`k` and succeeds at `k` with end `e`, `find` returns the start `k + 1` and the
end `e` followed by the captures, unless that attempt left a capture
unfinished, in which case `find` raises "unfinished capture".  When the
matcher fails at every tried position before `k` and raises an error at `k`,
`find` raises that error. -/
theorem find_returns_first_success (s p : Bytes) (init : Nat) (h1 : 1 ≤ init)
    (h2 : init ≤ s.length + 1) (hpath : nospecials p p.length = false) :
    (str_find s p init false = .ok none ↔
      ∀ k, init - 1 ≤ k → k ≤ lastStart s p init → ∃ ms, attempt s p k = .ok (none, ms)) ∧
    (∀ k e ms, init - 1 ≤ k → k ≤ lastStart s p init → attempt s p k = .ok (some e, ms) →
      (∀ j, init - 1 ≤ j → j < k → ∃ ms1, attempt s p j = .ok (none, ms1)) →
      (∃ caps, push_captures ms none 0 = .ok caps ∧
        str_find s p init false
          = .ok (some (.int ((k : Int) + 1) :: .int (e : Int) :: caps))) ∨
      ((∃ i, i < ms.level ∧ (ms.cap i).len = CAP_UNFINISHED) ∧
        str_find s p init false = .error .unfinishedCapture)) ∧
    (∀ k err, init - 1 ≤ k → k ≤ lastStart s p init → attempt s p k = .error err →
      (∀ j, init - 1 ≤ j → j < k → ∃ ms1, attempt s p j = .ok (none, ms1)) →
      str_find s p init false = .error err) := by
  have hfind : str_find s p init false =
      str_find_loop true (decide (byteAt p 0 = 94)) (if byteAt p 0 = 94 then 1 else 0)
        (s.length - (init - 1) + 1) (prepstate s p) (init - 1) := by
    rw [str_find, str_find_aux_eq true s p init false h1 h2, if_neg (by simp [hpath])]
  have hanc1 : decide (byteAt p 0 = 94) = true → lastStart s p init = init - 1 := by
    intro h; simp only [decide_eq_true_eq] at h; simp [lastStart, h]
  have hanc2 : decide (byteAt p 0 = 94) = false → lastStart s p init = s.length := by
    intro h; simp only [decide_eq_false_iff_not] at h; simp [lastStart, h]
  have hspec := str_find_loop_spec s p (decide (byteAt p 0 = 94)) (lastStart s p init)
    (s.length - (init - 1) + 1) (prepstate s p) (init - 1) (scanState_prepstate s p)
    (by omega) (by omega) hanc1 hanc2
  have herr := str_find_loop_error s p (decide (byteAt p 0 = 94)) (lastStart s p init)
    (s.length - (init - 1) + 1) (prepstate s p) (init - 1) (scanState_prepstate s p)
    (by omega) (by omega) hanc1 hanc2
  rw [← hfind] at hspec herr
  obtain ⟨hA, hB⟩ := hspec
  refine ⟨⟨fun hnone => ?_, hA⟩, ?_, herr⟩
  · intro k
    induction k using Nat.strong_induction_on with
    | _ k ih =>
      intro hk1 hk2
      cases ha : attempt s p k with
      | error e =>
        have hE := herr k e hk1 hk2 ha (fun j hj1 hj2 => ih j hj2 hj1 (by omega))
        rw [hnone] at hE
        cases hE
      | outOfFuel => exact absurd ha (attempt_total s p k)
      | ok v =>
        obtain ⟨r, ms⟩ := v
        cases r with
        | none => exact ⟨ms, rfl⟩
        | some e =>
          have hB2 := hB k e ms hk1 hk2 ha (fun j hj1 hj2 => ih j hj2 hj1 (by omega))
          rw [hnone] at hB2
          exact absurd hB2.symm (findResult_ne_nomatch ms k e)
  · intro k e ms hk1 hk2 ha hbefore
    have hB2 := hB k e ms hk1 hk2 ha hbefore
    rcases push_captures_find_cases ms with ⟨caps, hc⟩ | ⟨hc, hj⟩
    · left
      refine ⟨caps, hc, ?_⟩
      rw [hB2, findResult, hc]
    · right
      refine ⟨hj, ?_⟩
      rw [hB2, findResult, hc]

theorem find_returns_first_success_witness :
    (1 ≤ 1 ∧ 1 ≤ (bytesOf "xab").length + 1 ∧
      nospecials (bytesOf "a.") (bytesOf "a.").length = false) ∧
    ((str_find (bytesOf "xab") (bytesOf "a.") (1 : Nat) false = .ok none ↔
      ∀ k, 1 - 1 ≤ k → k ≤ lastStart (bytesOf "xab") (bytesOf "a.") 1 →
        ∃ ms, attempt (bytesOf "xab") (bytesOf "a.") k = .ok (none, ms)) ∧
    (∀ k e ms, 1 - 1 ≤ k → k ≤ lastStart (bytesOf "xab") (bytesOf "a.") 1 →
      attempt (bytesOf "xab") (bytesOf "a.") k = .ok (some e, ms) →
      (∀ j, 1 - 1 ≤ j → j < k → ∃ ms1, attempt (bytesOf "xab") (bytesOf "a.") j = .ok (none, ms1)) →
      (∃ caps, push_captures ms none 0 = .ok caps ∧
        str_find (bytesOf "xab") (bytesOf "a.") (1 : Nat) false
          = .ok (some (.int ((k : Int) + 1) :: .int (e : Int) :: caps))) ∨
      ((∃ i, i < ms.level ∧ (ms.cap i).len = CAP_UNFINISHED) ∧
        str_find (bytesOf "xab") (bytesOf "a.") (1 : Nat) false = .error .unfinishedCapture)) ∧
    (∀ k err, 1 - 1 ≤ k → k ≤ lastStart (bytesOf "xab") (bytesOf "a.") 1 →
      attempt (bytesOf "xab") (bytesOf "a.") k = .error err →
      (∀ j, 1 - 1 ≤ j → j < k → ∃ ms1, attempt (bytesOf "xab") (bytesOf "a.") j = .ok (none, ms1)) →
      str_find (bytesOf "xab") (bytesOf "a.") (1 : Nat) false = .error err)) :=
  ⟨⟨by decide, by decide, by decide⟩,
    find_returns_first_success (bytesOf "xab") (bytesOf "a.") 1 (by decide) (by decide)
      (by decide)⟩

/-! ### The fuel of the bounded inner loops is enough -/

/-- The loop of `matchbracketclass` gives the same answer for every fuel of
at least `ec - p`: the fuel it is started with never cuts it short. -/
theorem matchbracketclass_loop_fuel (pat : Bytes) (c : Nat) (sig : Bool) (ec : Nat) :
    ∀ f1 f2 p, ec - p ≤ f1 → ec - p ≤ f2 →
      matchbracketclass_loop pat c sig ec f1 p = matchbracketclass_loop pat c sig ec f2 p := by
  intro f1
  induction f1 with
  | zero =>
    intro f2 p h1 _
    cases f2 with
    | zero => rfl
    | succ f2 =>
      rw [matchbracketclass_loop, matchbracketclass_loop]
      simp only
      rw [if_neg (by omega)]
  | succ f1 ih =>
    intro f2 p h1 h2
    cases f2 with
    | zero =>
      rw [matchbracketclass_loop, matchbracketclass_loop]
      simp only
      rw [if_neg (by omega)]
    | succ f2 =>
      rw [matchbracketclass_loop, matchbracketclass_loop]
      simp only
      rw [ih f2 (p + 1 + 1) (by omega) (by omega), ih f2 (p + 1 + 2) (by omega) (by omega),
        ih f2 (p + 1) (by omega) (by omega)]

/-- The loop of `nospecials`, entered with `upto ≤ l`, gives the same answer
for every fuel of at least `l + 1 - upto`. -/
theorem nospecials_loop_fuel (p : Bytes) (l : Nat) :
    ∀ f1 f2 upto, upto ≤ l → l + 1 - upto ≤ f1 → l + 1 - upto ≤ f2 →
      nospecials_loop p l f1 upto = nospecials_loop p l f2 upto := by
  intro f1
  induction f1 with
  | zero => intro f2 upto h0 h1 _; omega
  | succ f1 ih =>
    intro f2 upto h0 h1 h2
    cases f2 with
    | zero => omega
    | succ f2 =>
      rw [nospecials_loop, nospecials_loop]
      simp only
      by_cases hle : upto + (cstring p upto).length + 1 ≤ l
      · rw [if_pos hle, if_pos hle,
          ih f2 (upto + (cstring p upto).length + 1) hle (by omega) (by omega)]
      · rw [if_neg hle, if_neg hle]

/-! ### C15 and C16: the capture stack and the budget after a call -/

theorem classend_ne_assert (ms : MatchState) (p : Nat) :
    classend ms p ≠ .error .assertionFailed := by
  have hloop : ∀ fuel p, classend_loop ms fuel p ≠ .error .assertionFailed := by
    intro fuel
    induction fuel with
    | zero => intro p; simp [classend_loop]
    | succ fuel ih =>
      intro p
      rw [classend_loop]
      simp only
      split_ifs
      · simp
      · exact ih _
      · simp
      · exact ih _
      · simp
  unfold classend
  simp only
  split_ifs
  all_goals first | exact hloop _ _ | simp

theorem capture_to_close_ne_assert (ms : MatchState) :
    capture_to_close ms ≠ .error .assertionFailed := by
  have : ∀ n, capture_to_close_loop ms n ≠ .error .assertionFailed := by
    intro n
    induction n with
    | zero => simp [capture_to_close_loop]
    | succ n ih =>
      rw [capture_to_close_loop]
      split_ifs
      · simp
      · exact ih
  exact this _

theorem matchbalance_ne_assert (ms : MatchState) (s p : Nat) :
    matchbalance ms s p ≠ .error .assertionFailed := by
  unfold matchbalance
  split_ifs <;> simp

theorem match_capture_ne_assert (ms : MatchState) (s l : Nat) :
    match_capture ms s l ≠ .error .assertionFailed := by
  unfold match_capture check_capture
  simp only
  split_ifs
  · simp
  · simp only
    split_ifs <;> simp

theorem start_capture_ne_assert (m : Matcher) (hm : NoAssert m) (ms : MatchState) (s p : Nat)
    (what : Int) : start_capture m ms s p what ≠ .error .assertionFailed := by
  unfold start_capture
  simp only
  split_ifs
  · simp
  · have := hm { ms with capture := ms.capture.set ms.level ⟨s, what⟩, level := ms.level + 1 }
      s p
    split <;> simp_all

theorem end_capture_ne_assert (m : Matcher) (hm : NoAssert m) (ms : MatchState) (s p : Nat) :
    end_capture m ms s p ≠ .error .assertionFailed := by
  unfold end_capture
  cases hc : capture_to_close ms with
  | error e =>
    simp only
    intro h
    simp only [Res.error.injEq] at h
    subst h
    exact capture_to_close_ne_assert ms hc
  | outOfFuel => simp
  | ok l =>
    simp only
    have := hm { ms with
      capture := ms.capture.set l ⟨(ms.cap l).init, (s : Int) - (ms.cap l).init⟩ } s p
    split <;> simp_all

theorem max_expand_try_ne_assert (m : Matcher) (hm : NoAssert m) (s ep : Nat) :
    ∀ i ms, max_expand_try m s ep i ms ≠ .error .assertionFailed := by
  intro i
  induction i with
  | zero => intro ms; rw [max_expand_try]; exact hm _ _ _
  | succ i ih =>
    intro ms
    rw [max_expand_try]
    have := hm ms (s + (i + 1)) (ep + 1)
    split
    · simp
    · exact ih _
    · simp_all
    · simp

theorem min_expand_loop_ne_assert (m : Matcher) (hm : NoAssert m) (p0 ep : Nat) :
    ∀ fuel ms s, min_expand_loop m p0 ep fuel ms s ≠ .error .assertionFailed := by
  intro fuel
  induction fuel with
  | zero => intro ms s; simp [min_expand_loop]
  | succ fuel ih =>
    intro ms s
    rw [min_expand_loop]
    have := hm ms s (ep + 1)
    split
    · simp
    · split_ifs
      · exact ih _ _
      · simp
    · simp_all
    · simp

theorem match_entry_ne_assert (body : Matcher) (hb : NoAssert body) :
    NoAssert (match_entry body) := by
  intro ms s p
  unfold match_entry
  split_ifs
  · simp
  · have := hb { ms with matchdepth := ms.matchdepth - 1 } s p
    split <;> simp_all

theorem match_default_ne_assert (goto call : Matcher) (hg : NoAssert goto) (hc : NoAssert call)
    (ms : MatchState) (s p : Nat) :
    match_default goto call ms s p ≠ .error .assertionFailed := by
  unfold match_default
  cases hce : classend ms p with
  | error e =>
    simp only
    intro h
    simp only [Res.error.injEq] at h
    subst h
    exact classend_ne_assert ms p hce
  | outOfFuel => simp
  | ok ep =>
    simp only
    by_cases hsm : singlematch ms s p ep = true
    · have hsm2 : ¬ ¬ singlematch ms s p ep = true := not_not.mpr hsm
      rw [if_neg hsm2]
      by_cases h63 : byteAt ms.pat ep = 63
      · rw [if_pos h63]
        have := hc ms (s + 1) (ep + 1)
        split
        · simp
        · exact hg _ _ _
        · simp_all
        · simp
      · rw [if_neg h63]
        by_cases h43 : byteAt ms.pat ep = 43
        · rw [if_pos h43]
          exact max_expand_try_ne_assert call hc _ _ _ _
        · rw [if_neg h43]
          by_cases h42 : byteAt ms.pat ep = 42
          · rw [if_pos h42]
            exact max_expand_try_ne_assert call hc _ _ _ _
          · rw [if_neg h42]
            by_cases h45 : byteAt ms.pat ep = 45
            · rw [if_pos h45]
              exact min_expand_loop_ne_assert call hc _ _ _ _ _
            · rw [if_neg h45]
              exact hg _ _ _
    · rw [if_pos hsm]
      split_ifs
      · exact hg _ _ _
      · simp

/-- The matcher never fails the assertion of `reprepstate`. -/
theorem match_init_ne_assert : ∀ fuel, NoAssert (match_init fuel) := by
  intro fuel
  induction fuel with
  | zero => intro ms s p; simp [match_init]
  | succ fuel ih =>
    have hcall : NoAssert (match_entry (match_init fuel)) := match_entry_ne_assert _ ih
    intro ms s p
    rw [match_init]
    simp only
    by_cases hp : p ≠ ms.p_end
    swap
    · rw [if_neg hp]
      simp
    rw [if_pos hp]
    by_cases h40 : byteAt ms.pat p = 40
    · rw [if_pos h40]
      split_ifs
      · exact start_capture_ne_assert _ hcall _ _ _ _
      · exact start_capture_ne_assert _ hcall _ _ _ _
    rw [if_neg h40]
    by_cases h41 : byteAt ms.pat p = 41
    · rw [if_pos h41]
      exact end_capture_ne_assert _ hcall _ _ _
    rw [if_neg h41]
    by_cases h36 : byteAt ms.pat p = 36 ∧ p + 1 = ms.p_end
    · rw [if_pos h36]
      simp
    rw [if_neg h36]
    by_cases h37 : byteAt ms.pat p = ESC
    swap
    · rw [if_neg h37]
      exact match_default_ne_assert _ _ ih hcall _ _ _
    rw [if_pos h37]
    by_cases hb : byteAt ms.pat (p + 1) = 98
    · rw [if_pos hb]
      have := matchbalance_ne_assert ms s (p + 2)
      split
      · exact ih _ _ _
      · simp
      · simp_all
      · simp
    rw [if_neg hb]
    by_cases hf : byteAt ms.pat (p + 1) = 102
    · rw [if_pos hf]
      by_cases hbr : byteAt ms.pat (p + 2) ≠ 91
      · rw [if_pos hbr]
        simp
      rw [if_neg hbr]
      have := classend_ne_assert ms (p + 2)
      split
      · split_ifs
        all_goals first | exact ih _ _ _ | simp
      · simp_all
      · simp
    rw [if_neg hf]
    by_cases hd : 48 ≤ byteAt ms.pat (p + 1) ∧ byteAt ms.pat (p + 1) ≤ 57
    · rw [if_pos hd]
      have := match_capture_ne_assert ms s (byteAt ms.pat (p + 1))
      split
      · exact ih _ _ _
      · simp
      · simp_all
      · simp
    rw [if_neg hd]
    exact match_default_ne_assert _ _ ih hcall _ _ _

theorem do_match_ne_assert (fuel : Nat) : NoAssert (do_match fuel) :=
  match_entry_ne_assert _ (match_init_ne_assert fuel)

theorem push_onecapture_ne_assert (ms : MatchState) (i s e : Nat) :
    push_onecapture ms i s e ≠ .error .assertionFailed := by
  unfold push_onecapture
  simp only
  split_ifs <;> simp

theorem push_captures_ne_assert (ms : MatchState) (s : Option Nat) (e : Nat) :
    push_captures ms s e ≠ .error .assertionFailed := by
  have hloop : ∀ n i, push_captures_loop ms (s.getD 0) e n i ≠ .error .assertionFailed := by
    intro n
    induction n with
    | zero => intro i; simp [push_captures_loop]
    | succ n ih =>
      intro i
      rw [push_captures_loop]
      have h1 := push_onecapture_ne_assert ms i (s.getD 0) e
      have h2 := ih (i + 1)
      split
      · split <;> simp_all
      · simp_all
      · simp
  exact hloop _ _

theorem add_s_ne_assert (ms : MatchState) (s e : Nat) :
    ∀ (n : Nat) (news b : Bytes), news.length ≤ n →
      add_s ms s e news b ≠ .error .assertionFailed := by
  intro n
  induction n with
  | zero =>
    intro news b h
    have : news = [] := List.length_eq_zero.mp (by omega)
    subst this
    simp [add_s]
  | succ n ih =>
    intro news b h
    match news with
    | [] => simp [add_s]
    | [c] =>
      rw [add_s]
      split_ifs <;> simp
    | c :: d :: rest =>
      rw [add_s]
      simp only [List.length_cons] at h
      have h1 := push_onecapture_ne_assert ms (d - 49) s e
      have hrec : ∀ b2, add_s ms s e rest b2 ≠ .error .assertionFailed :=
        fun b2 => ih rest b2 (by omega)
      have hrec2 : ∀ b2, add_s ms s e (d :: rest) b2 ≠ .error .assertionFailed :=
        fun b2 => ih (d :: rest) b2 (by simp only [List.length_cons]; omega)
      split_ifs
      all_goals first
        | exact hrec _
        | exact hrec2 _
        | (simp; done)
        | (split
           · exact hrec _
           · simp_all
           · simp)

theorem add_value_ne_assert (ms : MatchState) (b : Bytes) (s e : Nat) (repl : Repl) :
    add_value ms b s e repl ≠ .error .assertionFailed := by
  have hres : ∀ v, add_result ms b s e v ≠ .error .assertionFailed := by
    intro v
    cases v <;> simp [add_result]
  cases repl with
  | template news => exact add_s_ne_assert ms s e _ news b (le_refl _)
  | table get =>
    rw [add_value]
    have := push_onecapture_ne_assert ms 0 s e
    split
    · exact hres _
    · simp_all
    · simp
  | function call =>
    rw [add_value]
    have := push_captures_ne_assert ms (some s) e
    split
    · exact hres _
    · simp_all
    · simp
  | other => simp [add_value]

/-- The scan loop of `find` and `match` never fails the assertion when it is
entered with the full budget. -/
theorem str_find_loop_ne_assert (find anchor : Bool) (p : Nat) :
    ∀ n ms s1, ms.matchdepth = MAXCCALLS →
      str_find_loop find anchor p n ms s1 ≠ .error .assertionFailed := by
  intro n
  induction n with
  | zero => intro ms s1 _; simp [str_find_loop]
  | succ n ih =>
    intro ms s1 hd
    rw [str_find_loop]
    have hre : reprepstate ms = .ok { ms with level := 0 } := by simp [reprepstate, hd]
    rw [hre]
    simp only
    generalize hms0 : ({ ms with level := 0 } : MatchState) = ms0
    have hd0 : ms0.matchdepth = MAXCCALLS := by rw [← hms0]; exact hd
    cases hm : do_match (matchFuel ms0.p_end) ms0 s1 p with
    | error e =>
      simp only
      intro h
      simp only [Res.error.injEq] at h
      subst h
      exact do_match_ne_assert _ _ _ _ hm
    | outOfFuel => simp
    | ok v =>
      obtain ⟨r, ms1⟩ := v
      have hf := do_match_framed _ _ _ _ _ _ hm
      cases r with
      | some res =>
        simp only
        have h1 := push_captures_ne_assert ms1 none 0
        have h2 := push_captures_ne_assert ms1 (some s1) res
        split_ifs
        · split <;> simp_all
        · split <;> simp_all
      | none =>
        simp only
        split_ifs
        · exact ih ms1 _ (by rw [hf.depth]; exact hd0)
        · simp

theorem gmatch_aux_loop_spec_budget :
    ∀ n gm src, gm.ms.matchdepth = MAXCCALLS →
      gmatch_aux_loop n gm src ≠ .error .assertionFailed ∧
      ∀ r gm1, gmatch_aux_loop n gm src = .ok (r, gm1) → gm1.ms.matchdepth = MAXCCALLS := by
  intro n
  induction n with
  | zero => intro gm src _; simp [gmatch_aux_loop]
  | succ n ih =>
    intro gm src hd
    rw [gmatch_aux_loop]
    split_ifs with hsrc
    swap
    · refine ⟨by simp, fun r gm1 h => ?_⟩
      simp only [Res.ok.injEq, Prod.mk.injEq] at h
      rw [← h.2]
      exact hd
    have hre : reprepstate gm.ms = .ok { gm.ms with level := 0 } := by simp [reprepstate, hd]
    rw [hre]
    simp only
    generalize hms0 : ({ gm.ms with level := 0 } : MatchState) = ms0
    have hd0 : ms0.matchdepth = MAXCCALLS := by rw [← hms0]; exact hd
    cases hm : do_match (matchFuel ms0.p_end) ms0 src gm.p with
    | error e =>
      simp only
      refine ⟨?_, by simp⟩
      intro h
      simp only [Res.error.injEq] at h
      subst h
      exact do_match_ne_assert _ _ _ _ hm
    | outOfFuel => simp
    | ok v =>
      obtain ⟨r, ms1⟩ := v
      have hf := do_match_framed _ _ _ _ _ _ hm
      have hd1 : ms1.matchdepth = MAXCCALLS := by rw [hf.depth]; exact hd0
      cases r with
      | none =>
        simp only
        exact ih { gm with ms := ms1 } (src + 1) hd1
      | some e =>
        simp only
        split_ifs
        · have h1 := push_captures_ne_assert ms1 (some src) e
          cases hp : push_captures ms1 (some src) e with
          | error err =>
            simp only
            refine ⟨?_, by simp⟩
            intro h
            simp only [Res.error.injEq] at h
            subst h
            exact h1 hp
          | outOfFuel => simp
          | ok caps =>
            simp only
            refine ⟨by simp, fun r gm1 h => ?_⟩
            simp only [Res.ok.injEq, Prod.mk.injEq] at h
            rw [← h.2]
            exact hd1
        · exact ih { gm with ms := ms1 } (src + 1) hd1

theorem gsub_loop_ne_assert (repl : Repl) (anchor : Bool) (p : Nat) (max_s : Int) :
    ∀ k ms src lastmatch n b, ms.matchdepth = MAXCCALLS →
      gsub_loop repl anchor p max_s k ms src lastmatch n b ≠ .error .assertionFailed := by
  intro k
  induction k with
  | zero => intro ms src lm n b _; simp [gsub_loop]
  | succ k ih =>
    intro ms src lm n b hd
    rw [gsub_loop]
    by_cases hn : n < max_s
    swap
    · rw [if_neg hn]
      simp [gsub_finish]
    have hre : reprepstate ms = .ok { ms with level := 0 } := by simp [reprepstate, hd]
    rw [if_pos hn, hre]
    simp only
    generalize hms0 : ({ ms with level := 0 } : MatchState) = ms0
    have hd0 : ms0.matchdepth = MAXCCALLS := by rw [← hms0]; exact hd
    cases hm : do_match (matchFuel ms0.p_end) ms0 src p with
    | error e =>
      simp only
      intro h
      simp only [Res.error.injEq] at h
      subst h
      exact do_match_ne_assert _ _ _ _ hm
    | outOfFuel => simp
    | ok v =>
      obtain ⟨r, ms1⟩ := v
      have hf := do_match_framed _ _ _ _ _ _ hm
      have hd1 : ms1.matchdepth = MAXCCALLS := by rw [hf.depth]; exact hd0
      simp only
      by_cases hc : r.isSome = true ∧ r ≠ lm
      · rw [if_pos hc]
        cases ha : add_value ms1 b src (r.getD 0) repl with
        | error err =>
          simp only
          intro h
          simp only [Res.error.injEq] at h
          subst h
          exact add_value_ne_assert _ _ _ _ _ ha
        | outOfFuel => simp
        | ok b1 =>
          simp only
          split_ifs
          · simp [gsub_finish]
          · exact ih _ _ _ _ _ hd1
      · rw [if_neg hc]
        split_ifs
        all_goals first | exact ih _ _ _ _ _ hd1 | simp [gsub_finish]

/-- C15: backtracking restores the capture stack.  For every call of the
matcher (`match`, at any recursion budget, subject position and pattern
position, in any state) that returns failure without raising an error, the
capture count `level` is what it was when the call began, and so is every
capture record below that count (its start offset and its
open/position/closed-length field). -/
theorem backtracking_restores_capture_stack (fuel : Nat) (ms : MatchState) (s p : Nat)
    (ms1 : MatchState) (h : do_match fuel ms s p = .ok (none, ms1)) :
    ms1.level = ms.level ∧
      ∀ i, i < ms.level → (ms1.cap i).init = (ms.cap i).init ∧ (ms1.cap i).len = (ms.cap i).len := by
  have hf := do_match_framed fuel ms s p none ms1 h
  refine ⟨hf.level rfl, fun i hi => ?_⟩
  rw [hf.caps rfl i hi]
  exact ⟨rfl, rfl⟩

/-- A failing call on the second group of "(a)(c)b" at offset 1 of "ac", entered
with one closed capture: the count is 1 again and record 0 is untouched, while
the record above the count keeps what the failed attempt wrote. -/
theorem backtracking_restores_capture_stack_witness :
    do_match 7 ⟨[97, 99], [40, 97, 41, 40, 99, 41, 98], 5, 1, [⟨0, 1⟩, ⟨7, 7⟩]⟩ 1 3 =
        .ok (none, ⟨[97, 99], [40, 97, 41, 40, 99, 41, 98], 5, 1, [⟨0, 1⟩, ⟨1, -1⟩]⟩) ∧
      ((1 : Nat) = 1 ∧ ∀ i, i < 1 →
        (MatchState.cap ⟨[97, 99], [40, 97, 41, 40, 99, 41, 98], 5, 1, [⟨0, 1⟩, ⟨1, -1⟩]⟩ i).init =
            (MatchState.cap ⟨[97, 99], [40, 97, 41, 40, 99, 41, 98], 5, 1, [⟨0, 1⟩, ⟨7, 7⟩]⟩ i).init ∧
          (MatchState.cap ⟨[97, 99], [40, 97, 41, 40, 99, 41, 98], 5, 1, [⟨0, 1⟩, ⟨1, -1⟩]⟩ i).len =
            (MatchState.cap ⟨[97, 99], [40, 97, 41, 40, 99, 41, 98], 5, 1, [⟨0, 1⟩, ⟨7, 7⟩]⟩ i).len) :=
  ⟨by decide, backtracking_restores_capture_stack 7
    ⟨[97, 99], [40, 97, 41, 40, 99, 41, 98], 5, 1, [⟨0, 1⟩, ⟨7, 7⟩]⟩ 1 3
    ⟨[97, 99], [40, 97, 41, 40, 99, 41, 98], 5, 1, [⟨0, 1⟩, ⟨1, -1⟩]⟩ (by decide)⟩

/-- The recursion budget on normal returns.  Every call of the matcher that
returns normally (a match or a non-match) leaves the budget at its value on
entry.  Hence the assertion of `reprepstate` (the budget equals `MAXCCALLS`,
200, at a reset of the capture stack) never fails in `find`, `match` or `gsub`,
whose state lives for one call, nor in a step of the `gmatch` generator that is
entered with the full budget; such a step, when it returns, leaves the full
budget.  The failed assertion is the error `assertionFailed`, which
`reprepstate` alone produces.  What a step that raises leaves in the closure is
the subject of `gmatch_aux_kept`. -/
theorem recursion_budget_balanced :
    (∀ fuel ms s p r ms1, do_match fuel ms s p = .ok (r, ms1) → ms1.matchdepth = ms.matchdepth) ∧
    (∀ ms, ms.matchdepth = MAXCCALLS → reprepstate ms = .ok { ms with level := 0 }) ∧
    (∀ find s p init plain, str_find_aux find s p init plain ≠ .error .assertionFailed) ∧
    (∀ s p, (gmatch s p).ms.matchdepth = MAXCCALLS) ∧
    (∀ gm, gm.ms.matchdepth = MAXCCALLS →
      gmatch_aux gm ≠ .error .assertionFailed ∧
      ∀ r gm1, gmatch_aux gm = .ok (r, gm1) → gm1.ms.matchdepth = MAXCCALLS) ∧
    (∀ src p repl max_s, str_gsub src p repl max_s ≠ .error .assertionFailed) := by
  refine ⟨fun fuel ms s p r ms1 h => (do_match_framed fuel ms s p r ms1 h).depth, ?_, ?_, ?_, ?_, ?_⟩
  · intro ms hd
    simp [reprepstate, hd]
  · intro find s p init plain
    unfold str_find_aux
    simp only
    split_ifs
    all_goals first
      | exact str_find_loop_ne_assert _ _ _ _ _ _ rfl
      | (split <;> simp)
      | simp
  · intro s p
    rfl
  · intro gm hd
    exact gmatch_aux_loop_spec_budget _ gm gm.src hd
  · intro src p repl max_s
    unfold str_gsub
    cases repl with
    | other => simp
    | template news => exact gsub_loop_ne_assert _ _ _ _ _ _ _ _ _ _ rfl
    | table get => exact gsub_loop_ne_assert _ _ _ _ _ _ _ _ _ _ rfl
    | function call => exact gsub_loop_ne_assert _ _ _ _ _ _ _ _ _ _ rfl

/-! ### C18: more fuel never changes a result -/

theorem start_capture_ext (m1 m2 : Matcher) (hext : Extends m1 m2) (ms : MatchState)
    (s p : Nat) (what : Int) (h : start_capture m1 ms s p what ≠ .outOfFuel) :
    start_capture m2 ms s p what = start_capture m1 ms s p what := by
  unfold start_capture at h ⊢
  simp only at h ⊢
  by_cases hl : ms.level ≥ MAXCAPTURES
  · simp only [if_pos hl]
  · simp only [if_neg hl] at h ⊢
    have hne : m1 { ms with capture := ms.capture.set ms.level ⟨s, what⟩, level := ms.level + 1 } s p
        ≠ .outOfFuel := by
      intro hc
      rw [hc] at h
      exact h rfl
    rw [hext _ _ _ hne]

theorem end_capture_ext (m1 m2 : Matcher) (hext : Extends m1 m2) (ms : MatchState)
    (s p : Nat) (h : end_capture m1 ms s p ≠ .outOfFuel) :
    end_capture m2 ms s p = end_capture m1 ms s p := by
  unfold end_capture at h ⊢
  cases hc : capture_to_close ms with
  | error e => rfl
  | outOfFuel => rfl
  | ok l =>
    rw [hc] at h
    simp only at h ⊢
    have hne : m1 { ms with capture := ms.capture.set l ⟨(ms.cap l).init, (s : Int) - (ms.cap l).init⟩ } s p
        ≠ .outOfFuel := by
      intro hc2
      rw [hc2] at h
      exact h rfl
    rw [hext _ _ _ hne]

theorem max_expand_try_ext (m1 m2 : Matcher) (hext : Extends m1 m2) (s ep : Nat) :
    ∀ i ms, max_expand_try m1 s ep i ms ≠ .outOfFuel →
      max_expand_try m2 s ep i ms = max_expand_try m1 s ep i ms := by
  intro i
  induction i with
  | zero =>
    intro ms h
    rw [max_expand_try] at h ⊢
    rw [max_expand_try]
    exact hext _ _ _ h
  | succ i ih =>
    intro ms h
    rw [max_expand_try] at h ⊢
    rw [max_expand_try]
    have hne : m1 ms (s + (i + 1)) (ep + 1) ≠ .outOfFuel := by
      intro hc
      rw [hc] at h
      exact h rfl
    rw [hext _ _ _ hne]
    cases hr : m1 ms (s + (i + 1)) (ep + 1) with
    | error e => rfl
    | outOfFuel => rfl
    | ok v =>
      obtain ⟨r, ms1⟩ := v
      rw [hr] at h
      cases r with
      | some e => rfl
      | none => exact ih ms1 h

theorem min_expand_loop_ext (m1 m2 : Matcher) (hext : Extends m1 m2) (p0 ep : Nat) :
    ∀ fuel ms s, min_expand_loop m1 p0 ep fuel ms s ≠ .outOfFuel →
      min_expand_loop m2 p0 ep fuel ms s = min_expand_loop m1 p0 ep fuel ms s := by
  intro fuel
  induction fuel with
  | zero => intro ms s _; rfl
  | succ fuel ih =>
    intro ms s h
    rw [min_expand_loop] at h ⊢
    rw [min_expand_loop]
    have hne : m1 ms s (ep + 1) ≠ .outOfFuel := by
      intro hc
      rw [hc] at h
      exact h rfl
    rw [hext _ _ _ hne]
    cases hr : m1 ms s (ep + 1) with
    | error e => rfl
    | outOfFuel => rfl
    | ok v =>
      obtain ⟨r, ms1⟩ := v
      rw [hr] at h
      cases r with
      | some e => rfl
      | none =>
        simp only at h ⊢
        by_cases hsm : singlematch ms1 s p0 ep = true
        · simp only [if_pos hsm] at h ⊢
          exact ih ms1 _ h
        · simp only [if_neg hsm]

theorem match_entry_ext (b1 b2 : Matcher) (hext : Extends b1 b2) :
    Extends (match_entry b1) (match_entry b2) := by
  intro ms s p h
  unfold match_entry at h ⊢
  by_cases hd : ms.matchdepth = 0
  · simp only [if_pos hd]
  · simp only [if_neg hd] at h ⊢
    have hne : b1 { ms with matchdepth := ms.matchdepth - 1 } s p ≠ .outOfFuel := by
      intro hc
      rw [hc] at h
      exact h rfl
    rw [hext _ _ _ hne]

theorem match_default_ext (g1 g2 c1 c2 : Matcher) (hg : Extends g1 g2) (hc : Extends c1 c2) :
    Extends (match_default g1 c1) (match_default g2 c2) := by
  intro ms s p h
  unfold match_default at h ⊢
  cases hce : classend ms p with
  | error e => rfl
  | outOfFuel => rfl
  | ok ep =>
    rw [hce] at h
    simp only at h ⊢
    by_cases hsm : singlematch ms s p ep = true
    · have hn : ¬ ¬ singlematch ms s p ep = true := not_not.mpr hsm
      simp only [if_neg hn] at h ⊢
      by_cases h63 : byteAt ms.pat ep = 63
      · simp only [if_pos h63] at h ⊢
        have hne : c1 ms (s + 1) (ep + 1) ≠ .outOfFuel := by
          intro hc2
          rw [hc2] at h
          exact h rfl
        rw [hc _ _ _ hne]
        cases hr : c1 ms (s + 1) (ep + 1) with
        | error e => rfl
        | outOfFuel => rfl
        | ok v =>
          obtain ⟨r, ms1⟩ := v
          rw [hr] at h
          cases r with
          | some e => rfl
          | none => exact hg _ _ _ h
      · simp only [if_neg h63] at h ⊢
        by_cases h43 : byteAt ms.pat ep = 43
        · simp only [if_pos h43] at h ⊢
          exact max_expand_try_ext c1 c2 hc _ _ _ _ h
        · simp only [if_neg h43] at h ⊢
          by_cases h42 : byteAt ms.pat ep = 42
          · simp only [if_pos h42] at h ⊢
            exact max_expand_try_ext c1 c2 hc _ _ _ _ h
          · simp only [if_neg h42] at h ⊢
            by_cases h45 : byteAt ms.pat ep = 45
            · simp only [if_pos h45] at h ⊢
              exact min_expand_loop_ext c1 c2 hc _ _ _ _ _ h
            · simp only [if_neg h45] at h ⊢
              exact hg _ _ _ h
    · simp only [if_pos hsm] at h ⊢
      by_cases hq : byteAt ms.pat ep = 42 ∨ byteAt ms.pat ep = 63 ∨ byteAt ms.pat ep = 45
      · simp only [if_pos hq] at h ⊢
        exact hg _ _ _ h
      · simp only [if_neg hq]

/-- One more unit of fuel does not change a result of the body of `match`. -/
theorem match_init_ext : ∀ fuel, Extends (match_init fuel) (match_init (fuel + 1)) := by
  intro fuel
  induction fuel with
  | zero => intro ms s p h; exact absurd rfl h
  | succ fuel ih =>
    have hcall : Extends (match_entry (match_init fuel)) (match_entry (match_init (fuel + 1))) :=
      match_entry_ext _ _ ih
    intro ms s p h
    rw [match_init] at h ⊢
    rw [match_init]
    simp only at h ⊢
    by_cases hp : p ≠ ms.p_end
    swap
    · simp only [if_neg hp]
    simp only [if_pos hp] at h ⊢
    by_cases h40 : byteAt ms.pat p = 40
    · simp only [if_pos h40] at h ⊢
      by_cases h41 : byteAt ms.pat (p + 1) = 41
      · simp only [if_pos h41] at h ⊢
        exact start_capture_ext _ _ hcall _ _ _ _ h
      · simp only [if_neg h41] at h ⊢
        exact start_capture_ext _ _ hcall _ _ _ _ h
    simp only [if_neg h40] at h ⊢
    by_cases h41 : byteAt ms.pat p = 41
    · simp only [if_pos h41] at h ⊢
      exact end_capture_ext _ _ hcall _ _ _ h
    simp only [if_neg h41] at h ⊢
    by_cases h36 : byteAt ms.pat p = 36 ∧ p + 1 = ms.p_end
    · simp only [if_pos h36]
    simp only [if_neg h36] at h ⊢
    by_cases h37 : byteAt ms.pat p = ESC
    swap
    · simp only [if_neg h37] at h ⊢
      exact match_default_ext _ _ _ _ ih hcall _ _ _ h
    simp only [if_pos h37] at h ⊢
    by_cases h98 : byteAt ms.pat (p + 1) = 98
    · simp only [if_pos h98] at h ⊢
      cases hb : matchbalance ms s (p + 2) with
      | error e => rfl
      | outOfFuel => rfl
      | ok r =>
        rw [hb] at h
        cases r with
        | none => rfl
        | some s1 => exact ih _ _ _ h
    simp only [if_neg h98] at h ⊢
    by_cases h102 : byteAt ms.pat (p + 1) = 102
    · simp only [if_pos h102] at h ⊢
      by_cases h91 : byteAt ms.pat (p + 2) ≠ 91
      · simp only [if_pos h91]
      simp only [if_neg h91] at h ⊢
      cases hce : classend ms (p + 2) with
      | error e => rfl
      | outOfFuel => rfl
      | ok ep =>
        rw [hce] at h
        simp only at h ⊢
        split_ifs at h ⊢
        all_goals first | rfl | exact ih _ _ _ h
    simp only [if_neg h102] at h ⊢
    by_cases hdg : 48 ≤ byteAt ms.pat (p + 1) ∧ byteAt ms.pat (p + 1) ≤ 57
    · simp only [if_pos hdg] at h ⊢
      cases hb : match_capture ms s (byteAt ms.pat (p + 1)) with
      | error e => rfl
      | outOfFuel => rfl
      | ok r =>
        rw [hb] at h
        cases r with
        | none => rfl
        | some s1 => exact ih _ _ _ h
    simp only [if_neg hdg] at h ⊢
    exact match_default_ext _ _ _ _ ih hcall _ _ _ h

theorem match_init_ext_add (fuel : Nat) : ∀ k, Extends (match_init fuel) (match_init (fuel + k)) := by
  intro k
  induction k with
  | zero => intro ms s p _; rfl
  | succ k ih =>
    intro ms s p h
    have h1 := ih ms s p h
    have h2 := match_init_ext (fuel + k) ms s p (by rw [h1]; exact h)
    rw [← h1, ← h2]
    rfl

/-- A call of `match` gives the same result with any fuel beyond the fuel the
driving operations supply. -/
theorem do_match_fuel_irrelevant (ms : MatchState) (s p : Nat) (hp : p ≤ ms.p_end) (k : Nat) :
    do_match (matchFuel ms.p_end + k) ms s p = do_match (matchFuel ms.p_end) ms s p :=
  match_entry_ext _ _ (match_init_ext_add _ k) ms s p (do_match_ne_outOfFuel ms s p hp)

/-- The counting loop of `max_expand` ends at the first position from `s + i`
on at which the item does not match, whenever its fuel reaches the subject
end. -/
theorem max_expand_count_spec (ms : MatchState) (s p ep : Nat) :
    ∀ fuel i, ms.src_end ≤ s + i + fuel →
      i ≤ max_expand_count ms s p ep fuel i ∧
      singlematch ms (s + max_expand_count ms s p ep fuel i) p ep = false ∧
      ∀ j, i ≤ j → j < max_expand_count ms s p ep fuel i → singlematch ms (s + j) p ep = true := by
  intro fuel
  induction fuel with
  | zero =>
    intro i hi
    rw [max_expand_count]
    refine ⟨le_refl _, ?_, fun j h1 h2 => absurd h2 (by omega)⟩
    cases hsm : singlematch ms (s + i) p ep with
    | false => rfl
    | true =>
      have := singlematch_lt hsm
      omega
  | succ fuel ih =>
    intro i hi
    rw [max_expand_count]
    cases hsm : singlematch ms (s + i) p ep with
    | false =>
      simp only [Bool.false_eq_true, if_false]
      exact ⟨le_refl _, hsm, fun j h1 h2 => absurd h2 (by omega)⟩
    | true =>
      simp only [if_true]
      obtain ⟨h1, h2, h3⟩ := ih (i + 1) (by omega)
      refine ⟨by omega, h2, fun j hj1 hj2 => ?_⟩
      by_cases hji : j = i
      · rw [hji]; exact hsm
      · exact h3 j (by omega) hj2

/-- C18: the matcher is total.  A call of `match` at a pattern position inside
the pattern, at any subject position and in any state, returns a match
position or a non-match, or raises an error: with the fuel the driving
operations give it, and with any larger fuel, the embedding never runs out of
fuel, and the result is the same for every such fuel.  The three measures:
the body of `match` never runs out of fuel when its fuel exceeds the number of
pattern bytes left (every in-place dispatch step and every recursive call
moves the pattern cursor forward, `classend` returning a position beyond the
item and inside the pattern); the counting loop of the greedy expansion stops
at a count where the item does not match, within the subject, and the retry
loop, which counts that number down to zero, never runs out of fuel; the lazy
loop, which moves the subject position forward by one each time, never runs
out of its fuel, the number of subject bytes left plus one. -/
theorem matcher_total :
    (∀ ms s p k, p ≤ ms.p_end →
      ((∃ r ms1, do_match (matchFuel ms.p_end + k) ms s p = .ok (r, ms1)) ∨
        (∃ e, do_match (matchFuel ms.p_end + k) ms s p = .error e)) ∧
      do_match (matchFuel ms.p_end + k) ms s p = do_match (matchFuel ms.p_end) ms s p) ∧
    (∀ fuel ms s p, p ≤ ms.p_end → ms.p_end - p < fuel → match_init fuel ms s p ≠ .outOfFuel) ∧
    (∀ ms p ep, classend ms p = .ok ep → p < ms.p_end → p < ep ∧ ep ≤ ms.p_end) ∧
    (∀ ms s p ep, s ≤ ms.src_end →
      s + max_expand_count ms s p ep (ms.src_end - s) 0 ≤ ms.src_end ∧
      singlematch ms (s + max_expand_count ms s p ep (ms.src_end - s) 0) p ep = false ∧
      ∀ j, j < max_expand_count ms s p ep (ms.src_end - s) 0 → singlematch ms (s + j) p ep = true) ∧
    (∀ fuel ms s p ep, ep + 1 ≤ ms.p_end → ms.p_end - (ep + 1) < fuel →
      max_expand (do_match fuel) ms s p ep ≠ .outOfFuel ∧
      min_expand (do_match fuel) ms s p ep ≠ .outOfFuel) := by
  refine ⟨?_, ?_, ?_, ?_, ?_⟩
  · intro ms s p k hp
    have heq := do_match_fuel_irrelevant ms s p hp k
    refine ⟨?_, heq⟩
    rw [heq]
    have hne := do_match_ne_outOfFuel ms s p hp
    cases hr : do_match (matchFuel ms.p_end) ms s p with
    | ok v => exact Or.inl ⟨v.1, v.2, rfl⟩
    | error e => exact Or.inr ⟨e, rfl⟩
    | outOfFuel => exact absurd hr hne
  · intro fuel ms s p hp hf
    exact match_init_fuel ms.p_end fuel ms s p rfl (by omega) hp
  · intro ms p ep h hp
    exact (classend_spec ms p).2 ep h hp
  · intro ms s p ep hs
    obtain ⟨_, h2, h3⟩ := max_expand_count_spec ms s p ep (ms.src_end - s) 0 (by omega)
    refine ⟨?_, h2, fun j hj => h3 j (Nat.zero_le _) hj⟩
    by_contra hgt
    have hpos : 0 < max_expand_count ms s p ep (ms.src_end - s) 0 := by omega
    have hlast := h3 (max_expand_count ms s p ep (ms.src_end - s) 0 - 1) (Nat.zero_le _) (by omega)
    have := singlematch_lt hlast
    omega
  · intro fuel ms s p ep hep hf
    have hfu : FuelFor (do_match fuel) ms.p_end (ms.p_end + 1 - fuel) :=
      match_entry_fuel _ _ _ (match_init_fuel ms.p_end fuel)
    have hfr : Framed (do_match fuel) := do_match_framed fuel
    constructor
    · exact max_expand_try_fuel _ _ _ hfu hfr s ep (by omega) hep _ ms rfl
    · exact min_expand_loop_fuel _ _ _ hfu hfr p ep (by omega) hep _ ms s rfl (by omega)

/-! ### C17: the end of a bracket set -/

theorem firstCloser_end (pat : Bytes) (q : Nat) (h : pat.length ≤ q) : firstCloser pat q = none := by
  simp [firstCloser, List.drop_eq_nil_of_le h, closerOffset]

theorem firstCloser_here (pat : Bytes) (q : Nat) (h : byteAt pat q = 93) :
    firstCloser pat q = some q := by
  have hq : q < pat.length := lt_length_of_byteAt_ne_zero (by rw [h]; decide)
  have hb := byteAt_lt hq
  unfold firstCloser
  rw [List.drop_eq_getElem_cons hq]
  cases hr : pat.drop (q + 1) with
  | nil => simp [closerOffset, ← hb, h]
  | cons d rest => simp [closerOffset, ← hb, h]

theorem firstCloser_step (pat : Bytes) (q : Nat) (hq : q < pat.length) (h : byteAt pat q ≠ 93) :
    firstCloser pat q = firstCloser pat (itemEnd pat q) := by
  have hb := byteAt_lt hq
  unfold firstCloser itemEnd
  rw [List.drop_eq_getElem_cons hq]
  by_cases hq1 : q + 1 < pat.length
  · rw [List.drop_eq_getElem_cons hq1]
    rw [closerOffset]
    rw [← hb, if_neg h]
    by_cases hesc : byteAt pat q = ESC
    · rw [if_pos hesc, if_pos ⟨hesc, hq1⟩, Option.map_map]
      congr 1
      funext x
      simp only [Function.comp]
      omega
    · rw [if_neg hesc, if_neg (fun hc => hesc hc.1), Option.map_map,
        List.drop_eq_getElem_cons hq1]
      congr 1
      funext x
      simp only [Function.comp]
      omega
  · have hnil : pat.drop (q + 1) = [] := List.drop_eq_nil_of_le (by omega)
    rw [hnil, if_neg (fun hc => hq1 hc.2), hnil]
    simp [closerOffset, ← hb, h]

/-- The `do ... while` loop of `classend` consumes the item at `p` and then
looks for the first unescaped `]`. -/
theorem classend_loop_closer (ms : MatchState) :
    ∀ fuel p, p ≤ ms.p_end → ms.p_end + 1 - p ≤ fuel →
      classend_loop ms fuel p =
        if p = ms.p_end then .error .malformedMissingBracket
        else match firstCloser ms.pat (itemEnd ms.pat p) with
          | some c => .ok (c + 1)
          | none => .error .malformedMissingBracket := by
  intro fuel
  induction fuel with
  | zero => intro p hp hf; omega
  | succ fuel ih =>
    intro p hp hf
    rw [classend_loop]
    by_cases hpe : p = ms.p_end
    · rw [if_pos hpe, if_pos hpe]
    rw [if_neg hpe, if_neg hpe]
    simp only
    have hie : (if byteAt ms.pat p = ESC ∧ p + 1 < ms.p_end then p + 1 + 1 else p + 1) =
        itemEnd ms.pat p := rfl
    rw [hie]
    have hle : itemEnd ms.pat p ≤ ms.p_end := by
      unfold itemEnd
      split_ifs with hc
      · exact hc.2
      · omega
    have hgt : p < itemEnd ms.pat p := by
      unfold itemEnd
      split_ifs <;> omega
    by_cases h93 : byteAt ms.pat (itemEnd ms.pat p) = 93
    · rw [if_neg (not_not.mpr h93), firstCloser_here _ _ h93]
    · rw [if_pos h93, ih _ hle (by omega)]
      by_cases he : itemEnd ms.pat p = ms.p_end
      · rw [if_pos he, firstCloser_end _ _ (by rw [he]; exact le_refl _)]
      · rw [if_neg he, firstCloser_step _ _ (lt_of_le_of_ne hle he) h93]

/-- C17 (amended): at a bracket-set opener `[`, `classend` skips the optional
`^` and then the first set item unconditionally (one byte, or `%` together
with the byte after it), even when that item is `]`; it returns the position
immediately after the first unescaped `]` at or after the end of that first
item, and it raises the missing-closing-bracket error iff the pattern ends
right after the opener and its `^`, or no such `]` occurs before the pattern
end.  When the first item is not `]`, that is the first unescaped `]` after the
opener and its optional `^`. -/
theorem classend_bracket_set (ms : MatchState) (p : Nat) (h : byteAt ms.pat p = 91) :
    (classend ms p =
      if (if byteAt ms.pat (p + 1) = 94 then p + 2 else p + 1) = ms.p_end then
        .error .malformedMissingBracket
      else
        match firstCloser ms.pat
            (itemEnd ms.pat (if byteAt ms.pat (p + 1) = 94 then p + 2 else p + 1)) with
        | some c => .ok (c + 1)
        | none => .error .malformedMissingBracket) ∧
    (byteAt ms.pat (if byteAt ms.pat (p + 1) = 94 then p + 2 else p + 1) ≠ 93 →
      classend ms p =
        match firstCloser ms.pat (if byteAt ms.pat (p + 1) = 94 then p + 2 else p + 1) with
        | some c => .ok (c + 1)
        | none => .error .malformedMissingBracket) := by
  have hp : p < ms.p_end := lt_length_of_byteAt_ne_zero (by rw [h]; decide)
  have hq0 : (if byteAt ms.pat (p + 1) = 94 then p + 2 else p + 1) ≤ ms.p_end := by
    split_ifs with h94
    · have : p + 1 < ms.p_end := lt_length_of_byteAt_ne_zero (by rw [h94]; decide)
      omega
    · omega
  have hmain : classend ms p =
      if (if byteAt ms.pat (p + 1) = 94 then p + 2 else p + 1) = ms.p_end then
        .error .malformedMissingBracket
      else
        match firstCloser ms.pat
            (itemEnd ms.pat (if byteAt ms.pat (p + 1) = 94 then p + 2 else p + 1)) with
        | some c => .ok (c + 1)
        | none => .error .malformedMissingBracket := by
    unfold classend
    simp only
    rw [if_neg (by rw [h]; decide), if_pos h]
    have hq : (if byteAt ms.pat (p + 1) = 94 then p + 1 + 1 else p + 1) =
        (if byteAt ms.pat (p + 1) = 94 then p + 2 else p + 1) := rfl
    rw [hq]
    exact classend_loop_closer ms _ _ hq0 (le_refl _)
  refine ⟨hmain, fun h93 => ?_⟩
  rw [hmain]
  by_cases he : (if byteAt ms.pat (p + 1) = 94 then p + 2 else p + 1) = ms.p_end
  · rw [if_pos he, firstCloser_end _ _ (by rw [he]; exact le_refl _)]
  · rw [if_neg he, firstCloser_step _ _ (lt_of_le_of_ne hq0 he) h93]

/-- The set of "[^%]]x": the escaped `]` is skipped and the scan ends after
the second one. -/
theorem classend_bracket_set_witness :
    byteAt [91, 94, 37, 93, 93, 120] 0 = 91 ∧
      classend ⟨[], [91, 94, 37, 93, 93, 120], 200, 0, []⟩ 0 = .ok 5 :=
  ⟨by decide,
    (classend_bracket_set ⟨[], [91, 94, 37, 93, 93, 120], 200, 0, []⟩ 0 (by decide)).1.trans
      (by decide)⟩

/-- C17 (as stated) fails: in "[]]" the first unescaped `]` after the opener
is at position 1, yet `classend` returns 3, not 2; and on "[]" it raises the
missing-closing-bracket error although such a `]` occurs before the pattern
end. -/
theorem classend_first_item_is_not_closer :
    firstCloser [91, 93, 93] 1 = some 1 ∧
    classend ⟨[], [91, 93, 93], 200, 0, []⟩ 0 = .ok 3 ∧
    firstCloser [91, 93] 1 = some 1 ∧
    classend ⟨[], [91, 93], 200, 0, []⟩ 0 = .error .malformedMissingBracket := by
  decide

/-! ### C11: the capture limit -/

theorem byteAt_of_drop {b x : Bytes} {p : Nat} (h : b.drop p = x) (j : Nat) :
    byteAt b (p + j) = byteAt x j := by
  rw [← h, byteAt_drop]

/-- A capture-open met with `MAXCAPTURES` captures recorded raises the error. -/
theorem match_init_open_full (fuel : Nat) (ms : MatchState) (s p : Nat)
    (h40 : byteAt ms.pat p = 40) (hl : MAXCAPTURES ≤ ms.level) :
    match_init (fuel + 1) ms s p = .error .tooManyCaptures := by
  have hp : p ≠ ms.p_end := Nat.ne_of_lt (lt_length_of_byteAt_ne_zero (by omega))
  rw [match_init]
  simp only [hp, h40, ne_eq, not_false_eq_true, if_true]
  split_ifs <;> simp [start_capture, hl]

theorem start_capture_error (m : Matcher) (ms : MatchState) (s p : Nat) (what : Int) (e : Err)
    (h : m { ms with capture := ms.capture.set ms.level ⟨s, what⟩, level := ms.level + 1 } s p
      = .error e) (hl : ¬ ms.level ≥ MAXCAPTURES) :
    start_capture m ms s p what = .error e := by
  unfold start_capture
  simp only
  rw [if_neg hl, h]

theorem match_entry_error (body : Matcher) (ms : MatchState) (s p : Nat) (e : Err)
    (hd : ms.matchdepth ≠ 0)
    (h : body { ms with matchdepth := ms.matchdepth - 1 } s p = .error e) :
    match_entry body ms s p = .error e := by
  unfold match_entry
  rw [if_neg hd, h]

/-- A run of capture-opens that takes the capture count to `MAXCAPTURES`,
followed by one more `(`, raises the error whatever follows. -/
theorem opens_raise (R : Bytes) :
    ∀ (opens : List Bool) (fuel : Nat) (ms : MatchState) (s p : Nat),
      ms.pat.drop p = opens.flatMap captureOpen ++ 40 :: R →
      MAXCAPTURES ≤ ms.level + opens.length → opens.length ≤ ms.matchdepth →
      opens.length < fuel → match_init fuel ms s p = .error .tooManyCaptures := by
  intro opens
  induction opens with
  | nil =>
    intro fuel ms s p hd hl _ hf
    obtain ⟨f, rfl⟩ : ∃ f, fuel = f + 1 := ⟨fuel - 1, by simp at hf; omega⟩
    have h40 : byteAt ms.pat p = 40 := by
      have := byteAt_of_drop hd 0
      simpa [byteAt] using this
    exact match_init_open_full f ms s p h40 (by simpa using hl)
  | cons b rest ih =>
    intro fuel ms s p hd hl hdep hf
    obtain ⟨f, rfl⟩ : ∃ f, fuel = f + 1 := ⟨fuel - 1, by omega⟩
    simp only [List.length_cons] at hl hdep hf
    by_cases hfull : ms.level ≥ MAXCAPTURES
    · have h40 : byteAt ms.pat p = 40 := by
        have := byteAt_of_drop hd 0
        cases b <;> simpa [byteAt, captureOpen] using this
      exact match_init_open_full f ms s p h40 hfull
    cases b with
    | true =>
      have hd2 : ms.pat.drop p = 40 :: 41 :: (rest.flatMap captureOpen ++ 40 :: R) := by
        rw [hd]; simp [captureOpen]
      have h40 : byteAt ms.pat p = 40 := by
        have := byteAt_of_drop hd2 0
        simpa [byteAt] using this
      have h41 : byteAt ms.pat (p + 1) = 41 := by
        have := byteAt_of_drop hd2 1
        simpa [byteAt] using this
      have hnext : ms.pat.drop (p + 2) = rest.flatMap captureOpen ++ 40 :: R := by
        rw [← List.drop_drop, hd2]
        rfl
      have hp : p ≠ ms.p_end := Nat.ne_of_lt (lt_length_of_byteAt_ne_zero (by omega))
      rw [match_init]
      simp only [hp, h40, h41, ne_eq, not_false_eq_true, if_true]
      apply start_capture_error _ _ _ _ _ _ _ hfull
      apply match_entry_error _ _ _ _ _ (by simp only; omega)
      exact ih f _ s (p + 2) hnext (by simp only; omega) (by simp only; omega) (by omega)
    | false =>
      have hd2 : ms.pat.drop p = 40 :: (rest.flatMap captureOpen ++ 40 :: R) := by
        rw [hd]; simp [captureOpen]
      have h40 : byteAt ms.pat p = 40 := by
        have := byteAt_of_drop hd2 0
        simpa [byteAt] using this
      have hnext : ms.pat.drop (p + 1) = rest.flatMap captureOpen ++ 40 :: R := by
        rw [← List.drop_drop, hd2]
        rfl
      have h41 : byteAt ms.pat (p + 1) ≠ 41 := by
        have := byteAt_of_drop hnext 0
        rw [Nat.add_zero] at this
        rw [this]
        cases rest with
        | nil => simp [byteAt]
        | cons c rest2 => cases c <;> simp [byteAt, captureOpen]
      rw [match_init_open f ms s p h40 h41]
      apply start_capture_error _ _ _ _ _ _ _ hfull
      apply match_entry_error _ _ _ _ _ (by simp only; omega)
      exact ih f _ s (p + 1) hnext (by simp only; omega) (by simp only; omega) (by omega)

theorem length_flatMap_captureOpen (opens : List Bool) :
    opens.length ≤ (opens.flatMap captureOpen).length := by
  induction opens with
  | nil => simp
  | cons b rest ih =>
    cases b <;> simp [captureOpen] at ih ⊢ <;> omega

theorem byteAt_zero_opens (opens : List Bool) (R : Bytes) :
    byteAt (opens.flatMap captureOpen ++ 40 :: R) 0 = 40 := by
  cases opens with
  | nil => rfl
  | cons b rest => cases b <;> rfl

theorem nospecials_open_first (p : Bytes) (h : byteAt p 0 = 40) :
    nospecials p p.length = false := by
  cases p with
  | nil => simp [byteAt] at h
  | cons c rest =>
    have hc : c = 40 := by simpa [byteAt] using h
    subst hc
    simp [nospecials, nospecials_loop, cstring, List.takeWhile, SPECIALS]

/-- C11 (amended): a match attempt that reaches a capture-open `(` while
`MAXCAPTURES` (32) captures are recorded raises "too many captures".  Hence,
for every subject and every `init` with `1 ≤ init ≤ len(s) + 1`, `find`
(without `plain`) and `match` raise the error on every pattern that begins
with 33 capture-opens (each `(` or `()`), whatever follows them. -/
theorem too_many_captures_raised (opens : List Bool) (R s : Bytes) (init : Nat) (find : Bool)
    (hlen : opens.length = MAXCAPTURES) (h1 : 1 ≤ init) (h2 : init ≤ s.length + 1) :
    str_find_aux find s (opens.flatMap captureOpen ++ 40 :: R) (init : Int) false
        = .error .tooManyCaptures ∧
      ∀ fuel ms s1 p, byteAt ms.pat p = 40 → MAXCAPTURES ≤ ms.level →
        match_init (fuel + 1) ms s1 p = .error .tooManyCaptures := by
  refine ⟨?_, fun fuel ms s1 p h40 hl => match_init_open_full fuel ms s1 p h40 hl⟩
  have h0 := byteAt_zero_opens opens R
  have hns := nospecials_open_first _ h0
  have hlp := length_flatMap_captureOpen opens
  rw [str_find_aux_eq find s _ init false h1 h2]
  have hnp : ¬ (find = true ∧ (false = true ∨
      nospecials (opens.flatMap captureOpen ++ 40 :: R)
        (opens.flatMap captureOpen ++ 40 :: R).length = true)) := by
    rw [hns]
    simp
  rw [if_neg hnp, h0, str_find_loop]
  have hre : reprepstate (prepstate s (opens.flatMap captureOpen ++ 40 :: R)) =
      .ok (prepstate s (opens.flatMap captureOpen ++ 40 :: R)) := rfl
  rw [hre]
  simp only
  have hm : do_match (matchFuel (prepstate s (opens.flatMap captureOpen ++ 40 :: R)).p_end)
      (prepstate s (opens.flatMap captureOpen ++ 40 :: R)) (init - 1)
      (if (40 : Nat) = 94 then 1 else 0) = .error .tooManyCaptures := by
    apply match_entry_error _ _ _ _ _ (by simp [prepstate, MAXCCALLS])
    apply opens_raise R opens
    · rfl
    · simp only [prepstate]
      omega
    · simp only [prepstate, MAXCCALLS]
      rw [hlen]
      decide
    · simp only [matchFuel, prepstate, MatchState.p_end, List.length_append, List.length_cons]
      omega
  rw [hm]

/-- The pattern of 33 groups "(" on the subject "a", from position 1: `find`
raises. -/
theorem too_many_captures_raised_witness :
    (List.replicate 32 false).length = MAXCAPTURES ∧ 1 ≤ 1 ∧ 1 ≤ [97].length + 1 ∧
      str_find_aux true [97] ((List.replicate 32 false).flatMap captureOpen ++ 40 :: [])
        ((1 : Nat) : Int) false = .error .tooManyCaptures :=
  ⟨by decide, by decide, by decide,
    (too_many_captures_raised (List.replicate 32 false) [] [97] 1 true (by decide) (by decide)
      (by decide)).1⟩

/-- C11 (as stated) fails: the pattern "x" followed by 33 groups "()" holds 33
capture-opens, yet on the subject "a" both `find` and `match` return no-match:
no attempt gets past the first item, so no capture is ever opened. -/
theorem many_captures_not_reached :
    str_find [97] (120 :: (List.replicate 33 true).flatMap captureOpen) 1 false = .ok none ∧
    str_match [97] (120 :: (List.replicate 33 true).flatMap captureOpen) 1 = .ok none := by
  decide

/-! ### C12: the recursion ceiling -/

theorem optionalAs_succ (n : Nat) : optionalAs (n + 1) = 97 :: 63 :: optionalAs n := by
  simp [optionalAs, List.replicate_succ]

theorem optionalAs_length (n : Nat) : (optionalAs n).length = 2 * n := by
  induction n with
  | zero => rfl
  | succ n ih => rw [optionalAs_succ, List.length_cons, List.length_cons, ih]; omega

theorem optionalAs_even (n : Nat) : ∀ i, i < n → byteAt (optionalAs n) (2 * i) = 97 := by
  induction n with
  | zero => intro i h; omega
  | succ n ih =>
    intro i h
    rw [optionalAs_succ]
    cases i with
    | zero => rfl
    | succ i =>
      have : 2 * (i + 1) = 2 * i + 1 + 1 := by omega
      rw [this, byteAt_cons_succ, byteAt_cons_succ]
      exact ih i (by omega)

theorem optionalAs_odd (n : Nat) : ∀ i, i < n → byteAt (optionalAs n) (2 * i + 1) = 63 := by
  induction n with
  | zero => intro i h; omega
  | succ n ih =>
    intro i h
    rw [optionalAs_succ]
    cases i with
    | zero => rfl
    | succ i =>
      have : 2 * (i + 1) + 1 = 2 * i + 1 + 1 + 1 := by omega
      rw [this, byteAt_cons_succ, byteAt_cons_succ]
      exact ih i (by omega)

theorem runOfAs_byte (n i : Nat) (h : i < n) : byteAt (runOfAs n) i = 97 := by
  have hl : i < (runOfAs n).length := by simpa [runOfAs] using h
  rw [byteAt_lt hl]
  simp [runOfAs]

/-- The item at label `dflt` with the suffix `?`, once it has matched. -/
theorem match_default_optional (goto call : Matcher) (ms : MatchState) (s p ep : Nat)
    (hce : classend ms p = .ok ep) (h63 : byteAt ms.pat ep = 63)
    (hsm : singlematch ms s p ep = true) :
    match_default goto call ms s p =
      match call ms (s + 1) (ep + 1) with
      | .ok (some res, ms1) => .ok (some res, ms1)
      | .ok (none, ms1) => goto ms1 s (ep + 1)
      | .error e => .error e
      | .outOfFuel => .outOfFuel := by
  unfold match_default
  rw [hce]
  simp only [hsm, h63, not_true_eq_false, if_false, if_true]

/-- The body of `match` on the last `k` items of "a?" repeated `n` times, with
`k` bytes of the subject left: each item takes one nested call. -/
theorem optional_chain (n : Nat) :
    ∀ k fuel ms i, ms.src = runOfAs n → ms.pat = optionalAs n → i + k = n → k < fuel →
      match_init fuel ms i (2 * i) =
        if k ≤ ms.matchdepth then .ok (some n, ms) else .error .patternTooComplex := by
  intro k
  induction k with
  | zero =>
    intro fuel ms i hs hp hik hf
    obtain ⟨f, rfl⟩ : ∃ f, fuel = f + 1 := ⟨fuel - 1, by omega⟩
    have hend : 2 * i = ms.p_end := by
      simp only [MatchState.p_end, hp, optionalAs_length]
      omega
    rw [match_init_at_end f ms i (2 * i) hend, if_pos (Nat.zero_le _)]
    have : i = n := by omega
    rw [this]
  | succ k ih =>
    intro fuel ms i hs hp hik hf
    obtain ⟨f, rfl⟩ : ∃ f, fuel = f + 1 := ⟨fuel - 1, by omega⟩
    have hin : i < n := by omega
    have hb : byteAt ms.pat (2 * i) = 97 := by rw [hp]; exact optionalAs_even n i hin
    have hq : byteAt ms.pat (2 * i + 1) = 63 := by rw [hp]; exact optionalAs_odd n i hin
    have hpe : 2 * i ≠ ms.p_end := by
      simp only [MatchState.p_end, hp, optionalAs_length]
      omega
    rw [match_init_default f ms i (2 * i) hpe (by omega) (by omega) (Or.inl (by omega)) (by omega)]
    have hce : classend ms (2 * i) = .ok (2 * i + 1) := classend_single ms _ (by omega) (by omega)
    have hsm : singlematch ms i (2 * i) (2 * i + 1) = true := by
      rw [singlematch_literal ms i _ _ (by omega) (by omega) (by omega)]
      have hsl : i < ms.src_end := by simp [MatchState.src_end, hs, runOfAs, hin]
      have hsb : byteAt ms.src i = 97 := by rw [hs]; exact runOfAs_byte n i hin
      simp [hsl, hb, hsb]
    rw [match_default_optional _ _ ms i (2 * i) (2 * i + 1) hce hq hsm]
    have hnext : 2 * i + 1 + 1 = 2 * (i + 1) := by omega
    rw [hnext]
    by_cases hd : ms.matchdepth = 0
    · have he : match_entry (match_init f) ms (i + 1) (2 * (i + 1)) = .error .patternTooComplex := by
        unfold match_entry
        rw [if_pos hd]
      rw [he, if_neg (by omega)]
    · rw [match_entry_eq _ ms _ _ hd]
      have hrec := ih f { ms with matchdepth := ms.matchdepth - 1 } (i + 1) hs hp (by omega)
        (by omega)
      rw [hrec]
      simp only
      by_cases hk : k ≤ ms.matchdepth - 1
      · rw [if_pos hk, if_pos (by omega)]
        simp only
        have hdd : ms.matchdepth - 1 + 1 = ms.matchdepth := by omega
        rw [hdd]
      · rw [if_neg hk, if_neg (by omega)]

theorem optional_attempt (n : Nat) (fuel : Nat) (hf : n < fuel) :
    do_match fuel (prepstate (runOfAs n) (optionalAs n)) 0 0 =
      if n ≤ 199 then .ok (some n, prepstate (runOfAs n) (optionalAs n))
      else .error .patternTooComplex := by
  unfold do_match
  rw [match_entry_eq _ _ _ _ (by simp [prepstate, MAXCCALLS])]
  have h := optional_chain n n fuel
    { prepstate (runOfAs n) (optionalAs n) with
      matchdepth := (prepstate (runOfAs n) (optionalAs n)).matchdepth - 1 } 0 rfl rfl
    (by omega) hf
  rw [Nat.mul_zero] at h
  rw [h]
  have hd : (prepstate (runOfAs n) (optionalAs n)).matchdepth - 1 = 199 := rfl
  simp only [hd]
  by_cases hn : n ≤ 199
  · rw [if_pos hn, if_pos hn]
    rfl
  · rw [if_neg hn, if_neg hn]

theorem nospecials_optionalAs (n : Nat) :
    nospecials (optionalAs (n + 1)) (optionalAs (n + 1)).length = false := by
  rw [optionalAs_succ]
  simp [nospecials, nospecials_loop, cstring, List.takeWhile, SPECIALS]

theorem optionalAs_first (n : Nat) : byteAt (optionalAs n) 0 ≠ 94 := by
  cases n with
  | zero => decide
  | succ n =>
    rw [optionalAs_succ]
    simp [byteAt]

theorem optional_loop (find : Bool) (n k : Nat) :
    str_find_loop find (decide (byteAt (optionalAs n) 0 = 94))
        (if byteAt (optionalAs n) 0 = 94 then 1 else 0) (k + 1)
        (prepstate (runOfAs n) (optionalAs n)) 0 =
      if n ≤ 199 then
        .ok (some (if find then [.int 1, .int n] else [.str (runOfAs n)]))
      else .error .patternTooComplex := by
  rw [if_neg (optionalAs_first n), str_find_loop]
  have hre : reprepstate (prepstate (runOfAs n) (optionalAs n)) =
      .ok (prepstate (runOfAs n) (optionalAs n)) := rfl
  rw [hre]
  simp only
  rw [optional_attempt n _ (by
    simp only [matchFuel, prepstate, MatchState.p_end, optionalAs_length]
    omega)]
  by_cases hn : n ≤ 199
  · rw [if_pos hn, if_pos hn]
    simp only
    cases find with
    | true =>
      simp [push_captures, push_captures_loop, prepstate]
    | false =>
      have htake : List.take n (runOfAs n) = runOfAs n := by
        apply List.take_of_length_le
        simp [runOfAs]
      simp [push_captures, push_captures_loop, push_onecapture, prepstate, htake]
  · rw [if_neg hn, if_neg hn]

/-- C12: the recursion ceiling is exactly 200 nested matcher invocations.  For
every `n`, the pattern made of `n` copies of "a?" on the subject made of `n`
bytes "a", from position 1: the matcher call succeeds with the end of the
subject when `n ≤ 199` and raises "pattern too complex" when `n ≥ 200`; so
`match` returns the whole subject and `find` the span `(1, n)` when `n ≤ 199`,
and both raise the error when `n ≥ 200`. -/
theorem recursion_ceiling (n : Nat) :
    (attempt (runOfAs n) (optionalAs n) 0 =
      if n ≤ 199 then .ok (some n, prepstate (runOfAs n) (optionalAs n))
      else .error .patternTooComplex) ∧
    (str_match (runOfAs n) (optionalAs n) 1 =
      if n ≤ 199 then .ok (some [.str (runOfAs n)]) else .error .patternTooComplex) ∧
    (str_find (runOfAs n) (optionalAs n) 1 false =
      if n ≤ 199 then .ok (some [.int 1, .int n]) else .error .patternTooComplex) := by
  refine ⟨?_, ?_, ?_⟩
  · unfold attempt
    rw [if_neg (optionalAs_first n)]
    exact optional_attempt n _ (by simp only [matchFuel, optionalAs_length]; omega)
  · have e := str_find_aux_eq false (runOfAs n) (optionalAs n) 1 false (le_refl _) (by omega)
    rw [Nat.cast_one] at e
    rw [str_match, e, if_neg (by simp)]
    have h := optional_loop false n ((runOfAs n).length - (1 - 1))
    simpa using h
  · rw [str_find]
    cases n with
    | zero => decide
    | succ n =>
      have e := str_find_aux_eq true (runOfAs (n + 1)) (optionalAs (n + 1)) 1 false (le_refl _)
        (by omega)
      rw [Nat.cast_one] at e
      rw [e, if_neg (by rw [nospecials_optionalAs]; simp)]
      have h := optional_loop true (n + 1) ((runOfAs (n + 1)).length - (1 - 1))
      simpa using h

/-! ### C13 and C14: which repetition count wins -/

theorem StateEquiv.of_failure {a b : MatchState} (h : FrameOK a none b) : StateEquiv b a :=
  ⟨h.src, h.pat, h.depth, h.level rfl, h.caplen,
    fun i hi => h.caps rfl i (by rw [← h.level rfl]; exact hi)⟩

theorem StateEquiv.trans_equiv {a b c : MatchState} (h1 : StateEquiv a b) (h2 : StateEquiv b c) :
    StateEquiv a c :=
  ⟨h1.src.trans h2.src, h1.pat.trans h2.pat, h1.depth.trans h2.depth, h1.level.trans h2.level,
    h1.caplen.trans h2.caplen,
    fun i hi => (h1.caps i hi).trans (h2.caps i (by rw [← h1.level]; exact hi))⟩

theorem byteAt_ge (b : Bytes) (i : Nat) (h : b.length ≤ i) : byteAt b i = 0 := by
  simp [byteAt, List.getD_eq_getElem?_getD, List.getElem?_eq_none h]

/-- An item followed by a suffix byte lies inside the pattern. -/
theorem item_inside (ms : MatchState) (p ep c : Nat) (hce : classend ms p = .ok ep)
    (hc : byteAt ms.pat ep = c) (hc0 : c ≠ 0) : p < ep ∧ ep < ms.p_end := by
  have hep : ep < ms.p_end := lt_length_of_byteAt_ne_zero (by rw [hc]; exact hc0)
  have hp : p < ms.p_end := by
    by_contra hge
    have h0 : byteAt ms.pat p = 0 := byteAt_ge _ _ (Nat.le_of_not_lt hge)
    rw [classend_single ms p (by omega) (by omega)] at hce
    simp only [Res.ok.injEq] at hce
    omega
  exact ⟨((classend_spec ms p).2 ep hce hp).1, hep⟩

theorem match_init_item (fuel : Nat) (ms : MatchState) (s p : Nat)
    (hx : singleItemAt ms.pat p) (hp : p + 1 < ms.p_end) :
    match_init (fuel + 1) ms s p
      = match_default (match_init fuel) (match_entry (match_init fuel)) ms s p := by
  obtain ⟨h40, h41, hesc⟩ := hx
  by_cases h37 : byteAt ms.pat p = 37
  · obtain ⟨hb, hf, hd⟩ := hesc h37
    exact match_init_class fuel ms s p h37 hb hf hd
  · exact match_init_default fuel ms s p (by omega) h40 h41 (Or.inr (by omega)) h37

/-- The retry loop of the greedy expansion returns the result of the
continuation at the largest count at which it succeeds. -/
theorem max_expand_try_spec (c : Matcher) (hfr : Framed c) (hre : Respects c) (s ep : Nat)
    (ms : MatchState) :
    ∀ i ms0 r ms1, StateEquiv ms0 ms → max_expand_try c s ep i ms0 = .ok (r, ms1) →
      (∀ e, r = some e → ∃ k, k ≤ i ∧
        (∃ msk, c ms (s + k) (ep + 1) = .ok (some e, msk) ∧ StateEquiv ms1 msk) ∧
        ∀ j, k < j → j ≤ i → ∃ msj, c ms (s + j) (ep + 1) = .ok (none, msj)) ∧
      (r = none ↔ ∀ k, k ≤ i → ∃ msk, c ms (s + k) (ep + 1) = .ok (none, msk)) := by
  intro i
  induction i with
  | zero =>
    intro ms0 r ms1 heq h
    rw [max_expand_try] at h
    have hr := hre ms0 ms s (ep + 1) heq
    rw [h] at hr
    obtain ⟨msk, hk, hek⟩ := ResEquiv.of_ok hr
    constructor
    · intro e he
      subst he
      exact ⟨0, le_refl _, ⟨msk, hk, hek⟩, fun j h1 h2 => absurd h2 (by omega)⟩
    · constructor
      · intro hn k hk0
        have : k = 0 := by omega
        subst this
        subst hn
        exact ⟨msk, hk⟩
      · intro hall
        obtain ⟨m0, hm0⟩ := hall 0 (le_refl _)
        rw [Nat.add_zero] at hm0
        rw [hk] at hm0
        simp only [Res.ok.injEq, Prod.mk.injEq] at hm0
        exact hm0.1
  | succ i ih =>
    intro ms0 r ms1 heq h
    rw [max_expand_try] at h
    have hr := hre ms0 ms (s + (i + 1)) (ep + 1) heq
    cases hc : c ms0 (s + (i + 1)) (ep + 1) with
    | error e => rw [hc] at h; cases h
    | outOfFuel => rw [hc] at h; cases h
    | ok v =>
      obtain ⟨r0, ms2⟩ := v
      rw [hc] at h hr
      obtain ⟨msk, hk, hek⟩ := ResEquiv.of_ok hr
      cases r0 with
      | some res =>
        simp only [Res.ok.injEq, Prod.mk.injEq] at h
        obtain ⟨h1, h2⟩ := h
        subst h1
        subst h2
        constructor
        · intro e he
          simp only [Option.some.injEq] at he
          subst he
          exact ⟨i + 1, le_refl _, ⟨msk, hk, hek⟩, fun j h1 h2 => absurd h2 (by omega)⟩
        · constructor
          · intro hn
            cases hn
          · intro hall
            obtain ⟨m0, hm0⟩ := hall (i + 1) (le_refl _)
            rw [hk] at hm0
            simp at hm0
      | none =>
        simp only at h
        have hf := hfr ms0 _ _ none ms2 hc
        have heq2 : StateEquiv ms2 ms := (StateEquiv.of_failure hf).trans_equiv heq
        obtain ⟨ih1, ih2⟩ := ih ms2 r ms1 heq2 h
        constructor
        · intro e he
          obtain ⟨k, hki, hks, hkj⟩ := ih1 e he
          refine ⟨k, by omega, hks, fun j h1 h2 => ?_⟩
          by_cases hj : j = i + 1
          · subst hj
            exact ⟨msk, hk⟩
          · exact hkj j h1 (by omega)
        · constructor
          · intro hn k hk0
            by_cases hj : k = i + 1
            · subst hj
              exact ⟨msk, hk⟩
            · exact ih2.1 hn k (by omega)
          · intro hall
            exact ih2.2 (fun k hk0 => hall k (by omega))

/-- The loop of the lazy expansion returns the result of the continuation at
the smallest count at which it succeeds. -/
theorem min_expand_loop_spec (c : Matcher) (hfr : Framed c) (hre : Respects c) (p ep : Nat)
    (ms : MatchState) :
    ∀ fuel ms0 s m r ms1, StateEquiv ms0 ms →
      (∀ j, j < m → singlematch ms (s + j) p ep = true) → singlematch ms (s + m) p ep = false →
      min_expand_loop c p ep fuel ms0 s = .ok (r, ms1) →
      (∀ e, r = some e → ∃ k, k ≤ m ∧
        (∃ msk, c ms (s + k) (ep + 1) = .ok (some e, msk) ∧ StateEquiv ms1 msk) ∧
        ∀ j, j < k → ∃ msj, c ms (s + j) (ep + 1) = .ok (none, msj)) ∧
      (r = none ↔ ∀ k, k ≤ m → ∃ msk, c ms (s + k) (ep + 1) = .ok (none, msk)) := by
  intro fuel
  induction fuel with
  | zero => intro ms0 s m r ms1 _ _ _ h; simp [min_expand_loop] at h
  | succ fuel ih =>
    intro ms0 s m r ms1 heq hrun hstop h
    rw [min_expand_loop] at h
    have hr := hre ms0 ms s (ep + 1) heq
    cases hc : c ms0 s (ep + 1) with
    | error e => rw [hc] at h; cases h
    | outOfFuel => rw [hc] at h; cases h
    | ok v =>
      obtain ⟨r0, ms2⟩ := v
      rw [hc] at h hr
      obtain ⟨msk, hk, hek⟩ := ResEquiv.of_ok hr
      cases r0 with
      | some res =>
        simp only [Res.ok.injEq, Prod.mk.injEq] at h
        obtain ⟨h1, h2⟩ := h
        subst h1
        subst h2
        constructor
        · intro e he
          simp only [Option.some.injEq] at he
          subst he
          exact ⟨0, Nat.zero_le _, ⟨msk, by rw [Nat.add_zero]; exact hk, hek⟩,
            fun j h1 => absurd h1 (by omega)⟩
        · constructor
          · intro hn
            cases hn
          · intro hall
            obtain ⟨m0, hm0⟩ := hall 0 (Nat.zero_le _)
            rw [Nat.add_zero, hk] at hm0
            simp at hm0
      | none =>
        simp only at h
        have hf := hfr ms0 _ _ none ms2 hc
        have heq2 : StateEquiv ms2 ms := (StateEquiv.of_failure hf).trans_equiv heq
        have hsm : singlematch ms2 s p ep = singlematch ms s p ep :=
          singlematch_congr ms2 ms heq2.src heq2.pat s p ep
        rw [hsm] at h
        cases m with
        | zero =>
          rw [Nat.add_zero] at hstop
          rw [hstop] at h
          simp only [Bool.false_eq_true, if_false, Res.ok.injEq, Prod.mk.injEq] at h
          obtain ⟨h1, h2⟩ := h
          subst h1
          subst h2
          constructor
          · intro e he
            cases he
          · constructor
            · intro _ k hk0
              have : k = 0 := by omega
              subst this
              exact ⟨msk, by rw [Nat.add_zero]; exact hk⟩
            · intro _
              rfl
        | succ m =>
          have h0 := hrun 0 (by omega)
          rw [Nat.add_zero] at h0
          rw [h0] at h
          simp only [if_true] at h
          have hrun2 : ∀ j, j < m → singlematch ms (s + 1 + j) p ep = true := by
            intro j hj
            have := hrun (j + 1) (by omega)
            rw [show s + 1 + j = s + (j + 1) by omega]
            exact this
          have hstop2 : singlematch ms (s + 1 + m) p ep = false := by
            rw [show s + 1 + m = s + (m + 1) by omega]
            exact hstop
          obtain ⟨ih1, ih2⟩ := ih ms2 (s + 1) m r ms1 heq2 hrun2 hstop2 h
          constructor
          · intro e he
            obtain ⟨k, hki, ⟨mk, hmk, hmke⟩, hkj⟩ := ih1 e he
            refine ⟨k + 1, by omega, ⟨mk, ?_, hmke⟩, fun j hj => ?_⟩
            · rw [show s + (k + 1) = s + 1 + k by omega]
              exact hmk
            · cases j with
              | zero => exact ⟨msk, by rw [Nat.add_zero]; exact hk⟩
              | succ j =>
                obtain ⟨mj, hmj⟩ := hkj j (by omega)
                exact ⟨mj, by rw [show s + (j + 1) = s + 1 + j by omega]; exact hmj⟩
          · constructor
            · intro hn k hk0
              cases k with
              | zero => exact ⟨msk, by rw [Nat.add_zero]; exact hk⟩
              | succ k =>
                obtain ⟨mj, hmj⟩ := ih2.1 hn k (by omega)
                exact ⟨mj, by rw [show s + (k + 1) = s + 1 + k by omega]; exact hmj⟩
            · intro hall
              apply ih2.2
              intro k hk0
              obtain ⟨mj, hmj⟩ := hall (k + 1) (by omega)
              exact ⟨mj, by rw [show s + 1 + k = s + (k + 1) by omega]; exact hmj⟩

/-- C13: greedy tie-break.  Let `x` be a single pattern item at `p` that ends
at `ep` and is followed by `*`, let `m` be the number of consecutive subject
bytes from `s` that match `x`, and suppose that matching `x*R` at `s` raises
no error and returns `r`.  If `r` is a match, it is the result of matching the
remainder `R` at `s + k` for the largest `k` in `0..m` at which `R` succeeds
(with the same captures): `R` fails at every larger count up to `m`.  And `r`
is a failure iff `R` fails at `s + k` for every `k` in `0..m`.  The remainder
is run as the code runs it, in the state of the call. -/
theorem greedy_tie_break (fuel : Nat) (ms ms1 : MatchState) (s p ep m : Nat) (r : Option Nat)
    (hx : singleItemAt ms.pat p) (hce : classend ms p = .ok ep)
    (hstar : byteAt ms.pat ep = 42)
    (hrun : ∀ j, j < m → singlematch ms (s + j) p ep = true)
    (hstop : singlematch ms (s + m) p ep = false)
    (h : match_init (fuel + 1) ms s p = .ok (r, ms1)) :
    (∀ e, r = some e → ∃ k, k ≤ m ∧
      (∃ msk, remainderAt fuel ms s ep m k = .ok (some e, msk) ∧ StateEquiv ms1 msk) ∧
      ∀ j, k < j → j ≤ m → ∃ msj, remainderAt fuel ms s ep m j = .ok (none, msj)) ∧
    (r = none ↔ ∀ k, k ≤ m → ∃ msk, remainderAt fuel ms s ep m k = .ok (none, msk)) := by
  obtain ⟨hpep, hepl⟩ := item_inside ms p ep 42 hce hstar (by decide)
  rw [match_init_item fuel ms s p hx (by omega)] at h
  unfold match_default at h
  rw [hce] at h
  simp only at h
  cases m with
  | zero =>
    rw [Nat.add_zero] at hstop
    simp only [hstop, hstar, Bool.false_eq_true, not_false_eq_true, if_true, true_or] at h
    simp only [remainderAt, if_true]
    constructor
    · intro e he
      subst he
      exact ⟨0, le_refl _, ⟨ms1, h, StateEquiv.self_equiv _⟩, fun j h1 h2 => absurd h2 (by omega)⟩
    · constructor
      · intro hn k hk
        have : k = 0 := by omega
        subst this
        subst hn
        exact ⟨ms1, h⟩
      · intro hall
        obtain ⟨m0, hm0⟩ := hall 0 (le_refl _)
        rw [Nat.add_zero, h] at hm0
        simp only [Res.ok.injEq, Prod.mk.injEq] at hm0
        exact hm0.1
  | succ m =>
    have h0 := hrun 0 (by omega)
    rw [Nat.add_zero] at h0
    have hne : ¬ (byteAt ms.pat ep = 63) := by omega
    have hne2 : ¬ (byteAt ms.pat ep = 43) := by omega
    simp only [h0, not_true_eq_false, if_false, if_neg hne, if_neg hne2, if_pos hstar] at h
    unfold max_expand at h
    have hn : m + 1 ≤ ms.src_end - s := by
      have := singlematch_lt (hrun m (by omega))
      omega
    have hc := max_expand_count_eq ms s p ep (m + 1) (ms.src_end - s) 0 hn
      (by intro j hj; rw [Nat.zero_add]; exact hrun j hj) (by rw [Nat.zero_add]; exact hstop)
    rw [Nat.zero_add] at hc
    simp only [hc] at h
    have hsp := max_expand_try_spec (match_entry (match_init fuel))
      (match_entry_framed _ (match_init_framed fuel))
      (match_entry_respects _ (match_init_respects fuel)) s ep ms (m + 1) ms r ms1
      (StateEquiv.self_equiv _) h
    simp only [remainderAt, if_neg (Nat.succ_ne_zero m)]
    exact hsp

/-- The pattern "a*a" on "aaa": the item can take 3 bytes, the remainder "a"
succeeds after 0, 1 and 2 of them, and the match ends at 3. -/
theorem greedy_tie_break_witness :
    ∃ k, k ≤ 3 ∧
      (∃ msk, remainderAt 3 (prepstate [97, 97, 97] [97, 42, 97]) 0 1 3 k = .ok (some 3, msk) ∧
        StateEquiv (prepstate [97, 97, 97] [97, 42, 97]) msk) ∧
      ∀ j, k < j → j ≤ 3 →
        ∃ msj, remainderAt 3 (prepstate [97, 97, 97] [97, 42, 97]) 0 1 3 j = .ok (none, msj) :=
  (greedy_tie_break 3 (prepstate [97, 97, 97] [97, 42, 97]) (prepstate [97, 97, 97] [97, 42, 97])
    0 0 1 3 (some 3) (by simp [singleItemAt, byteAt, prepstate]) (by decide) (by decide)
    (by decide) (by decide) (by decide)).1 3 rfl

/-- C14: lazy tie-break.  Let `x` be a single pattern item at `p` that ends at
`ep` and is followed by `-`, let `m` be the number of consecutive subject bytes
from `s` that match `x`, and suppose that matching `x-R` at `s` raises no
error and returns `r`.  If `r` is a match, it is the result of matching the
remainder `R` at `s + k` for the smallest `k` in `0..m` at which `R` succeeds
(with the same captures): `R` fails at every smaller count.  And `r` is a
failure iff `R` fails at `s + k` for every `k` in `0..m`.  The remainder is
run as the code runs it, in the state of the call. -/
theorem lazy_tie_break (fuel : Nat) (ms ms1 : MatchState) (s p ep m : Nat) (r : Option Nat)
    (hx : singleItemAt ms.pat p) (hce : classend ms p = .ok ep)
    (hminus : byteAt ms.pat ep = 45)
    (hrun : ∀ j, j < m → singlematch ms (s + j) p ep = true)
    (hstop : singlematch ms (s + m) p ep = false)
    (h : match_init (fuel + 1) ms s p = .ok (r, ms1)) :
    (∀ e, r = some e → ∃ k, k ≤ m ∧
      (∃ msk, remainderAt fuel ms s ep m k = .ok (some e, msk) ∧ StateEquiv ms1 msk) ∧
      ∀ j, j < k → ∃ msj, remainderAt fuel ms s ep m j = .ok (none, msj)) ∧
    (r = none ↔ ∀ k, k ≤ m → ∃ msk, remainderAt fuel ms s ep m k = .ok (none, msk)) := by
  obtain ⟨hpep, hepl⟩ := item_inside ms p ep 45 hce hminus (by decide)
  rw [match_init_item fuel ms s p hx (by omega)] at h
  unfold match_default at h
  rw [hce] at h
  simp only at h
  cases m with
  | zero =>
    rw [Nat.add_zero] at hstop
    simp only [hstop, hminus, Bool.false_eq_true, not_false_eq_true, if_true, or_true] at h
    simp only [remainderAt, if_true]
    constructor
    · intro e he
      subst he
      exact ⟨0, le_refl _, ⟨ms1, h, StateEquiv.self_equiv _⟩, fun j h1 => absurd h1 (by omega)⟩
    · constructor
      · intro hn k hk
        have : k = 0 := by omega
        subst this
        subst hn
        exact ⟨ms1, h⟩
      · intro hall
        obtain ⟨m0, hm0⟩ := hall 0 (le_refl _)
        rw [Nat.add_zero, h] at hm0
        simp only [Res.ok.injEq, Prod.mk.injEq] at hm0
        exact hm0.1
  | succ m =>
    have h0 := hrun 0 (by omega)
    rw [Nat.add_zero] at h0
    have hne : ¬ (byteAt ms.pat ep = 63) := by omega
    have hne2 : ¬ (byteAt ms.pat ep = 43) := by omega
    have hne3 : ¬ (byteAt ms.pat ep = 42) := by omega
    simp only [h0, not_true_eq_false, if_false, if_neg hne, if_neg hne2, if_neg hne3,
      if_pos hminus] at h
    unfold min_expand at h
    have hsp := min_expand_loop_spec (match_entry (match_init fuel))
      (match_entry_framed _ (match_init_framed fuel))
      (match_entry_respects _ (match_init_respects fuel)) p ep ms _ ms s (m + 1) r ms1
      (StateEquiv.self_equiv _) hrun hstop h
    simp only [remainderAt, if_neg (Nat.succ_ne_zero m)]
    exact hsp

/-- The pattern "a-a" on "aaa": the remainder "a" succeeds at once, and the
match ends at 1. -/
theorem lazy_tie_break_witness :
    ∃ k, k ≤ 3 ∧
      (∃ msk, remainderAt 3 (prepstate [97, 97, 97] [97, 45, 97]) 0 1 3 k = .ok (some 1, msk) ∧
        StateEquiv (prepstate [97, 97, 97] [97, 45, 97]) msk) ∧
      ∀ j, j < k →
        ∃ msj, remainderAt 3 (prepstate [97, 97, 97] [97, 45, 97]) 0 1 3 j = .ok (none, msj) :=
  (lazy_tie_break 3 (prepstate [97, 97, 97] [97, 45, 97]) (prepstate [97, 97, 97] [97, 45, 97])
    0 0 1 3 (some 1) (by simp [singleItemAt, byteAt, prepstate]) (by decide) (by decide)
    (by decide) (by decide) (by decide)).1 1 rfl

/-! ### C19: match positions stay in bounds -/

theorem CapsWithin.mono {s0 s s1 : Nat} {ms : MatchState} (h : CapsWithin s0 ms s)
    (hs : s ≤ s1) : CapsWithin s0 ms s1 := by
  intro i hi
  obtain ⟨h1, h2, h3⟩ := h i hi
  refine ⟨h1, by omega, ?_⟩
  rcases h3 with h3 | h3 | h3
  · exact Or.inl h3
  · exact Or.inr (Or.inl h3)
  · exact Or.inr (Or.inr ⟨h3.1, by omega⟩)

theorem CapsWithin.of_frame {s0 s : Nat} {ms ms1 : MatchState} (h : CapsWithin s0 ms s)
    (hf : FrameOK ms none ms1) : CapsWithin s0 ms1 s := by
  intro i hi
  rw [hf.level rfl] at hi
  rw [hf.caps rfl i hi]
  exact h i hi

theorem CapsWithin.budget {s0 s : Nat} {ms : MatchState} (h : CapsWithin s0 ms s) (d : Nat) :
    CapsWithin s0 { ms with matchdepth := d } s := h

theorem capsWithin_open (s0 : Nat) (ms : MatchState) (s : Nat) (what : Int)
    (hw : what = CAP_UNFINISHED ∨ what = CAP_POSITION) (hlen : ms.level < ms.capture.length)
    (hs0 : s0 ≤ s) (h : CapsWithin s0 ms s) :
    CapsWithin s0 { ms with capture := ms.capture.set ms.level ⟨s, what⟩, level := ms.level + 1 }
      s := by
  intro i hi
  simp only at hi
  simp only [MatchState.cap, cap_set]
  by_cases hil : ms.level = i
  · rw [if_pos ⟨hil, hlen⟩]
    refine ⟨hs0, le_refl _, ?_⟩
    rcases hw with hw | hw
    · exact Or.inl hw
    · exact Or.inr (Or.inl hw)
  · rw [if_neg (fun hc => hil hc.1)]
    exact h i (by omega)

theorem capsWithin_close (s0 : Nat) (ms : MatchState) (s l : Nat) (hl : l < ms.level)
    (h : CapsWithin s0 ms s) :
    CapsWithin s0
      { ms with capture := ms.capture.set l ⟨(ms.cap l).init, (s : Int) - (ms.cap l).init⟩ } s := by
  intro i hi
  simp only at hi
  simp only [MatchState.cap, cap_set]
  by_cases hil : l = i ∧ l < ms.capture.length
  · rw [if_pos hil]
    obtain ⟨h1, h2, _⟩ := h l hl
    simp only [MatchState.cap] at h1 h2
    refine ⟨h1, h2, Or.inr (Or.inr ⟨?_, ?_⟩)⟩
    · simp only
      omega
    · simp only
      omega
  · rw [if_neg hil]
    exact h i hi

theorem start_capture_bounds (m : Matcher) (hm : InBounds m) (what : Int)
    (hw : what = CAP_UNFINISHED ∨ what = CAP_POSITION)
    (s0 : Nat) (ms : MatchState) (s p e : Nat) (ms1 : MatchState)
    (hcl : MAXCAPTURES ≤ ms.capture.length) (hs : s ≤ ms.src_end) (hs0 : s0 ≤ s)
    (hc : CapsWithin s0 ms s) (h : start_capture m ms s p what = .ok (some e, ms1)) :
    s ≤ e ∧ e ≤ ms.src_end ∧ CapsWithin s0 ms1 e := by
  simp only [start_capture] at h
  by_cases hl : ms.level ≥ MAXCAPTURES
  · rw [if_pos hl] at h
    cases h
  rw [if_neg hl] at h
  cases hr : m { ms with capture := ms.capture.set ms.level ⟨s, what⟩, level := ms.level + 1 }
      s p with
  | error e => rw [hr] at h; cases h
  | outOfFuel => rw [hr] at h; cases h
  | ok v =>
    obtain ⟨r2, ms2⟩ := v
    rw [hr] at h
    cases r2 with
    | none => simp at h
    | some e2 =>
      simp only [Res.ok.injEq, Prod.mk.injEq, Option.some.injEq] at h
      obtain ⟨rfl, rfl⟩ := h
      have hl2 : ms.level < ms.capture.length := by omega
      have := hm s0 { ms with capture := ms.capture.set ms.level ⟨s, what⟩, level := ms.level + 1 }
        s p _ _ (by simp only [List.length_set]; exact hcl) hs hs0
        (capsWithin_open s0 ms s what hw hl2 hs0 hc) hr
      exact this

theorem end_capture_bounds (m : Matcher) (hm : InBounds m)
    (s0 : Nat) (ms : MatchState) (s p e : Nat) (ms1 : MatchState)
    (hcl : MAXCAPTURES ≤ ms.capture.length) (hs : s ≤ ms.src_end) (hs0 : s0 ≤ s)
    (hc : CapsWithin s0 ms s) (h : end_capture m ms s p = .ok (some e, ms1)) :
    s ≤ e ∧ e ≤ ms.src_end ∧ CapsWithin s0 ms1 e := by
  simp only [end_capture] at h
  cases hcc : capture_to_close ms with
  | error e => rw [hcc] at h; cases h
  | outOfFuel => rw [hcc] at h; cases h
  | ok l =>
    obtain ⟨hl, _⟩ := capture_to_close_spec ms l hcc
    rw [hcc] at h
    simp only at h
    cases hr : m { ms with
        capture := ms.capture.set l ⟨(ms.cap l).init, (s : Int) - (ms.cap l).init⟩ } s p with
    | error e => rw [hr] at h; cases h
    | outOfFuel => rw [hr] at h; cases h
    | ok v =>
      obtain ⟨r2, ms2⟩ := v
      rw [hr] at h
      cases r2 with
      | none => simp at h
      | some e2 =>
        simp only [Res.ok.injEq, Prod.mk.injEq, Option.some.injEq] at h
        obtain ⟨rfl, rfl⟩ := h
        have := hm s0
          { ms with capture := ms.capture.set l ⟨(ms.cap l).init, (s : Int) - (ms.cap l).init⟩ }
          s p _ _ (by simp only [List.length_set]; exact hcl) hs hs0
          (capsWithin_close s0 ms s l hl hc) hr
        exact this

theorem max_expand_try_bounds (m : Matcher) (hm : InBounds m) (hfr : Framed m) (s ep : Nat) :
    ∀ i s0 ms e ms1, MAXCAPTURES ≤ ms.capture.length → s + i ≤ ms.src_end → s0 ≤ s →
      CapsWithin s0 ms s → max_expand_try m s ep i ms = .ok (some e, ms1) →
      s ≤ e ∧ e ≤ ms.src_end ∧ CapsWithin s0 ms1 e := by
  intro i
  induction i with
  | zero =>
    intro s0 ms e ms1 hcl hs hs0 hc h
    rw [max_expand_try] at h
    exact hm s0 ms s _ e ms1 hcl (by omega) hs0 hc h
  | succ i ih =>
    intro s0 ms e ms1 hcl hs hs0 hc h
    rw [max_expand_try] at h
    cases hr : m ms (s + (i + 1)) (ep + 1) with
    | error e => rw [hr] at h; cases h
    | outOfFuel => rw [hr] at h; cases h
    | ok v =>
      obtain ⟨r2, ms2⟩ := v
      rw [hr] at h
      cases r2 with
      | some e2 =>
        simp only [Res.ok.injEq, Prod.mk.injEq, Option.some.injEq] at h
        obtain ⟨rfl, rfl⟩ := h
        have := hm s0 ms (s + (i + 1)) _ _ _ hcl hs (by omega) (hc.mono (by omega)) hr
        exact ⟨by omega, this.2.1, this.2.2⟩
      | none =>
        simp only at h
        have hf := hfr _ _ _ _ _ hr
        have := ih s0 ms2 e ms1 (by rw [hf.caplen]; exact hcl)
          (by rw [src_end_of_frame hf]; omega) hs0 (hc.of_frame hf) h
        rw [src_end_of_frame hf] at this
        exact this

theorem min_expand_loop_bounds (m : Matcher) (hm : InBounds m) (hfr : Framed m) (p ep : Nat) :
    ∀ fuel s0 ms s e ms1, MAXCAPTURES ≤ ms.capture.length → s ≤ ms.src_end → s0 ≤ s →
      CapsWithin s0 ms s → min_expand_loop m p ep fuel ms s = .ok (some e, ms1) →
      s ≤ e ∧ e ≤ ms.src_end ∧ CapsWithin s0 ms1 e := by
  intro fuel
  induction fuel with
  | zero => intro s0 ms s e ms1 _ _ _ _ h; simp [min_expand_loop] at h
  | succ fuel ih =>
    intro s0 ms s e ms1 hcl hs hs0 hc h
    rw [min_expand_loop] at h
    cases hr : m ms s (ep + 1) with
    | error e => rw [hr] at h; cases h
    | outOfFuel => rw [hr] at h; cases h
    | ok v =>
      obtain ⟨r2, ms2⟩ := v
      rw [hr] at h
      cases r2 with
      | some e2 =>
        simp only [Res.ok.injEq, Prod.mk.injEq, Option.some.injEq] at h
        obtain ⟨rfl, rfl⟩ := h
        exact hm s0 ms s _ _ _ hcl hs hs0 hc hr
      | none =>
        simp only at h
        have hf := hfr _ _ _ _ _ hr
        by_cases hsm : singlematch ms2 s p ep = true
        · rw [if_pos hsm] at h
          have hlt := singlematch_lt hsm
          have := ih s0 ms2 (s + 1) e ms1 (by rw [hf.caplen]; exact hcl) hlt (by omega)
            ((hc.of_frame hf).mono (by omega)) h
          rw [src_end_of_frame hf] at this
          exact ⟨by omega, this.2.1, this.2.2⟩
        · rw [if_neg hsm] at h
          simp at h

theorem match_entry_bounds (body : Matcher) (hb : InBounds body) : InBounds (match_entry body) := by
  intro s0 ms s p e ms1 hcl hs hs0 hc h
  by_cases hd : ms.matchdepth = 0
  · simp [match_entry, hd] at h
  rw [match_entry_eq body ms s p hd] at h
  cases hr : body { ms with matchdepth := ms.matchdepth - 1 } s p with
  | error e => rw [hr] at h; cases h
  | outOfFuel => rw [hr] at h; cases h
  | ok v =>
    obtain ⟨r2, ms2⟩ := v
    rw [hr] at h
    simp only [Res.ok.injEq, Prod.mk.injEq] at h
    obtain ⟨rfl, rfl⟩ := h
    have := hb s0 { ms with matchdepth := ms.matchdepth - 1 } s p e ms2 hcl hs hs0 (hc.budget _) hr
    exact ⟨this.1, this.2.1, this.2.2.budget _⟩

theorem max_expand_count_le (ms : MatchState) (s p ep : Nat) (hs : s ≤ ms.src_end) :
    s + max_expand_count ms s p ep (ms.src_end - s) 0 ≤ ms.src_end := by
  obtain ⟨_, _, h3⟩ := max_expand_count_spec ms s p ep (ms.src_end - s) 0 (by omega)
  by_contra hgt
  have hlast := h3 (max_expand_count ms s p ep (ms.src_end - s) 0 - 1) (Nat.zero_le _) (by omega)
  have := singlematch_lt hlast
  omega

theorem matchbalance_loop_bounds (b e : Nat) :
    ∀ (rest : Bytes) (s0 : Nat) (cont : Int) (r : Nat),
      matchbalance_loop b e rest s0 cont = some r → s0 + 2 ≤ r ∧ r ≤ s0 + rest.length + 1 := by
  intro rest
  induction rest with
  | nil => intro s0 cont r h; simp [matchbalance_loop] at h
  | cons c rest ih =>
    intro s0 cont r h
    rw [matchbalance_loop] at h
    simp only [List.length_cons]
    split_ifs at h
    · simp only [Option.some.injEq] at h
      omega
    · have := ih _ _ _ h
      omega
    · have := ih _ _ _ h
      omega
    · have := ih _ _ _ h
      omega

theorem matchbalance_bounds (ms : MatchState) (s p s1 : Nat)
    (h : matchbalance ms s p = .ok (some s1)) : s ≤ s1 ∧ s1 ≤ ms.src_end := by
  unfold matchbalance at h
  by_cases h1 : p + 1 ≥ ms.p_end
  · rw [if_pos h1] at h
    cases h
  rw [if_neg h1] at h
  by_cases h2 : byteAt ms.src s ≠ byteAt ms.pat p
  · rw [if_pos h2] at h
    simp at h
  rw [if_neg h2] at h
  simp only [Res.ok.injEq] at h
  have := matchbalance_loop_bounds _ _ _ _ _ _ h
  simp only [List.length_drop, MatchState.src_end] at this ⊢
  omega

theorem match_capture_bounds (ms : MatchState) (s l s1 : Nat) (hs : s ≤ ms.src_end)
    (h : match_capture ms s l = .ok (some s1)) : s ≤ s1 ∧ s1 ≤ ms.src_end := by
  unfold match_capture at h
  cases hc : check_capture ms l with
  | error e => rw [hc] at h; cases h
  | outOfFuel => rw [hc] at h; cases h
  | ok l1 =>
    rw [hc] at h
    simp only at h
    by_cases hcond : ms.src_end - s ≥ toSizeT (ms.cap l1).len ∧
        memeq ms.src ms.src (toSizeT (ms.cap l1).len) (ms.cap l1).init s = true
    · rw [if_pos hcond] at h
      simp only [Res.ok.injEq, Option.some.injEq] at h
      have := hcond.1
      omega
    · rw [if_neg hcond] at h
      simp at h

theorem match_default_bounds (goto call : Matcher) (hg : InBounds goto) (hc : InBounds call)
    (hcf : Framed call) : InBounds (match_default goto call) := by
  intro s0 ms s p e ms1 hcl hs hs0 hcw h
  unfold match_default at h
  cases hce : classend ms p with
  | error e => rw [hce] at h; cases h
  | outOfFuel => rw [hce] at h; cases h
  | ok ep =>
    rw [hce] at h
    simp only at h
    by_cases hsm : singlematch ms s p ep = true
    · have hlt := singlematch_lt hsm
      rw [if_neg (by simpa using hsm)] at h
      by_cases h63 : byteAt ms.pat ep = 63
      · rw [if_pos h63] at h
        cases hr : call ms (s + 1) (ep + 1) with
        | error e => rw [hr] at h; cases h
        | outOfFuel => rw [hr] at h; cases h
        | ok v =>
          obtain ⟨r2, ms2⟩ := v
          rw [hr] at h
          cases r2 with
          | some e2 =>
            simp only [Res.ok.injEq, Prod.mk.injEq, Option.some.injEq] at h
            obtain ⟨rfl, rfl⟩ := h
            have := hc s0 ms (s + 1) _ _ _ hcl hlt (by omega) (hcw.mono (by omega)) hr
            exact ⟨by omega, this.2.1, this.2.2⟩
          | none =>
            simp only at h
            have hf := hcf _ _ _ _ _ hr
            have := hg s0 ms2 s _ _ _ (by rw [hf.caplen]; exact hcl)
              (by rw [src_end_of_frame hf]; exact hs) hs0 (hcw.of_frame hf) h
            rw [src_end_of_frame hf] at this
            exact this
      · rw [if_neg h63] at h
        by_cases h43 : byteAt ms.pat ep = 43
        · rw [if_pos h43] at h
          unfold max_expand at h
          have := max_expand_try_bounds call hc hcf (s + 1) ep _ s0 ms e ms1 hcl
            (max_expand_count_le ms (s + 1) p ep hlt) (by omega) (hcw.mono (by omega)) h
          exact ⟨by omega, this.2.1, this.2.2⟩
        · rw [if_neg h43] at h
          by_cases h42 : byteAt ms.pat ep = 42
          · rw [if_pos h42] at h
            unfold max_expand at h
            exact max_expand_try_bounds call hc hcf s ep _ s0 ms e ms1 hcl
              (max_expand_count_le ms s p ep hs) hs0 hcw h
          · rw [if_neg h42] at h
            by_cases h45 : byteAt ms.pat ep = 45
            · rw [if_pos h45] at h
              unfold min_expand at h
              exact min_expand_loop_bounds call hc hcf p ep _ s0 ms s e ms1 hcl hs hs0 hcw h
            · rw [if_neg h45] at h
              have := hg s0 ms (s + 1) _ _ _ hcl hlt (by omega) (hcw.mono (by omega)) h
              exact ⟨by omega, this.2.1, this.2.2⟩
    · rw [if_pos hsm] at h
      split_ifs at h
      · exact hg s0 ms s _ _ _ hcl hs hs0 hcw h
      · simp at h

/-- Every successful return of the body of `match` ends inside the subject,
at or after the start, with the capture records inside the matched stretch. -/
theorem match_init_bounds : ∀ fuel, InBounds (match_init fuel) := by
  intro fuel
  induction fuel with
  | zero => intro s0 ms s p e ms1 _ _ _ _ h; simp [match_init] at h
  | succ fuel ih =>
    have hcall : InBounds (match_entry (match_init fuel)) := match_entry_bounds _ ih
    have hcf : Framed (match_entry (match_init fuel)) :=
      match_entry_framed _ (match_init_framed fuel)
    intro s0 ms s p e ms1 hcl hs hs0 hcw h
    rw [match_init] at h
    simp only at h
    by_cases hp : p ≠ ms.p_end
    swap
    · rw [if_neg hp] at h
      simp only [Res.ok.injEq, Prod.mk.injEq, Option.some.injEq] at h
      obtain ⟨rfl, rfl⟩ := h
      exact ⟨le_refl _, hs, hcw⟩
    rw [if_pos hp] at h
    by_cases h40 : byteAt ms.pat p = 40
    · rw [if_pos h40] at h
      by_cases h41 : byteAt ms.pat (p + 1) = 41
      · rw [if_pos h41] at h
        exact start_capture_bounds _ hcall _ (Or.inr rfl) s0 ms s _ e ms1 hcl hs hs0 hcw h
      · rw [if_neg h41] at h
        exact start_capture_bounds _ hcall _ (Or.inl rfl) s0 ms s _ e ms1 hcl hs hs0 hcw h
    rw [if_neg h40] at h
    by_cases h41 : byteAt ms.pat p = 41
    · rw [if_pos h41] at h
      exact end_capture_bounds _ hcall s0 ms s _ e ms1 hcl hs hs0 hcw h
    rw [if_neg h41] at h
    by_cases h36 : byteAt ms.pat p = 36 ∧ p + 1 = ms.p_end
    · rw [if_pos h36] at h
      simp only [Res.ok.injEq, Prod.mk.injEq] at h
      obtain ⟨h1, rfl⟩ := h
      split_ifs at h1
      simp only [Option.some.injEq] at h1
      subst h1
      exact ⟨le_refl _, hs, hcw⟩
    rw [if_neg h36] at h
    by_cases h37 : byteAt ms.pat p = ESC
    swap
    · rw [if_neg h37] at h
      exact match_default_bounds _ _ ih hcall hcf s0 ms s p e ms1 hcl hs hs0 hcw h
    rw [if_pos h37] at h
    by_cases hb : byteAt ms.pat (p + 1) = 98
    · rw [if_pos hb] at h
      cases hmb : matchbalance ms s (p + 2) with
      | error e => rw [hmb] at h; cases h
      | outOfFuel => rw [hmb] at h; cases h
      | ok v =>
        rw [hmb] at h
        cases v with
        | some s1 =>
          have hb2 := matchbalance_bounds ms s (p + 2) s1 hmb
          have := ih s0 ms s1 _ e ms1 hcl hb2.2 (by omega) (hcw.mono hb2.1) h
          exact ⟨by omega, this.2.1, this.2.2⟩
        | none => simp at h
    rw [if_neg hb] at h
    by_cases hf : byteAt ms.pat (p + 1) = 102
    · rw [if_pos hf] at h
      by_cases hbr : byteAt ms.pat (p + 2) ≠ 91
      · rw [if_pos hbr] at h
        cases h
      rw [if_neg hbr] at h
      cases hce : classend ms (p + 2) with
      | error e => rw [hce] at h; cases h
      | outOfFuel => rw [hce] at h; cases h
      | ok ep =>
        rw [hce] at h
        simp only at h
        split_ifs at h
        all_goals first | exact ih s0 ms s _ e ms1 hcl hs hs0 hcw h | simp at h
    rw [if_neg hf] at h
    by_cases hd : 48 ≤ byteAt ms.pat (p + 1) ∧ byteAt ms.pat (p + 1) ≤ 57
    · rw [if_pos hd] at h
      cases hmc : match_capture ms s (byteAt ms.pat (p + 1)) with
      | error e => rw [hmc] at h; cases h
      | outOfFuel => rw [hmc] at h; cases h
      | ok v =>
        rw [hmc] at h
        cases v with
        | some s1 =>
          have hb2 := match_capture_bounds ms s _ s1 hs hmc
          have := ih s0 ms s1 _ e ms1 hcl hb2.2 (by omega) (hcw.mono hb2.1) h
          exact ⟨by omega, this.2.1, this.2.2⟩
        | none => simp at h
    rw [if_neg hd] at h
    exact match_default_bounds _ _ ih hcall hcf s0 ms s p e ms1 hcl hs hs0 hcw h

theorem do_match_bounds (fuel : Nat) : InBounds (do_match fuel) :=
  match_entry_bounds _ (match_init_bounds fuel)

theorem capsWithin_empty (s0 : Nat) (ms : MatchState) (s : Nat) (h : ms.level = 0) :
    CapsWithin s0 ms s := by
  intro i hi
  omega

/-- Every pair the scan loop of `find` returns lies inside the subject. -/
theorem str_find_loop_bounds (anchor : Bool) (p : Nat) (st en : Int) (rest : List LVal) :
    ∀ n ms s1, MAXCAPTURES ≤ ms.capture.length → s1 ≤ ms.src_end →
      str_find_loop true anchor p n ms s1 = .ok (some (.int st :: .int en :: rest)) →
      st - 1 ≤ en ∧ en ≤ (ms.src_end : Int) := by
  intro n
  induction n with
  | zero => intro ms s1 _ _ h; simp [str_find_loop] at h
  | succ n ih =>
    intro ms s1 hcl hs h
    rw [str_find_loop] at h
    unfold reprepstate at h
    by_cases hd : ms.matchdepth = MAXCCALLS
    swap
    · rw [if_neg hd] at h
      cases h
    rw [if_pos hd] at h
    simp only at h
    generalize hms0 : ({ ms with level := 0 } : MatchState) = ms0 at h
    have hcl0 : MAXCAPTURES ≤ ms0.capture.length := by rw [← hms0]; exact hcl
    have hs0 : s1 ≤ ms0.src_end := by rw [← hms0]; exact hs
    have hse : ms0.src_end = ms.src_end := by rw [← hms0]; rfl
    have hlv : ms0.level = 0 := by rw [← hms0]
    cases hm : do_match (matchFuel ms0.p_end) ms0 s1 p with
    | error e => rw [hm] at h; cases h
    | outOfFuel => rw [hm] at h; cases h
    | ok v =>
      obtain ⟨r, ms1⟩ := v
      rw [hm] at h
      cases r with
      | some res =>
        simp only [if_true] at h
        have hb := do_match_bounds _ s1 ms0 s1 p res ms1 hcl0 hs0 (le_refl _)
          (capsWithin_empty _ _ _ hlv) hm
        cases hpc : push_captures ms1 none 0 with
        | error e => rw [hpc] at h; cases h
        | outOfFuel => rw [hpc] at h; cases h
        | ok caps =>
          rw [hpc] at h
          simp only [Res.ok.injEq, Option.some.injEq, List.cons.injEq, LVal.int.injEq] at h
          obtain ⟨h1, h2, _⟩ := h
          rw [← h1, ← h2, ← hse]
          omega
      | none =>
        simp only at h
        have hf := do_match_framed _ _ _ _ _ _ hm
        by_cases hc : s1 < ms1.src_end ∧ ¬ anchor = true
        · rw [if_pos hc] at h
          have := ih ms1 (s1 + 1) (by rw [hf.caplen]; exact hcl0) hc.1 h
          rw [src_end_of_frame hf, hse] at this
          exact this
        · rw [if_neg hc] at h
          simp at h

theorem lmemfind_bounds (s p : Bytes) (s1 i : Nat) (hs1 : s1 ≤ s.length)
    (h : lmemfind s s1 (s.length - s1) p p.length = some i) : i + p.length ≤ s.length := by
  have hsp := lmemfind_spec s p s1 hs1
  rw [h] at hsp
  simp only at hsp
  obtain ⟨h1, h2, h3⟩ := hsp
  rcases occurs_room s p i h2 with hr | hr
  · exact hr
  · subst hr
    simp only [List.length_nil, Nat.add_zero]
    by_contra hgt
    exact h3 s1 (le_refl _) (by omega) (by simp)

/-- C19: match positions stay in bounds and never move backwards.  For every
subject of length `n`, every pattern and every start offset `s ≤ n`, a call of
the matcher entered with an empty capture stack that succeeds with end offset
`e` has `s ≤ e ≤ n`; every capture record of that attempt starts at or after
`s` and at or before `e`, and every closed one (neither open nor a position
capture) has a length that is not negative and ends at or before `e`.  Hence
every pair `(start, end)` returned by `find`, on either path and for any
`init`, satisfies `start - 1 ≤ end ≤ n`. -/
theorem match_positions_in_bounds :
    (∀ fuel ms s p e ms1, ms.level = 0 → ms.capture.length = MAXCAPTURES → s ≤ ms.src_end →
      do_match fuel ms s p = .ok (some e, ms1) →
      s ≤ e ∧ e ≤ ms.src_end ∧
      ∀ i, i < ms1.level → s ≤ (ms1.cap i).init ∧ (ms1.cap i).init ≤ e ∧
        ((ms1.cap i).len ≠ CAP_UNFINISHED → (ms1.cap i).len ≠ CAP_POSITION →
          0 ≤ (ms1.cap i).len ∧ ((ms1.cap i).init : Int) + (ms1.cap i).len ≤ (e : Int))) ∧
    (∀ s p init plain st en rest,
      str_find s p init plain = .ok (some (.int st :: .int en :: rest)) →
      st - 1 ≤ en ∧ en ≤ (s.length : Int)) := by
  constructor
  · intro fuel ms s p e ms1 hl hcl hs h
    obtain ⟨h1, h2, h3⟩ := do_match_bounds fuel s ms s p e ms1 (by rw [hcl]) hs (le_refl _)
      (capsWithin_empty _ _ _ hl) h
    refine ⟨h1, h2, fun i hi => ?_⟩
    obtain ⟨a, b, c⟩ := h3 i hi
    refine ⟨a, b, fun hu hp => ?_⟩
    rcases c with c | c | c
    · exact absurd c hu
    · exact absurd c hp
    · exact c
  · intro s p init plain st en rest h
    unfold str_find str_find_aux at h
    simp only at h
    generalize hi : (if posrelat init s.length < 1 then 1 else posrelat init s.length) = i0 at h
    have hi1 : 1 ≤ i0 := by
      rw [← hi]
      split_ifs <;> omega
    by_cases hgt : i0 > (s.length : Int) + 1
    · rw [if_pos hgt] at h
      simp at h
    rw [if_neg hgt] at h
    have hto : (i0.toNat : Int) = i0 := Int.toNat_of_nonneg (by omega)
    by_cases hpl : (True ∧ (plain = true ∨ nospecials p p.length = true))
    · rw [if_pos hpl] at h
      have hlen : s.length + 1 - i0.toNat = s.length - (i0.toNat - 1) := by omega
      rw [hlen] at h
      cases hlm : lmemfind s (i0.toNat - 1) (s.length - (i0.toNat - 1)) p p.length with
      | none => rw [hlm] at h; simp at h
      | some s2 =>
        rw [hlm] at h
        simp only [Res.ok.injEq, Option.some.injEq, List.cons.injEq, LVal.int.injEq] at h
        obtain ⟨h1, h2, _⟩ := h
        have := lmemfind_bounds s p (i0.toNat - 1) s2 (by omega) hlm
        rw [← h1, ← h2]
        omega
    · rw [if_neg hpl] at h
      have := str_find_loop_bounds _ _ st en rest _ (prepstate s p) (i0.toNat - 1)
        (by simp [prepstate, blankCaptures]) (by simp only [prepstate, MatchState.src_end]; omega) h
      exact this

/-! ### C20: literal patterns on the matcher path -/

theorem literal_byteAt (p : Bytes) (hp : ∀ b ∈ p, b ∉ SPECIALS ∧ b ≠ 41) (j : Nat) :
    byteAt p j ∉ SPECIALS ∧ byteAt p j ≠ 41 := by
  by_cases hj : j < p.length
  · rw [byteAt_lt hj]
    exact hp _ (List.getElem_mem _)
  · rw [byteAt_ge p j (Nat.le_of_not_lt hj)]
    decide

theorem not_special (c : Nat) (h : c ∉ SPECIALS) :
    c ≠ 94 ∧ c ≠ 36 ∧ c ≠ 42 ∧ c ≠ 43 ∧ c ≠ 63 ∧ c ≠ 46 ∧ c ≠ 40 ∧ c ≠ 91 ∧ c ≠ 37 ∧ c ≠ 45 := by
  simpa [SPECIALS, not_or] using h

theorem occurs_step (src p : Bytes) (s1 q : Nat) (n : Nat) (hq : q < p.length) :
    (src.drop s1).take (n + 1) = (p.drop q).take (n + 1) ↔
      (s1 < src.length ∧ byteAt p q = byteAt src s1) ∧
        (src.drop (s1 + 1)).take n = (p.drop (q + 1)).take n := by
  rw [List.drop_eq_getElem_cons hq, byteAt_lt hq]
  by_cases hs : s1 < src.length
  · rw [List.drop_eq_getElem_cons hs, byteAt_lt hs]
    simp only [List.take_succ_cons, List.cons.injEq, hs, true_and]
    constructor
    · rintro ⟨a, b⟩
      exact ⟨a.symm, b⟩
    · rintro ⟨a, b⟩
      exact ⟨a.symm, b⟩
  · rw [List.drop_eq_nil_of_le (Nat.le_of_not_lt hs)]
    simp [hs, hq]

/-- The body of `match` on a literal pattern compares the bytes one by one,
without a nested call. -/
theorem literal_match_init (p : Bytes) (hp : ∀ b ∈ p, b ∉ SPECIALS ∧ b ≠ 41) :
    ∀ n fuel ms s1 q, ms.pat = p → q + n = p.length → n < fuel →
      match_init fuel ms s1 q =
        .ok (if (ms.src.drop s1).take n = (p.drop q).take n then some (s1 + n) else none, ms) := by
  intro n
  induction n with
  | zero =>
    intro fuel ms s1 q hpat hq hf
    obtain ⟨f, rfl⟩ : ∃ f, fuel = f + 1 := ⟨fuel - 1, by omega⟩
    rw [match_init_at_end f ms s1 q (by simp only [MatchState.p_end, hpat]; omega)]
    simp
  | succ n ih =>
    intro fuel ms s1 q hpat hq hf
    obtain ⟨f, rfl⟩ : ∃ f, fuel = f + 1 := ⟨fuel - 1, by omega⟩
    have hqlt : q < p.length := by omega
    obtain ⟨hs0, h41⟩ := literal_byteAt p hp q
    obtain ⟨h94, h36, h42, h43, h63, h46, h40, h91, h37, h45⟩ := not_special _ hs0
    obtain ⟨hs1, _⟩ := literal_byteAt p hp (q + 1)
    obtain ⟨_, _, n42, n43, n63, _, _, _, _, n45⟩ := not_special _ hs1
    rw [← hpat] at h94 h36 h42 h43 h63 h46 h40 h91 h37 h45 h41 n42 n43 n63 n45
    have hpe : q ≠ ms.p_end := by simp only [MatchState.p_end, hpat]; omega
    rw [match_init_default f ms s1 q hpe h40 h41 (Or.inl h36) h37]
    rw [match_default_plain _ _ ms s1 q (q + 1) (classend_single ms q h37 h91) n42 n63 n45 n43]
    rw [singlematch_literal ms s1 q (q + 1) h46 h37 h91]
    have hstep := occurs_step ms.src p s1 q n hqlt
    rw [← hpat] at hstep
    by_cases hc : s1 < ms.src_end ∧ byteAt ms.pat q = byteAt ms.src s1
    · rw [decide_eq_true hc, if_pos rfl, ih f ms (s1 + 1) (q + 1) hpat (by omega) (by omega)]
      have hiff : ((ms.src.drop s1).take (n + 1) = (p.drop q).take (n + 1)) ↔
          ((ms.src.drop (s1 + 1)).take n = (p.drop (q + 1)).take n) := by
        rw [← hpat, hstep]
        exact ⟨fun h => h.2, fun h => ⟨hc, h⟩⟩
      by_cases hrest : (ms.src.drop (s1 + 1)).take n = (p.drop (q + 1)).take n
      · rw [if_pos hrest, if_pos (hiff.mpr hrest)]
        have : s1 + 1 + n = s1 + (n + 1) := by omega
        rw [this]
      · rw [if_neg hrest, if_neg (fun h => hrest (hiff.mp h))]
    · rw [decide_eq_false hc]
      have hno : ¬ ((ms.src.drop s1).take (n + 1) = (p.drop q).take (n + 1)) := by
        rw [← hpat, hstep]
        exact fun h => hc h.1
      simp only [Bool.false_eq_true, if_false]
      rw [if_neg hno]

/-- One attempt of the scan loop on a literal pattern succeeds exactly where
the pattern occurs, and leaves the state as it was prepared. -/
theorem literal_attempt (s p : Bytes) (hp : ∀ b ∈ p, b ∉ SPECIALS ∧ b ≠ 41) (k : Nat) :
    do_match (matchFuel p.length) (prepstate s p) k 0 =
      .ok (if (s.drop k).take p.length = p then some (k + p.length) else none, prepstate s p) := by
  unfold do_match
  rw [match_entry_eq _ _ _ _ (by simp [prepstate, MAXCCALLS])]
  rw [literal_match_init p hp p.length (matchFuel p.length)
    { prepstate s p with matchdepth := (prepstate s p).matchdepth - 1 } k 0 rfl (by omega)
    (by simp [matchFuel])]
  simp only [List.drop_zero, List.take_length]
  rfl

theorem literal_first_byte (p : Bytes) (hp : ∀ b ∈ p, b ∉ SPECIALS ∧ b ≠ 41) :
    byteAt p 0 ≠ 94 :=
  (not_special _ (literal_byteAt p hp 0).1).1

theorem literal_attempt_eq (s p : Bytes) (hp : ∀ b ∈ p, b ∉ SPECIALS ∧ b ≠ 41) (k : Nat) :
    attempt s p k =
      .ok (if (s.drop k).take p.length = p then some (k + p.length) else none, prepstate s p) := by
  unfold attempt
  rw [if_neg (literal_first_byte p hp)]
  exact literal_attempt s p hp k

/-- The scan loop of `match` on a literal pattern returns the pattern at its
first occurrence and no-match when there is none. -/
theorem literal_loop (s p : Bytes) (hp : ∀ b ∈ p, b ∉ SPECIALS ∧ b ≠ 41) :
    ∀ n s1, s1 ≤ s.length → s.length - s1 < n →
      ((∀ j, s1 ≤ j → j ≤ s.length → ¬ (s.drop j).take p.length = p) →
        str_find_loop false false 0 n (prepstate s p) s1 = .ok none) ∧
      (∀ k, s1 ≤ k → k ≤ s.length → (s.drop k).take p.length = p →
        (∀ j, s1 ≤ j → j < k → ¬ (s.drop j).take p.length = p) →
        str_find_loop false false 0 n (prepstate s p) s1 = .ok (some [.str p])) := by
  intro n
  induction n with
  | zero => intro s1 _ h; omega
  | succ n ih =>
    intro s1 hs1 hn
    have hre : reprepstate (prepstate s p) = .ok (prepstate s p) := rfl
    have hpe : (prepstate s p).p_end = p.length := rfl
    have hse : (prepstate s p).src_end = s.length := rfl
    have hstep : str_find_loop false false 0 (n + 1) (prepstate s p) s1 =
        if (s.drop s1).take p.length = p then .ok (some [.str p])
        else if s1 < s.length then str_find_loop false false 0 n (prepstate s p) (s1 + 1)
        else .ok none := by
      rw [str_find_loop, hre]
      simp only
      rw [hpe, literal_attempt s p hp s1]
      by_cases hocc : (s.drop s1).take p.length = p
      · rw [if_pos hocc, if_pos hocc]
        simp only [Bool.false_eq_true, if_false]
        have hcap : push_captures (prepstate s p) (some s1) (s1 + p.length) = .ok [.str p] := by
          simp [push_captures, push_captures_loop, push_onecapture, prepstate, hocc]
        rw [hcap]
      · rw [if_neg hocc, if_neg hocc]
        simp only [hse, Bool.false_eq_true, not_false_eq_true, and_true]
    rw [hstep]
    constructor
    · intro hall
      rw [if_neg (hall s1 (le_refl _) hs1)]
      by_cases hlt : s1 < s.length
      · rw [if_pos hlt]
        exact (ih (s1 + 1) hlt (by omega)).1 (fun j h1 h2 => hall j (by omega) h2)
      · rw [if_neg hlt]
    · intro k hk1 hk2 hocc hmin
      by_cases hks : k = s1
      · subst hks
        rw [if_pos hocc]
      · have hno := hmin s1 (le_refl _) (by omega)
        rw [if_neg hno, if_pos (by omega)]
        exact (ih (s1 + 1) (by omega) (by omega)).2 k (by omega) hk2 hocc
          (fun j h1 h2 => hmin j (by omega) h2)

/-- C20: the plain fast path is transparent for literal patterns.  For every
subject `s`, every `init` with `1 ≤ init ≤ len(s) + 1` and every pattern `p`
without special bytes and without `)`, no attempt of the matcher raises an
error, and the matcher-driven scan of `match(s, p, init)` succeeds at exactly
the span that `find(s, p, init)` returns through the plain search: either
both return no-match and every attempt fails, or `find` returns `(i, j)`,
`match` returns the whole match `p`, which is the stretch of the subject from
`i` to `j`, the attempt that starts at `i` ends at `j`, and every earlier
attempt fails. -/
theorem plain_path_transparent (s p : Bytes) (init : Nat) (h1 : 1 ≤ init)
    (h2 : init ≤ s.length + 1) (hp : ∀ b ∈ p, b ∉ SPECIALS ∧ b ≠ 41) :
    (∀ k, ∃ r m, attempt s p k = .ok (r, m)) ∧
    ((str_find s p init false = .ok none ∧ str_match s p init = .ok none ∧
        ∀ k, init ≤ k + 1 → k ≤ s.length → ∃ m, attempt s p k = .ok (none, m)) ∨
      (∃ i j : Nat, init ≤ i ∧
        str_find s p init false = .ok (some [.int i, .int j]) ∧
        str_match s p init = .ok (some [.str p]) ∧
        (s.drop (i - 1)).take (j - (i - 1)) = p ∧
        (∃ m, attempt s p (i - 1) = .ok (some j, m)) ∧
        ∀ k, init ≤ k + 1 → k + 1 < i → ∃ m, attempt s p k = .ok (none, m))) := by
  have hatt := literal_attempt_eq s p hp
  refine ⟨fun k => ⟨_, _, hatt k⟩, ?_⟩
  have hns : nospecials p p.length = true := nospecials_of_no_special p (fun b hb => (hp b hb).1)
  have hfind := str_find_aux_eq true s p init false h1 h2
  have hlen : s.length + 1 - init = s.length - (init - 1) := by omega
  rw [if_pos ⟨rfl, Or.inr hns⟩, hlen] at hfind
  have hmatch : str_match s p init =
      str_find_loop false false 0 (s.length - (init - 1) + 1) (prepstate s p) (init - 1) := by
    rw [str_match, str_find_aux_eq false s p init false h1 h2, if_neg (by simp)]
    simp [literal_first_byte p hp]
  have hloop := literal_loop s p hp (s.length - (init - 1) + 1) (init - 1) (by omega) (by omega)
  have hsp := lmemfind_spec s p (init - 1) (by omega)
  cases hlm : lmemfind s (init - 1) (s.length - (init - 1)) p p.length with
  | none =>
    rw [hlm] at hsp hfind
    simp only at hsp hfind
    left
    refine ⟨hfind, ?_, fun k hk1 hk2 => ?_⟩
    · rw [hmatch]
      exact hloop.1 (fun j hj1 _ => hsp j hj1)
    · rw [hatt k, if_neg (hsp k (by omega))]
      exact ⟨_, rfl⟩
  | some k =>
    rw [hlm] at hsp hfind
    simp only at hsp hfind
    obtain ⟨hk1, hocc, hmin⟩ := hsp
    have hkb := lmemfind_bounds s p (init - 1) k (by omega) hlm
    right
    refine ⟨k + 1, k + p.length, by omega, ?_, ?_, ?_, ?_, ?_⟩
    · rw [str_find, hfind]
      simp
    · rw [hmatch]
      exact hloop.2 k hk1 (by omega) hocc hmin
    · have : k + p.length - (k + 1 - 1) = p.length := by omega
      rw [this]
      exact hocc
    · rw [Nat.add_sub_cancel, hatt k, if_pos hocc]
      exact ⟨_, rfl⟩
    · intro j hj1 hj2
      rw [hatt j, if_neg (hmin j (by omega) (by omega))]
      exact ⟨_, rfl⟩

/-- The pattern "ab" on the subject "xabab", scanned from position 1: the
attempt at offset 1 returns normally. -/
theorem plain_path_transparent_witness :
    ∃ r m, attempt [120, 97, 98, 97, 98] [97, 98] 1 = .ok (r, m) :=
  (plain_path_transparent [120, 97, 98, 97, 98] [97, 98] 1 (by decide) (by decide)
    (by decide)).1 1

/-! ### C21: substituting the whole match for itself -/

theorem add_s_whole_match (ms : MatchState) (s e : Nat) (b : Bytes) :
    add_s ms s e [37, 48] b = .ok (b ++ (ms.src.drop s).take (e - s)) := by
  simp [add_s, ESC, isdigit]

theorem take_extend (s : Bytes) (a e : Nat) (h : a ≤ e) :
    s.take a ++ (s.drop a).take (e - a) = s.take e := by
  have he : e = a + (e - a) := by omega
  conv_rhs => rw [he, List.take_add]

theorem take_one_more (s : Bytes) (a : Nat) (h : a < s.length) :
    s.take a ++ [byteAt s a] = s.take (a + 1) := by
  rw [byteAt_lt h, List.take_succ, List.getElem?_eq_getElem h]
  rfl

/-- The loop of `gsub` with the replacement "%0": from a state in which the
buffer holds the subject up to `src`, it returns the subject, unless a match
attempt raises an error, which it passes on. -/
theorem gsub_loop_rebuild (s p : Bytes) (anchor : Bool) (max_s : Int) :
    ∀ k ms src lm n b, ScanState s p ms → src ≤ s.length → b = s.take src →
      (max_s - n).toNat + (s.length - src) < k →
      (∃ n1, gsub_loop (.template [37, 48]) anchor (if byteAt p 0 = 94 then 1 else 0) max_s k
          ms src lm n b = .ok (s, n1)) ∨
      (∃ e j, j ≤ s.length ∧ attempt s p j = .error e ∧
        gsub_loop (.template [37, 48]) anchor (if byteAt p 0 = 94 then 1 else 0) max_s k
          ms src lm n b = .error e) := by
  intro k
  induction k with
  | zero => intro ms src lm n b _ _ _ h; omega
  | succ k ih =>
    intro ms src lm n b hms hsrc hb hk
    rw [gsub_loop]
    by_cases hn : n < max_s
    swap
    · rw [if_neg hn]
      left
      exact ⟨n, by simp [gsub_finish, hms.src, hb]⟩
    rw [if_pos hn]
    obtain ⟨ms0, hre, heq⟩ := reprepstate_scan s p ms hms
    have hpe : ms0.p_end = p.length := by simp only [MatchState.p_end, heq.pat]; rfl
    have hp0 : (if byteAt p 0 = 94 then 1 else 0) ≤ ms0.p_end := by
      rw [hpe]
      split_ifs with h94
      · exact lt_length_of_byteAt_ne_zero (by omega)
      · exact Nat.zero_le _
    have hnf := do_match_ne_outOfFuel ms0 src _ hp0
    have hr := do_match_respects (matchFuel p.length) ms0 (prepstate s p) src
      (if byteAt p 0 = 94 then 1 else 0) heq
    rw [hre]
    simp only [hpe] at hnf ⊢
    cases ha : do_match (matchFuel p.length) ms0 src (if byteAt p 0 = 94 then 1 else 0) with
    | outOfFuel => exact absurd ha hnf
    | error e =>
      right
      rw [ha] at hr
      exact ⟨e, src, hsrc, hr.of_error, rfl⟩
    | ok v =>
      obtain ⟨r, ms1⟩ := v
      have hf := do_match_framed _ _ _ _ _ _ ha
      have hs1 : ScanState s p ms1 := scanState_of_frame s p ms0 ms1 r heq hf
      have hlen1 : ms1.src_end = s.length := by simp only [MatchState.src_end, hs1.src]
      simp only
      by_cases hc : r.isSome = true ∧ r ≠ lm
      · rw [if_pos hc]
        obtain ⟨e, rfl⟩ := Option.isSome_iff_exists.mp hc.1
        have hcl0 : MAXCAPTURES ≤ ms0.capture.length := by
          rw [heq.caplen]
          simp [prepstate, blankCaptures]
        have hse0 : ms0.src_end = s.length := by simp only [MatchState.src_end, heq.src]; rfl
        have hlv0 : ms0.level = 0 := heq.level
        have hbd := do_match_bounds _ src ms0 src _ e ms1 hcl0 (by rw [hse0]; exact hsrc)
          (le_refl _) (capsWithin_empty _ _ _ hlv0) ha
        rw [hse0] at hbd
        simp only [Option.getD_some, add_value]
        rw [add_s_whole_match]
        simp only
        have hb1 : b ++ (ms1.src.drop src).take (e - src) = s.take e := by
          rw [hs1.src, hb]
          exact take_extend s src e hbd.1
        rw [hb1]
        cases anchor with
        | true =>
          left
          exact ⟨n + 1, by simp [gsub_finish, hs1.src]⟩
        | false =>
          simp only [Bool.false_eq_true, if_false]
          exact ih ms1 e (some e) (n + 1) (s.take e) hs1 hbd.2.1 rfl (by omega)
      · rw [if_neg hc]
        by_cases hlt : src < ms1.src_end
        · rw [if_pos hlt]
          rw [hlen1] at hlt
          have hb1 : b ++ [byteAt ms1.src src] = s.take (src + 1) := by
            rw [hs1.src, hb]
            exact take_one_more s src hlt
          rw [hb1]
          cases anchor with
          | true =>
            left
            exact ⟨n, by simp [gsub_finish, hs1.src]⟩
          | false =>
            simp only [Bool.false_eq_true, if_false]
            exact ih ms1 (src + 1) lm n (s.take (src + 1)) hs1 hlt rfl (by omega)
        · rw [if_neg hlt]
          left
          exact ⟨n, by simp [gsub_finish, hs1.src, hb]⟩

/-- C21: substituting the whole match for itself rebuilds the subject.  For
every subject `s`, every pattern `p` and every `max_count` (given or not),
`gsub(s, p, "%0", max_count)` terminates; whenever it returns, the text it
returns is exactly `s`, whatever the count; and the only errors it raises are
errors raised by a match attempt at some position of the subject, so it
returns whenever matching raises no error. -/
theorem gsub_whole_match_rebuilds (s p : Bytes) (max_s : Option Int) :
    str_gsub s p (.template [37, 48]) max_s ≠ .outOfFuel ∧
    (∀ t n, str_gsub s p (.template [37, 48]) max_s = .ok (t, n) → t = s) ∧
    (∀ e, str_gsub s p (.template [37, 48]) max_s = .error e →
      ∃ j, j ≤ s.length ∧ attempt s p j = .error e) ∧
    ((∀ j, j ≤ s.length → ∀ e, attempt s p j ≠ .error e) →
      ∃ n, str_gsub s p (.template [37, 48]) max_s = .ok (s, n)) := by
  have hmain : (∃ n1, str_gsub s p (.template [37, 48]) max_s = .ok (s, n1)) ∨
      (∃ e j, j ≤ s.length ∧ attempt s p j = .error e ∧
        str_gsub s p (.template [37, 48]) max_s = .error e) := by
    unfold str_gsub
    simp only
    have h := gsub_loop_rebuild s p (decide (byteAt p 0 = 94))
      (max_s.getD ((s.length : Int) + 1))
      ((max_s.getD ((s.length : Int) + 1)).toNat + s.length + 1) (prepstate s p) 0 none 0 []
      (scanState_prepstate s p) (Nat.zero_le _) (by simp) (by simp)
    simpa using h
  rcases hmain with ⟨n1, h1⟩ | ⟨e, j, hj, ha, he⟩
  · rw [h1]
    refine ⟨by simp, ?_, ?_, fun _ => ⟨n1, rfl⟩⟩
    · intro t n h
      simp only [Res.ok.injEq, Prod.mk.injEq] at h
      exact h.1.symm
    · intro e h
      cases h
  · rw [he]
    refine ⟨by simp, ?_, ?_, fun hall => absurd ha (hall j hj e)⟩
    · intro t n h
      cases h
    · intro e2 h
      simp only [Res.error.injEq] at h
      subst h
      exact ⟨j, hj, ha⟩

/-! ### C16: the budget after a raise -/

theorem start_capture_kept_erase (mk : KMatcher) (m : Matcher)
    (h : ∀ ms s p, (mk ms s p).erase = m ms s p) (ms : MatchState) (s p : Nat) (what : Int) :
    (start_capture_kept mk ms s p what).erase = start_capture m ms s p what := by
  unfold start_capture_kept start_capture
  simp only
  by_cases hl : ms.level ≥ MAXCAPTURES
  · rw [if_pos hl, if_pos hl]
    rfl
  · rw [if_neg hl, if_neg hl, ← h]
    cases hr : mk { ms with capture := ms.capture.set ms.level ⟨s, what⟩, level := ms.level + 1 }
        s p with
    | raised e k => rfl
    | outOfFuel => rfl
    | ok v =>
      obtain ⟨r, ms2⟩ := v
      cases r <;> rfl

theorem end_capture_kept_erase (mk : KMatcher) (m : Matcher)
    (h : ∀ ms s p, (mk ms s p).erase = m ms s p) (ms : MatchState) (s p : Nat) :
    (end_capture_kept mk ms s p).erase = end_capture m ms s p := by
  unfold end_capture_kept end_capture
  cases hc : capture_to_close ms with
  | error e => rfl
  | outOfFuel => rfl
  | ok l =>
    simp only
    rw [← h]
    cases hr : mk { ms with capture := ms.capture.set l ⟨(ms.cap l).init, (s : Int) - (ms.cap l).init⟩ }
        s p with
    | raised e k => rfl
    | outOfFuel => rfl
    | ok v =>
      obtain ⟨r, ms2⟩ := v
      cases r <;> rfl

theorem max_expand_try_kept_erase (mk : KMatcher) (m : Matcher)
    (h : ∀ ms s p, (mk ms s p).erase = m ms s p) (s ep : Nat) :
    ∀ i ms, (max_expand_try_kept mk s ep i ms).erase = max_expand_try m s ep i ms := by
  intro i
  induction i with
  | zero => intro ms; rw [max_expand_try_kept, max_expand_try]; exact h _ _ _
  | succ i ih =>
    intro ms
    rw [max_expand_try_kept, max_expand_try, ← h]
    cases hr : mk ms (s + (i + 1)) (ep + 1) with
    | raised e k => rfl
    | outOfFuel => rfl
    | ok v =>
      obtain ⟨r, ms2⟩ := v
      cases r with
      | some e => rfl
      | none => exact ih ms2

theorem min_expand_loop_kept_erase (mk : KMatcher) (m : Matcher)
    (h : ∀ ms s p, (mk ms s p).erase = m ms s p) (p ep : Nat) :
    ∀ fuel ms s, (min_expand_loop_kept mk p ep fuel ms s).erase
      = min_expand_loop m p ep fuel ms s := by
  intro fuel
  induction fuel with
  | zero => intro ms s; rfl
  | succ fuel ih =>
    intro ms s
    rw [min_expand_loop_kept, min_expand_loop, ← h]
    cases hr : mk ms s (ep + 1) with
    | raised e k => rfl
    | outOfFuel => rfl
    | ok v =>
      obtain ⟨r, ms2⟩ := v
      cases r with
      | some e => rfl
      | none =>
        simp only [KRes.erase]
        by_cases hsm : singlematch ms2 s p ep = true
        · rw [if_pos hsm, if_pos hsm]
          exact ih ms2 (s + 1)
        · rw [if_neg hsm, if_neg hsm]

theorem match_entry_kept_erase (bk : KMatcher) (b : Matcher)
    (h : ∀ ms s p, (bk ms s p).erase = b ms s p) (ms : MatchState) (s p : Nat) :
    (match_entry_kept bk ms s p).erase = match_entry b ms s p := by
  unfold match_entry_kept match_entry
  by_cases hd : ms.matchdepth = 0
  · rw [if_pos hd, if_pos hd]
    rfl
  · rw [if_neg hd, if_neg hd, ← h]
    cases hr : bk { ms with matchdepth := ms.matchdepth - 1 } s p with
    | raised e k => rfl
    | outOfFuel => rfl
    | ok v =>
      obtain ⟨r, ms2⟩ := v
      rfl

theorem match_default_kept_erase (gk ck : KMatcher) (g c : Matcher)
    (hg : ∀ ms s p, (gk ms s p).erase = g ms s p) (hc : ∀ ms s p, (ck ms s p).erase = c ms s p)
    (ms : MatchState) (s p : Nat) :
    (match_default_kept gk ck ms s p).erase = match_default g c ms s p := by
  unfold match_default_kept match_default
  cases hce : classend ms p with
  | error e => rfl
  | outOfFuel => rfl
  | ok ep =>
    simp only
    by_cases hsm : singlematch ms s p ep = true
    · have hn : ¬ ¬ singlematch ms s p ep = true := not_not.mpr hsm
      simp only [if_neg hn]
      by_cases h63 : byteAt ms.pat ep = 63
      · simp only [if_pos h63]
        rw [← hc]
        cases hr : ck ms (s + 1) (ep + 1) with
        | raised e k => rfl
        | outOfFuel => rfl
        | ok v =>
          obtain ⟨r, ms2⟩ := v
          cases r with
          | some e => rfl
          | none => exact hg _ _ _
      · simp only [if_neg h63]
        by_cases h43 : byteAt ms.pat ep = 43
        · simp only [if_pos h43]
          exact max_expand_try_kept_erase ck c hc _ _ _ _
        · simp only [if_neg h43]
          by_cases h42 : byteAt ms.pat ep = 42
          · simp only [if_pos h42]
            exact max_expand_try_kept_erase ck c hc _ _ _ _
          · simp only [if_neg h42]
            by_cases h45 : byteAt ms.pat ep = 45
            · simp only [if_pos h45]
              exact min_expand_loop_kept_erase ck c hc _ _ _ _ _
            · simp only [if_neg h45]
              exact hg _ _ _
    · simp only [if_pos hsm]
      by_cases hq : byteAt ms.pat ep = 42 ∨ byteAt ms.pat ep = 63 ∨ byteAt ms.pat ep = 45
      · simp only [if_pos hq]
        exact hg _ _ _
      · simp only [if_neg hq]
        rfl

/-- The matcher that keeps the state of a raise gives the outcomes of `match`. -/
theorem match_init_kept_erase :
    ∀ fuel ms s p, (match_init_kept fuel ms s p).erase = match_init fuel ms s p := by
  intro fuel
  induction fuel with
  | zero => intro ms s p; rfl
  | succ fuel ih =>
    have hcall : ∀ ms s p, (match_entry_kept (match_init_kept fuel) ms s p).erase
        = match_entry (match_init fuel) ms s p := match_entry_kept_erase _ _ ih
    intro ms s p
    rw [match_init_kept, match_init]
    simp only
    by_cases hp : p ≠ ms.p_end
    swap
    · simp only [if_neg hp]
      rfl
    simp only [if_pos hp]
    by_cases h40 : byteAt ms.pat p = 40
    · simp only [if_pos h40]
      by_cases h41 : byteAt ms.pat (p + 1) = 41
      · simp only [if_pos h41]
        exact start_capture_kept_erase _ _ hcall _ _ _ _
      · simp only [if_neg h41]
        exact start_capture_kept_erase _ _ hcall _ _ _ _
    simp only [if_neg h40]
    by_cases h41 : byteAt ms.pat p = 41
    · simp only [if_pos h41]
      exact end_capture_kept_erase _ _ hcall _ _ _
    simp only [if_neg h41]
    by_cases h36 : byteAt ms.pat p = 36 ∧ p + 1 = ms.p_end
    · simp only [if_pos h36]
      rfl
    simp only [if_neg h36]
    by_cases h37 : byteAt ms.pat p = ESC
    swap
    · simp only [if_neg h37]
      exact match_default_kept_erase _ _ _ _ ih hcall _ _ _
    simp only [if_pos h37]
    by_cases h98 : byteAt ms.pat (p + 1) = 98
    · simp only [if_pos h98]
      cases hb : matchbalance ms s (p + 2) with
      | error e => rfl
      | outOfFuel => rfl
      | ok r =>
        cases r with
        | none => rfl
        | some s1 => exact ih _ _ _
    simp only [if_neg h98]
    by_cases h102 : byteAt ms.pat (p + 1) = 102
    · simp only [if_pos h102]
      by_cases h91 : byteAt ms.pat (p + 2) ≠ 91
      · simp only [if_pos h91]
        rfl
      simp only [if_neg h91]
      cases hce : classend ms (p + 2) with
      | error e => rfl
      | outOfFuel => rfl
      | ok ep =>
        simp only
        split_ifs
        all_goals first | rfl | exact ih _ _ _
    simp only [if_neg h102]
    by_cases hdg : 48 ≤ byteAt ms.pat (p + 1) ∧ byteAt ms.pat (p + 1) ≤ 57
    · simp only [if_pos hdg]
      cases hb : match_capture ms s (byteAt ms.pat (p + 1)) with
      | error e => rfl
      | outOfFuel => rfl
      | ok r =>
        cases r with
        | none => rfl
        | some s1 => exact ih _ _ _
    simp only [if_neg hdg]
    exact match_default_kept_erase _ _ _ _ ih hcall _ _ _

theorem do_match_kept_erase (fuel : Nat) (ms : MatchState) (s p : Nat) :
    (do_match_kept fuel ms s p).erase = do_match fuel ms s p :=
  match_entry_kept_erase _ _ (match_init_kept_erase fuel) ms s p

theorem keepsBudget_of_erase (mk : KMatcher) (m : Matcher)
    (h : ∀ ms s p, (mk ms s p).erase = m ms s p) (hfr : Framed m) : KeepsBudget mk := by
  intro ms s p r ms1 hok
  have := h ms s p
  rw [hok] at this
  exact (hfr ms s p r ms1 this.symm).depth

theorem start_capture_kept_spends (m : KMatcher) (hs : SpendsBudget m) (what : Int)
    (ms : MatchState) (s p : Nat) (e : Err) (k : Kept)
    (h : start_capture_kept m ms s p what = .raised e k) :
    k.matchdepth ≤ (ms.matchdepth : Int) := by
  unfold start_capture_kept at h
  simp only at h
  by_cases hl : ms.level ≥ MAXCAPTURES
  · rw [if_pos hl] at h
    simp only [KRes.raised.injEq] at h
    rw [← h.2]
    exact le_refl _
  · rw [if_neg hl] at h
    cases hr : m { ms with capture := ms.capture.set ms.level ⟨s, what⟩, level := ms.level + 1 }
        s p with
    | outOfFuel => rw [hr] at h; cases h
    | ok v =>
      obtain ⟨r, ms2⟩ := v
      rw [hr] at h
      cases r <;> cases h
    | raised e2 k2 =>
      rw [hr] at h
      simp only [KRes.raised.injEq] at h
      rw [← h.2]
      have := hs _ _ _ _ _ hr
      exact this

theorem end_capture_kept_spends (m : KMatcher) (hs : SpendsBudget m)
    (ms : MatchState) (s p : Nat) (e : Err) (k : Kept)
    (h : end_capture_kept m ms s p = .raised e k) :
    k.matchdepth ≤ (ms.matchdepth : Int) := by
  unfold end_capture_kept at h
  cases hc : capture_to_close ms with
  | outOfFuel => rw [hc] at h; cases h
  | error e2 =>
    rw [hc] at h
    simp only [KRes.raised.injEq] at h
    rw [← h.2]
    exact le_refl _
  | ok l =>
    rw [hc] at h
    simp only at h
    cases hr : m { ms with capture := ms.capture.set l ⟨(ms.cap l).init, (s : Int) - (ms.cap l).init⟩ }
        s p with
    | outOfFuel => rw [hr] at h; cases h
    | ok v =>
      obtain ⟨r, ms2⟩ := v
      rw [hr] at h
      cases r <;> cases h
    | raised e2 k2 =>
      rw [hr] at h
      simp only [KRes.raised.injEq] at h
      rw [← h.2]
      have := hs _ _ _ _ _ hr
      exact this

theorem max_expand_try_kept_spends (m : KMatcher) (hs : SpendsBudget m) (hk : KeepsBudget m)
    (s ep : Nat) :
    ∀ i ms e k, max_expand_try_kept m s ep i ms = .raised e k →
      k.matchdepth ≤ (ms.matchdepth : Int) := by
  intro i
  induction i with
  | zero =>
    intro ms e k h
    rw [max_expand_try_kept] at h
    exact hs _ _ _ _ _ h
  | succ i ih =>
    intro ms e k h
    rw [max_expand_try_kept] at h
    cases hr : m ms (s + (i + 1)) (ep + 1) with
    | outOfFuel => rw [hr] at h; cases h
    | raised e2 k2 =>
      rw [hr] at h
      simp only [KRes.raised.injEq] at h
      rw [← h.2]
      exact hs _ _ _ _ _ hr
    | ok v =>
      obtain ⟨r, ms2⟩ := v
      rw [hr] at h
      cases r with
      | some res => cases h
      | none =>
        have := ih ms2 e k h
        rw [hk _ _ _ _ _ hr] at this
        exact this

theorem min_expand_loop_kept_spends (m : KMatcher) (hs : SpendsBudget m) (hk : KeepsBudget m)
    (p ep : Nat) :
    ∀ fuel ms s e k, min_expand_loop_kept m p ep fuel ms s = .raised e k →
      k.matchdepth ≤ (ms.matchdepth : Int) := by
  intro fuel
  induction fuel with
  | zero => intro ms s e k h; simp [min_expand_loop_kept] at h
  | succ fuel ih =>
    intro ms s e k h
    rw [min_expand_loop_kept] at h
    cases hr : m ms s (ep + 1) with
    | outOfFuel => rw [hr] at h; cases h
    | raised e2 k2 =>
      rw [hr] at h
      simp only [KRes.raised.injEq] at h
      rw [← h.2]
      exact hs _ _ _ _ _ hr
    | ok v =>
      obtain ⟨r, ms2⟩ := v
      rw [hr] at h
      cases r with
      | some res => cases h
      | none =>
        simp only at h
        by_cases hsm : singlematch ms2 s p ep = true
        · rw [if_pos hsm] at h
          have := ih ms2 (s + 1) e k h
          rw [hk _ _ _ _ _ hr] at this
          exact this
        · rw [if_neg hsm] at h
          cases h

/-- A raise out of a call of `match` leaves the budget below its value on
entry: the decrement of the entry check is not undone. -/
theorem match_entry_kept_spends (body : KMatcher) (hs : SpendsBudget body)
    (ms : MatchState) (s p : Nat) (e : Err) (k : Kept)
    (h : match_entry_kept body ms s p = .raised e k) :
    k.matchdepth < (ms.matchdepth : Int) := by
  unfold match_entry_kept at h
  by_cases hd : ms.matchdepth = 0
  · rw [if_pos hd] at h
    simp only [KRes.raised.injEq] at h
    rw [← h.2, hd]
    simp
  · rw [if_neg hd] at h
    cases hr : body { ms with matchdepth := ms.matchdepth - 1 } s p with
    | outOfFuel => rw [hr] at h; cases h
    | ok v =>
      obtain ⟨r, ms2⟩ := v
      rw [hr] at h
      cases h
    | raised e2 k2 =>
      rw [hr] at h
      simp only [KRes.raised.injEq] at h
      rw [← h.2]
      have := hs _ _ _ _ _ hr
      simp only at this
      omega

theorem match_default_kept_spends (goto call : KMatcher) (hg : SpendsBudget goto)
    (hc : SpendsBudget call) (hck : KeepsBudget call) : SpendsBudget (match_default_kept goto call) := by
  intro ms s p e k h
  unfold match_default_kept at h
  cases hce : classend ms p with
  | outOfFuel => rw [hce] at h; cases h
  | error e2 =>
    rw [hce] at h
    simp only [KRes.raised.injEq] at h
    rw [← h.2]
    exact le_refl _
  | ok ep =>
    rw [hce] at h
    simp only at h
    by_cases hsm : singlematch ms s p ep = true
    · rw [if_neg (by simpa using hsm)] at h
      by_cases h63 : byteAt ms.pat ep = 63
      · rw [if_pos h63] at h
        cases hr : call ms (s + 1) (ep + 1) with
        | outOfFuel => rw [hr] at h; cases h
        | raised e2 k2 =>
          rw [hr] at h
          simp only [KRes.raised.injEq] at h
          rw [← h.2]
          exact hc _ _ _ _ _ hr
        | ok v =>
          obtain ⟨r, ms2⟩ := v
          rw [hr] at h
          cases r with
          | some res => cases h
          | none =>
            simp only at h
            have := hg _ _ _ _ _ h
            rw [hck _ _ _ _ _ hr] at this
            exact this
      · rw [if_neg h63] at h
        by_cases h43 : byteAt ms.pat ep = 43
        · rw [if_pos h43] at h
          exact max_expand_try_kept_spends call hc hck _ _ _ _ _ _ h
        · rw [if_neg h43] at h
          by_cases h42 : byteAt ms.pat ep = 42
          · rw [if_pos h42] at h
            exact max_expand_try_kept_spends call hc hck _ _ _ _ _ _ h
          · rw [if_neg h42] at h
            by_cases h45 : byteAt ms.pat ep = 45
            · rw [if_pos h45] at h
              exact min_expand_loop_kept_spends call hc hck _ _ _ _ _ _ _ h
            · rw [if_neg h45] at h
              exact hg _ _ _ _ _ h
    · rw [if_pos hsm] at h
      split_ifs at h
      · exact hg _ _ _ _ _ h

theorem raised_self {ms : MatchState} {e e2 : Err} {k : Kept}
    (h : KRes.raised e2 ms.kept = KRes.raised e k) : k.matchdepth ≤ (ms.matchdepth : Int) := by
  simp only [KRes.raised.injEq] at h
  rw [← h.2]
  exact le_refl _

theorem match_init_kept_spends : ∀ fuel, SpendsBudget (match_init_kept fuel) := by
  intro fuel
  induction fuel with
  | zero => intro ms s p e k h; simp [match_init_kept] at h
  | succ fuel ih =>
    have hcall : SpendsBudget (match_entry_kept (match_init_kept fuel)) :=
      fun ms s p e k h => le_of_lt (match_entry_kept_spends _ ih ms s p e k h)
    have hck : KeepsBudget (match_entry_kept (match_init_kept fuel)) :=
      keepsBudget_of_erase _ _ (match_entry_kept_erase _ _ (match_init_kept_erase fuel))
        (match_entry_framed _ (match_init_framed fuel))
    intro ms s p e k h
    rw [match_init_kept] at h
    simp only at h
    by_cases hp : p ≠ ms.p_end
    swap
    · rw [if_neg hp] at h
      cases h
    rw [if_pos hp] at h
    by_cases h40 : byteAt ms.pat p = 40
    · rw [if_pos h40] at h
      by_cases h41 : byteAt ms.pat (p + 1) = 41
      · rw [if_pos h41] at h
        exact start_capture_kept_spends _ hcall _ _ _ _ _ _ h
      · rw [if_neg h41] at h
        exact start_capture_kept_spends _ hcall _ _ _ _ _ _ h
    rw [if_neg h40] at h
    by_cases h41 : byteAt ms.pat p = 41
    · rw [if_pos h41] at h
      exact end_capture_kept_spends _ hcall _ _ _ _ _ h
    rw [if_neg h41] at h
    by_cases h36 : byteAt ms.pat p = 36 ∧ p + 1 = ms.p_end
    · rw [if_pos h36] at h
      cases h
    rw [if_neg h36] at h
    by_cases h37 : byteAt ms.pat p = ESC
    swap
    · rw [if_neg h37] at h
      exact match_default_kept_spends _ _ ih hcall hck _ _ _ _ _ h
    rw [if_pos h37] at h
    by_cases hb : byteAt ms.pat (p + 1) = 98
    · rw [if_pos hb] at h
      cases hmb : matchbalance ms s (p + 2) with
      | error e2 => rw [hmb] at h; exact raised_self h
      | outOfFuel => rw [hmb] at h; cases h
      | ok v =>
        rw [hmb] at h
        cases v with
        | some s1 => exact ih _ _ _ _ _ h
        | none => cases h
    rw [if_neg hb] at h
    by_cases hf : byteAt ms.pat (p + 1) = 102
    · rw [if_pos hf] at h
      by_cases hbr : byteAt ms.pat (p + 2) ≠ 91
      · rw [if_pos hbr] at h
        exact raised_self h
      rw [if_neg hbr] at h
      cases hce : classend ms (p + 2) with
      | error e2 => rw [hce] at h; exact raised_self h
      | outOfFuel => rw [hce] at h; cases h
      | ok ep =>
        rw [hce] at h
        simp only at h
        split_ifs at h
        all_goals exact ih _ _ _ _ _ h
    rw [if_neg hf] at h
    by_cases hd : 48 ≤ byteAt ms.pat (p + 1) ∧ byteAt ms.pat (p + 1) ≤ 57
    · rw [if_pos hd] at h
      cases hmc : match_capture ms s (byteAt ms.pat (p + 1)) with
      | error e2 => rw [hmc] at h; exact raised_self h
      | outOfFuel => rw [hmc] at h; cases h
      | ok v =>
        rw [hmc] at h
        cases v with
        | some s1 => exact ih _ _ _ _ _ h
        | none => cases h
    rw [if_neg hd] at h
    exact match_default_kept_spends _ _ ih hcall hck _ _ _ _ _ h

/-- A call of `match` that raises leaves the budget below its value on
entry. -/
theorem do_match_kept_raise (fuel : Nat) (ms : MatchState) (s p : Nat) (e : Err) (k : Kept)
    (h : do_match_kept fuel ms s p = .raised e k) : k.matchdepth < (ms.matchdepth : Int) :=
  match_entry_kept_spends _ (match_init_kept_spends fuel) ms s p e k h

theorem do_match_kept_cases (fuel : Nat) (ms : MatchState) (s p : Nat) :
    (∃ r ms1, do_match_kept fuel ms s p = .ok (r, ms1) ∧ do_match fuel ms s p = .ok (r, ms1)) ∨
    (∃ e k, do_match_kept fuel ms s p = .raised e k ∧ do_match fuel ms s p = .error e) ∨
    (do_match_kept fuel ms s p = .outOfFuel ∧ do_match fuel ms s p = .outOfFuel) := by
  have h := do_match_kept_erase fuel ms s p
  cases hr : do_match_kept fuel ms s p with
  | ok v =>
    rw [hr] at h
    exact Or.inl ⟨v.1, v.2, rfl, h.symm⟩
  | raised e k =>
    rw [hr] at h
    exact Or.inr (Or.inl ⟨e, k, rfl, h.symm⟩)
  | outOfFuel =>
    rw [hr] at h
    exact Or.inr (Or.inr ⟨rfl, h.symm⟩)

/-- On a state with the full budget, a call of the generator on the kept
state does what `gmatch_aux` does, and leaves the state `gmatch_aux` returns. -/
theorem gmatch_aux_kept_loop_agrees :
    ∀ n (gm : GMatchState) src, gm.ms.matchdepth = MAXCCALLS →
      (∀ caps gm1, gmatch_aux_loop n gm src = .ok (some caps, gm1) →
        gmatch_aux_kept_loop n gm.toKept src = (.values caps, gm1.toKept)) ∧
      (∀ gm1, gmatch_aux_loop n gm src = .ok (none, gm1) →
        gmatch_aux_kept_loop n gm.toKept src = (.exhausted, gm1.toKept)) ∧
      (∀ e, gmatch_aux_loop n gm src = .error e →
        (gmatch_aux_kept_loop n gm.toKept src).1 = .raised e) := by
  intro n
  induction n with
  | zero => intro gm src _; simp [gmatch_aux_loop]
  | succ n ih =>
    intro gm src hd
    rw [gmatch_aux_loop, gmatch_aux_kept_loop]
    by_cases hsrc : src ≤ gm.ms.src_end
    swap
    · have hsrc2 : ¬ src ≤ gm.toKept.subject.length := hsrc
      rw [if_neg hsrc, if_neg hsrc2]
      refine ⟨fun caps gm1 h => by simp at h, fun gm1 h => ?_, fun e h => by simp at h⟩
      simp only [Res.ok.injEq, Prod.mk.injEq, true_and] at h
      rw [h]
    have hsrc2 : src ≤ gm.toKept.subject.length := hsrc
    have hre : reprepstate gm.ms = .ok { gm.ms with level := 0 } := by simp [reprepstate, hd]
    rw [if_pos hsrc, if_pos hsrc2, hre]
    simp only
    have hk0 : ¬ (gm.toKept.kept.matchdepth ≠ (MAXCCALLS : Int)) := by
      simp [GMatchState.toKept, MatchState.kept, hd]
    rw [if_neg hk0]
    have hms0 : (⟨gm.toKept.subject, gm.toKept.pat, MAXCCALLS, 0, gm.toKept.kept.capture⟩
        : MatchState) = { gm.ms with level := 0 } := by
      simp [GMatchState.toKept, MatchState.kept, hd]
    rw [hms0]
    generalize hg0 : ({ gm.ms with level := 0 } : MatchState) = ms0
    have hsrc0 : ms0.src = gm.ms.src := by rw [← hg0]
    have hpat0 : ms0.pat = gm.ms.pat := by rw [← hg0]
    have hd0 : ms0.matchdepth = MAXCCALLS := by rw [← hg0]; exact hd
    have hp : gm.toKept.p = gm.p := rfl
    have hlm : gm.toKept.lastmatch = gm.lastmatch := rfl
    rw [hp, hlm]
    rcases do_match_kept_cases (matchFuel ms0.p_end) ms0 src gm.p with
      ⟨r, ms1, hkk, hmm⟩ | ⟨e, k, hkk, hmm⟩ | ⟨hkk, hmm⟩
    · have hf := do_match_framed _ _ _ _ _ _ hmm
      have hs1 : ms1.src = gm.ms.src := hf.src.trans hsrc0
      have hp1 : ms1.pat = gm.ms.pat := hf.pat.trans hpat0
      have hd1 : ms1.matchdepth = MAXCCALLS := hf.depth.trans hd0
      have hup : ({ gm with ms := ms1 } : GMatchState).toKept
          = { gm.toKept with kept := ms1.kept } := by
        simp [GMatchState.toKept, hs1, hp1]
      rw [hkk, hmm]
      cases r with
      | none =>
        simp only
        have := ih { gm with ms := ms1 } (src + 1) hd1
        rw [hup] at this
        exact this
      | some e =>
        simp only
        by_cases hne : some e ≠ gm.lastmatch
        · rw [if_pos hne, if_pos hne]
          have hup2 : ({ gm with src := e, lastmatch := some e, ms := ms1 } : GMatchState).toKept
              = { gm.toKept with src := e, lastmatch := some e, kept := ms1.kept } := by
            simp [GMatchState.toKept, hs1, hp1]
          cases hpc : push_captures ms1 (some src) e with
          | ok caps =>
            simp only
            refine ⟨fun caps2 gm1 h => ?_, fun gm1 h => by simp at h, fun e2 h => by simp at h⟩
            simp only [Res.ok.injEq, Prod.mk.injEq, Option.some.injEq] at h
            rw [← h.1, ← h.2, hup2]
            rfl
          | error err =>
            simp only
            refine ⟨fun caps2 gm1 h => by simp at h, fun gm1 h => by simp at h, fun e2 h => ?_⟩
            simp only [Res.error.injEq] at h
            rw [h]
          | outOfFuel =>
            simp only
            exact ⟨fun caps2 gm1 h => by simp at h, fun gm1 h => by simp at h,
              fun e2 h => by simp at h⟩
        · rw [if_neg hne, if_neg hne]
          have := ih { gm with ms := ms1 } (src + 1) hd1
          rw [hup] at this
          exact this
    · rw [hkk, hmm]
      simp only
      refine ⟨fun caps2 gm1 h => by simp at h, fun gm1 h => by simp at h, fun e2 h => ?_⟩
      simp only [Res.error.injEq] at h
      rw [h]
    · rw [hkk, hmm]
      simp only
      exact ⟨fun caps2 gm1 h => by simp at h, fun gm1 h => by simp at h, fun e2 h => by simp at h⟩

/-- A call of the generator on a kept state whose budget is not `MAXCCALLS`,
with the cursor inside the subject, fails the assertion of `reprepstate`. -/
theorem gmatch_aux_kept_asserts (gm : GMatchKept) (hd : gm.kept.matchdepth ≠ (MAXCCALLS : Int))
    (hs : gm.src ≤ gm.subject.length) :
    (gmatch_aux_kept gm).1 = .raised .assertionFailed := by
  unfold gmatch_aux_kept
  rw [gmatch_aux_kept_loop, if_pos hs]
  simp only
  rw [if_pos hd]

/-- C16, a defect of the code: for `gmatch("a", "a%")` the first call of the
generator raises "malformed pattern (ends with '%')" from inside `match`,
which has decremented the budget and does not restore it on a raise, so the
state kept in the closure holds the budget 199; the second call of the
generator then resets the capture stack with a budget that is not the ceiling
200, and the assertion of `reprepstate` fails.  In general, every call of
`match` that raises leaves the budget below its value on entry. -/
theorem gmatch_raise_breaks_next_reset :
    gmatch_aux (gmatch [97] [97, 37]) = .error .malformedEndsWithEsc ∧
    (gmatch [97] [97, 37]).toKept = gmatch_kept [97] [97, 37] ∧
    gmatch_aux_kept (gmatch_kept [97] [97, 37]) =
      (.raised .malformedEndsWithEsc, ⟨0, 0, none, [97], [97, 37], ⟨199, 0, blankCaptures⟩⟩) ∧
    (gmatch_aux_kept ⟨0, 0, none, [97], [97, 37], ⟨199, 0, blankCaptures⟩⟩).1 =
      .raised .assertionFailed ∧
    (∀ fuel ms s p e k, do_match_kept fuel ms s p = .raised e k →
      k.matchdepth < (ms.matchdepth : Int)) :=
  ⟨by decide, by decide, by decide, by decide, do_match_kept_raise⟩

end LuaPatt
